import Mathlib

/-!
# Bencode codec of torrent-file-editor: a shallow embedding of `src/bencode.cpp`

Bytes are natural numbers (a real byte is below 256), a `QByteArray` is a `List Nat`,
a `QString` is the list of its UTF-16 code units, `int` positions are `Int`.
The tree of `Bencode` nodes is an owned tree: a node holds its children, and the
parent pointer that `compare` reads is passed along as context.

Steps whose behaviour C++/Qt leaves undefined (reading `raw[pos]` outside the array, a
null dereference, signed `int` overflow) end in `Outcome.fault`, and so does an assertion
that fails in a build with `Q_ASSERT` compiled in; running out of recursion budget ends in
`Outcome.timeout`. The Qt library calls are modelled after their documented behaviour.
-/

namespace Bencode

/-! ## Outcomes -/

/-- Result of running a piece of the parser: a returned value, a step without defined
behaviour (out-of-range read, failed assertion, null dereference, `int` overflow), or an
exhausted recursion budget. -/
inductive Outcome (α : Type) where
  | ok : α → Outcome α
  | fault : Outcome α
  | timeout : Outcome α
  deriving DecidableEq, Repr

/-! ## Qt primitives used by the codec -/

/-- Largest value of a C++ `int`. -/
def INT_MAX : Int := 2147483647

/-- Smallest value of a C++ `qlonglong`. -/
def LLONG_MIN : Int := -9223372036854775808

/-- Largest value of a C++ `qlonglong`. -/
def LLONG_MAX : Int := 9223372036854775807

/-- `raw[pos]` on a const `QByteArray`: defined only for `0 <= pos < size()`. -/
def at? (raw : List Nat) (pos : Int) : Option Nat :=
  if 0 ≤ pos then raw.get? pos.toNat else none

/-- Index of the first occurrence of `ch` in a list, if any. -/
def findChar (ch : Nat) : List Nat → Option Nat
  | [] => none
  | c :: cs => if c = ch then some 0 else (findChar ch cs).map (· + 1)

/-- `QByteArray::indexOf(char ch, int from)`: a negative `from` counts from the end
(clamped at 0); the result is `-1` when `ch` does not occur at or after `from`. -/
def indexOf (raw : List Nat) (ch : Nat) (frm : Int) : Int :=
  let start : Int := if frm < 0 then max (frm + raw.length) 0 else frm
  if start < raw.length then
    match findChar ch (raw.drop start.toNat) with
    | some k => start + k
    | none => -1
  else -1

/-- `QByteArray::mid(int pos, int len)` with Qt's clamping: a start beyond the end gives
the empty array, a negative or too large length gives everything from `pos` on, and a
negative `pos` is moved to 0 with the length shortened accordingly. -/
def mid (raw : List Nat) (pos len : Int) : List Nat :=
  let n : Int := raw.length
  if pos > n then []
  else if pos < 0 then
    if len < 0 ∨ len + pos ≥ n then raw
    else if len + pos ≤ 0 then []
    else raw.take (len + pos).toNat
  else
    let l : Int := if len < 0 ∨ len > n - pos then n - pos else len
    (raw.drop pos.toNat).take l.toNat

/-- `QString(const QByteArray &)`: copying stops at the first zero byte. -/
def qString (ba : List Nat) : List Nat := ba.takeWhile (· ≠ 0)

/-- White space skipped by Qt's number conversion (ASCII part of `QChar::isSpace`). -/
def isSpace (c : Nat) : Bool := c = 32 || (9 ≤ c && c ≤ 13)

/-- ASCII decimal digit test, `c >= '0' && c <= '9'`. -/
def isDigit (c : Nat) : Bool := 48 ≤ c && c ≤ 57

/-- Value of a run of decimal digits read left to right from accumulator `acc`;
`none` when a character is not a digit. -/
def digitsValue : Nat → List Nat → Option Nat
  | acc, [] => some acc
  | acc, c :: cs => if isDigit c then digitsValue (acc * 10 + (c - 48)) cs else none

/-- Drop white space at both ends. -/
def trimmed (s : List Nat) : List Nat :=
  ((s.dropWhile isSpace).reverse.dropWhile isSpace).reverse

/-- Base-10 conversion shared by `toLongLong` and `toInt`: optional white space, an
optional sign, at least one digit, optional white space; `none` when the text has another
shape. -/
def parseDecimal (s : List Nat) : Option Int :=
  match trimmed s with
  | [] => none
  | 45 :: ds => if ds = [] then none else (digitsValue 0 ds).map (fun (n : Nat) => - (n : Int))
  | 43 :: ds => if ds = [] then none else (digitsValue 0 ds).map (fun (n : Nat) => (n : Int))
  | ds => (digitsValue 0 ds).map (fun (n : Nat) => (n : Int))

/-- `QString::toLongLong()`: the value, or 0 when the conversion fails, which includes
a value outside the 64-bit range. -/
def toLongLong (s : List Nat) : Int :=
  match parseDecimal s with
  | some v => if LLONG_MIN ≤ v ∧ v ≤ LLONG_MAX then v else 0
  | none => 0

/-- `QString::toInt()`: the value, or 0 when the conversion fails, which includes a
value outside the 32-bit range. -/
def toInt (s : List Nat) : Int :=
  match parseDecimal s with
  | some v => if -2147483648 ≤ v ∧ v ≤ INT_MAX then v else 0
  | none => 0

/-- Decimal digits of `n`, most significant first, pushed in front of `acc`; the first
argument bounds the number of digits. -/
def natDigits : Nat → Nat → List Nat → List Nat
  | 0, _, acc => acc
  | fuel + 1, n, acc =>
    if n < 10 then (48 + n) :: acc
    else natDigits fuel (n / 10) ((48 + n % 10) :: acc)

/-- `QString::number` of a non-negative value. -/
def numberNat (n : Nat) : List Nat := natDigits (n + 1) n []

/-- `QString::number(qlonglong)`: canonical decimal text, `-` only for negatives. -/
def number (n : Int) : List Nat :=
  if n < 0 then 45 :: numberNat n.natAbs else numberNat n.natAbs

/-- `QByteArray::operator<`, i.e. `qstrcmp(a, b) < 0`: unsigned byte-wise comparison of
the common prefix, the shorter array first on a tie. -/
def baLess : List Nat → List Nat → Bool
  | [], [] => false
  | [], _ :: _ => true
  | _ :: _, [] => false
  | a :: as, b :: bs => if a < b then true else if b < a then false else baLess as bs

/-- The global `hexKeys` list: `pieces`, `originator`, `certificate`, `signature`. -/
def hexKeys : List (List Nat) :=
  [ [112, 105, 101, 99, 101, 115],
    [111, 114, 105, 103, 105, 110, 97, 116, 111, 114],
    [99, 101, 114, 116, 105, 102, 105, 99, 97, 116, 101],
    [115, 105, 103, 110, 97, 116, 117, 114, 101] ]

/-- `hexKeys.contains(QString(key))`. -/
def hexKeysContains (key : List Nat) : Bool := hexKeys.contains (qString key)

/-! ## The `Bencode` node -/

/-- `Bencode::Type`. -/
inductive BType where
  | Invalid | Integer | String | List | Dictionary
  deriving DecidableEq, Repr

/-- A `Bencode` node with the fields of the C++ class (`_type`, `_integer`, `_string`,
`_key`, `_hex`) and the child list it owns through `AbstractTreeItem`. -/
inductive BNode where
  | mk (type : BType) (integer : Int) (string : List Nat) (key : List Nat) (hex : Bool)
      (children : List BNode)
  deriving Repr

/-- Field `_type`. -/
def type : BNode → BType
  | .mk t _ _ _ _ _ => t

/-- Field `_integer`. -/
def integer : BNode → Int
  | .mk _ n _ _ _ _ => n

/-- Field `_string`. -/
def string : BNode → List Nat
  | .mk _ _ s _ _ _ => s

/-- Field `_key`. -/
def key : BNode → List Nat
  | .mk _ _ _ k _ _ => k

/-- Field `_hex`. -/
def hex : BNode → Bool
  | .mk _ _ _ _ h _ => h

/-- The children, `AbstractTreeItem::children()`. -/
def children : BNode → List BNode
  | .mk _ _ _ _ _ cs => cs

/-- `childCount()`. -/
def childCount (b : BNode) : Nat := (children b).length

/-- Constructor `Bencode(Type type, const QByteArray &key)`. -/
def newOfType (t : BType) (k : List Nat) : BNode := .mk t 0 [] k false []

/-- Constructor `Bencode(qlonglong integer, const QByteArray &key)` with the default key. -/
def newInteger (n : Int) : BNode := .mk .Integer n [] [] false []

/-- Constructor `Bencode(const QByteArray &string, const QByteArray &key)` with the
default key. -/
def newString (s : List Nat) : BNode := .mk .String 0 s [] false []

/-- Modelled from the spec: the header `bencode.h` is not among the sources; `new Bencode()`
is the invalid placeholder the spec describes, a node of type `Invalid` with empty key. -/
def newInvalid : BNode := newOfType .Invalid []

/-- Modelled from the spec: `isValid()` is declared in the missing header; it is the
explicit validity check of the spec, true unless the node is the invalid placeholder. -/
def isValid (b : BNode) : Bool := decide (type b ≠ BType.Invalid)

/-- Assignment `item->_key = key`. -/
def setKey (b : BNode) (k : List Nat) : BNode :=
  .mk (type b) (integer b) (string b) k (hex b) (children b)

/-- Assignment `item->_hex = h`. -/
def setHex (b : BNode) (h : Bool) : BNode :=
  .mk (type b) (integer b) (string b) (key b) h (children b)

/-- Replace the child list of a node. -/
def setChildren (b : BNode) (cs : List BNode) : BNode :=
  .mk (type b) (integer b) (string b) (key b) (hex b) cs

/-- Modelled from the spec: `AbstractTreeItem::appendChild` is not among the sources;
the node becomes the new last child. -/
def appendChild (b item : BNode) : BNode := setChildren b (children b ++ [item])

/-- Modelled from the spec: `AbstractTreeItem::insertChild` is not among the sources;
the node becomes the child at `index` and the children from `index` on shift right. -/
def insertChild (b : BNode) (index : Nat) (item : BNode) : BNode :=
  setChildren b ((children b).take index ++ item :: (children b).drop index)

/-- `Bencode::appendMapItem` scanning `child(i)` for `i = index, index + 1, ...`, where
`rest` holds the children from `index` on: the item is inserted before the first child
with a greater key (`insertChild(i, item); break`), and appended when the loop ends
without an insertion (`if (!item->parent()) appendChild(item)`). -/
def appendMapItemScan (b item : BNode) : Nat → List BNode → BNode
  | _, [] => appendChild b item
  | index, c :: rest =>
    if baLess (key item) (key c) then insertChild b index item
    else appendMapItemScan b item (index + 1) rest

/-- `Bencode::appendMapItem(item)` for an item that has no parent. `asserts` tells whether
`Q_ASSERT` is compiled in (a debug build): then a call with an empty key or on a node
that is not a dictionary aborts, which is a fault; in a release build the assertions are
no code. The third assertion, that the item is parentless, is built into the argument
being a free-standing tree, so `item->parent()->removeChild(item)` is never run. -/
def appendMapItem (asserts : Bool) (b item : BNode) : Outcome BNode :=
  if asserts = true ∧ key item = [] then .fault
  else if asserts = true ∧ type b ≠ BType.Dictionary then .fault
  else .ok (appendMapItemScan b item 0 (children b))

mutual
/-- `Bencode::toRaw(const Bencode *)`. -/
def toRaw : BNode → List Nat
  | .mk .Integer n _ _ _ _ => [105] ++ number n ++ [101]
  | .mk .String _ s _ _ _ => number s.length ++ [58] ++ s
  | .mk .List _ _ _ _ cs => [108] ++ toRawList cs ++ [101]
  | .mk .Dictionary _ _ _ _ cs => [100] ++ toRawMap cs ++ [101]
  | .mk .Invalid _ _ _ _ _ => []
/-- Loop of the `List` case of `toRaw`: the children's encodings in order. -/
def toRawList : List BNode → List Nat
  | [] => []
  | c :: cs => toRaw c ++ toRawList cs
/-- Loop of the `Dictionary` case of `toRaw`: for each child, in child order, the key as
a byte string followed by the child's encoding. -/
def toRawMap : List BNode → List Nat
  | [] => []
  | c :: cs => (number (key c).length ++ [58] ++ key c ++ toRaw c) ++ toRawMap cs
end

mutual
/-- `this->compare(other)` for a non-null `other`. `parentType` is the type of `this`'s
parent (`none` for a parentless node), `otherHasParent` tells whether `other->parent()`
is non-null. -/
def compare (parentType : Option BType) (otherHasParent : Bool) : BNode → BNode → Bool
  | .mk t n s k _ cs, .mk t2 n2 s2 k2 _ cs2 =>
    if t ≠ t2 then false
    else if parentType = some BType.Dictionary ∧ otherHasParent = true ∧ k ≠ k2 then false
    else
      match t with
      | .String => decide (s = s2)
      | .Integer => decide (n = n2)
      | .Dictionary => decide (cs.length = cs2.length) && compareChildren t cs cs2
      | .List => decide (cs.length = cs2.length) && compareChildren t cs cs2
      | .Invalid => true
/-- Loop of `compare` over the children of two containers with equally many children:
`child(i)->compare(other->child(i))` for every `i`, false at the first mismatch. The
children of `this` have a parent of type `t`, those of `other` have `other` as parent. -/
def compareChildren (t : BType) : List BNode → List BNode → Bool
  | c :: cs, d :: ds => compare (some t) true c d && compareChildren t cs ds
  | _, _ => true
end

/-! ## The parser -/

/-- `Bencode::parseInteger`. -/
def parseInteger (raw : List Nat) (pos : Int) : Outcome (BNode × Int) :=
  let pos1 := pos + 1
  let endPos := indexOf raw 101 pos1
  if endPos = -1 then .ok (newInvalid, pos1)
  else
    let body := mid raw pos1 (endPos - pos1)
    -- the checking loop: every byte a digit, or a minus sign in first place
    if (body.enum.all fun (i, c) => isDigit c || (i = 0 && c = 45)) then
      .ok (newInteger (toLongLong (qString body)), endPos + 1)
    else .ok (newInvalid, pos1)

/-- `Bencode::parseString`. The final `pos = delimiter + size` is a fault when it leaves
the range of `int`. -/
def parseString (raw : List Nat) (pos : Int) : Outcome (BNode × Int) :=
  let delimiter := indexOf raw 58 pos
  let size := toInt (qString (mid raw pos (delimiter - pos)))
  let delimiter1 := delimiter + 1
  let res := newString (mid raw delimiter1 size)
  if delimiter1 + size > INT_MAX then .fault else .ok (res, delimiter1 + size)

mutual
/-- `Bencode::parseItem`; the result is `none` for the null pointer returned on empty
input. The calls `parseList(raw, pos)` and `parseDictionary(raw, pos)` are entered here:
`pos++`, a fresh container, then the loop. -/
def parseItem (asserts : Bool) : Nat → List Nat → Int → Outcome (Option BNode × Int)
  | 0, _, _ => .timeout
  | fuel + 1, raw, pos =>
    if pos = 0 ∧ raw = [] then .ok (none, pos)
    else
      match at? raw pos with
      | none => .fault
      | some c =>
        if c = 105 then
          match parseInteger raw pos with
          | .ok (r, p) => .ok (some r, p)
          | .fault => .fault
          | .timeout => .timeout
        else if isDigit c then
          match parseString raw pos with
          | .ok (r, p) => .ok (some r, p)
          | .fault => .fault
          | .timeout => .timeout
        else if c = 108 then
          match parseListLoop asserts fuel raw (pos + 1) (newOfType .List []) with
          | .ok (r, p) => .ok (some r, p)
          | .fault => .fault
          | .timeout => .timeout
        else if c = 100 then
          match parseDictionaryLoop asserts fuel raw (pos + 1) (newOfType .Dictionary []) with
          | .ok (r, p) => .ok (some r, p)
          | .fault => .fault
          | .timeout => .timeout
        else .ok (some newInvalid, pos)
/-- The `while (raw[pos] != 'e')` loop of `Bencode::parseList` and the code after it;
`res` is the list built so far. -/
def parseListLoop (asserts : Bool) : Nat → List Nat → Int → BNode → Outcome (BNode × Int)
  | 0, _, _, _ => .timeout
  | fuel + 1, raw, pos, res =>
    match at? raw pos with
    | none => .fault
    | some c =>
      if c ≠ 101 then
        match parseItem asserts fuel raw pos with
        | .ok (none, _) => .fault
        | .ok (some item, p) =>
          if !isValid item then .ok (newInvalid, p)
          else parseListLoop asserts fuel raw p (appendChild res item)
        | .fault => .fault
        | .timeout => .timeout
      else .ok (res, pos + 1)
/-- The `while (raw[pos] != 'e')` loop of `Bencode::parseDictionary` and the code after
it; `res` is the dictionary built so far. -/
def parseDictionaryLoop (asserts : Bool) : Nat → List Nat → Int → BNode → Outcome (BNode × Int)
  | 0, _, _, _ => .timeout
  | fuel + 1, raw, pos, res =>
    match at? raw pos with
    | none => .fault
    | some c =>
      if c ≠ 101 then
        match parseString raw pos with
        | .ok (keyItem, p1) =>
          let k := string keyItem
          match parseItem asserts fuel raw p1 with
          | .ok (none, _) => .fault
          | .ok (some value, p2) =>
            if !isValid value then .ok (newInvalid, p2)
            else
              let value1 := setKey value k
              let value2 := if hexKeysContains k then setHex value1 true else value1
              match appendMapItem asserts res value2 with
              | .ok res1 => parseDictionaryLoop asserts fuel raw p2 res1
              | .fault => .fault
              | .timeout => .timeout
          | .fault => .fault
          | .timeout => .timeout
        | .fault => .fault
        | .timeout => .timeout
      else .ok (res, pos + 1)
end

/-- `Bencode::parseList`. -/
def parseList (asserts : Bool) (fuel : Nat) (raw : List Nat) (pos : Int) :
    Outcome (BNode × Int) :=
  parseListLoop asserts fuel raw (pos + 1) (newOfType .List [])

/-- `Bencode::parseDictionary`. -/
def parseDictionary (asserts : Bool) (fuel : Nat) (raw : List Nat) (pos : Int) :
    Outcome (BNode × Int) :=
  parseDictionaryLoop asserts fuel raw (pos + 1) (newOfType .Dictionary [])

/-- `Bencode::fromRaw`: `parseItem` from position 0, the final position dropped. `fuel`
bounds the number of nested calls and loop rounds, `asserts` tells whether `Q_ASSERT` is
compiled in. -/
def fromRaw (asserts : Bool) (fuel : Nat) (raw : List Nat) : Outcome (Option BNode) :=
  match parseItem asserts fuel raw 0 with
  | .ok (r, _) => .ok r
  | .fault => .fault
  | .timeout => .timeout

/-! ## The escaping transform -/

/-- Lower-case hexadecimal digit of a value below 16, as written by `QByteArray::toHex`. -/
def hexDigit (n : Nat) : Nat := if n < 10 then 48 + n else 87 + n

/-- `Bencode::fromRawString`: a byte in `' '..'~'` other than `%` is copied, any other
byte becomes `%` and its two hexadecimal digits. -/
def fromRawString : List Nat → List Nat
  | [] => []
  | c :: raw =>
    if 32 ≤ c ∧ c ≤ 126 ∧ c ≠ 37 then c :: fromRawString raw
    else 37 :: hexDigit (c / 16) :: hexDigit (c % 16) :: fromRawString raw

/-- `QString::toLatin1` on one code unit: a unit above 255 becomes `?`. -/
def toLatin1 (c : Nat) : Nat := if c ≤ 255 then c else 63

/-- Value of a hexadecimal digit character, `none` for any other character. -/
def fromHexDigit (c : Nat) : Option Nat :=
  if 48 ≤ c ∧ c ≤ 57 then some (c - 48)
  else if 65 ≤ c ∧ c ≤ 70 then some (c - 55)
  else if 97 ≤ c ∧ c ≤ 102 then some (c - 87)
  else none

/-- Loop of `QByteArray::fromHex`, which walks the input from its end: characters that
are not hexadecimal digits are skipped, a digit met with `odd` set starts a new byte in
front of the result, the next digit is or-ed into that byte as its high half. -/
def fromHexLoop : List Nat → Bool → List Nat → List Nat
  | [], _, acc => acc
  | c :: cs, odd, acc =>
    match fromHexDigit c with
    | none => fromHexLoop cs odd acc
    | some v =>
      if odd then fromHexLoop cs false (v :: acc)
      else
        match acc with
        | a :: rest => fromHexLoop cs true ((a ||| (v <<< 4)) :: rest)
        | [] => fromHexLoop cs true acc

/-- `QByteArray::fromHex`. -/
def fromHex (hexEncoded : List Nat) : List Nat := fromHexLoop hexEncoded.reverse true []

/-- `Bencode::toRawString`: a character other than `%` gives its Latin-1 byte; a `%`
gives `fromHex` of the next two Latin-1 bytes (`ba.mid(i + 1, 2)`), which are skipped. -/
def toRawString : List Nat → List Nat
  | [] => []
  | c :: rest =>
    if c ≠ 37 then toLatin1 c :: toRawString rest
    else
      match rest with
      | a :: b :: rest2 => fromHex [toLatin1 a, toLatin1 b] ++ toRawString rest2
      | [a] => fromHex [toLatin1 a]
      | [] => fromHex []

/-! ## Predicates used in the statements -/

/-- The children's keys are in ascending byte-wise order: no child's key is less than
the key of a child before it (equal keys may repeat). -/
def keysAscending (cs : List BNode) : Prop :=
  cs.Pairwise (fun a b => baLess (key b) (key a) = false)

/-- The children's keys are in strictly ascending byte-wise order. -/
def keysStrictlyAscending (cs : List BNode) : Prop :=
  cs.Pairwise (fun a b => baLess (key a) (key b) = true)

instance (cs : List BNode) : Decidable (keysAscending cs) := by
  unfold keysAscending; infer_instance

instance (cs : List BNode) : Decidable (keysStrictlyAscending cs) := by
  unfold keysStrictlyAscending; infer_instance

mutual
/-- The check `P` holds at every node of the tree. -/
def allNodes (P : BNode → Bool) : BNode → Bool
  | .mk t n s k h cs => P (.mk t n s k h cs) && allNodesList P cs
/-- The check `P` holds at every node of every tree of the list. -/
def allNodesList (P : BNode → Bool) : List BNode → Bool
  | [] => true
  | c :: cs => allNodes P c && allNodesList P cs
end

/-- Node check: a dictionary has its children in ascending key order. -/
def dictAscending (b : BNode) : Bool :=
  decide (type b = BType.Dictionary → keysAscending (children b))

/-- Node check: a dictionary has its children in strictly ascending key order. -/
def dictStrictlyAscending (b : BNode) : Bool :=
  decide (type b = BType.Dictionary → keysStrictlyAscending (children b))

/-- Node check: the children of a dictionary have non-empty keys (the first `Q_ASSERT`
of `appendMapItem`). -/
def dictKeysNonEmpty (b : BNode) : Bool :=
  decide (type b = BType.Dictionary → ∀ c ∈ children b, key c ≠ [])

/-- Node check: an `Integer` node holds a value of the `qlonglong` range. -/
def integerInRange (b : BNode) : Bool :=
  decide (type b = BType.Integer → LLONG_MIN ≤ integer b ∧ integer b ≤ LLONG_MAX)

/-- Node check of a well-formed value tree: the node is one of the four value types, an
integer fits `qlonglong`, a dictionary has its children in ascending key order and, when
`Q_ASSERT` is compiled in, with non-empty keys. -/
def wellFormedNode (asserts : Bool) (b : BNode) : Bool :=
  isValid b && integerInRange b && (!asserts || dictKeysNonEmpty b) && dictAscending b

mutual
/-- The tree that the parser builds from the encoding of a tree: payload fields the type
does not use take their constructor defaults; `k` and `h` are the key and the hex flag
that the enclosing container assigns. -/
def reparsed (k : List Nat) (h : Bool) : BNode → BNode
  | .mk .Integer n _ _ _ _ => .mk .Integer n [] k h []
  | .mk .String _ s _ _ _ => .mk .String 0 s k h []
  | .mk .List _ _ _ _ cs => .mk .List 0 [] k h (reparsedList cs)
  | .mk .Dictionary _ _ _ _ cs => .mk .Dictionary 0 [] k h (reparsedMap cs)
  | .mk .Invalid _ _ _ _ _ => .mk .Invalid 0 [] k h []
/-- Children rebuilt below a list: no key, hex flag unset. -/
def reparsedList : List BNode → List BNode
  | [] => []
  | c :: cs => reparsed [] false c :: reparsedList cs
/-- Children rebuilt below a dictionary: the key is kept, the hex flag follows `hexKeys`. -/
def reparsedMap : List BNode → List BNode
  | [] => []
  | c :: cs => reparsed (key c) (hexKeysContains (key c)) c :: reparsedMap cs
end

/-- List-level view of `appendMapItem`: the item goes immediately before the first
element with a greater key, or last. -/
def insertByKey (item : BNode) : List BNode → List BNode
  | [] => [item]
  | c :: cs => if baLess (key item) (key c) then item :: c :: cs else c :: insertByKey item cs

/-- ASCII bytes of a string literal. -/
def bytes (s : String) : List Nat := s.toList.map Char.toNat

/-! ## Further operations of `Bencode` -/

/-- `Bencode::setType`. After `qDeleteAll(children())` the node has no children: deleting
a child takes it out of its parent (`BencodeModel::removeRows` relies on the same), as
the spec says of a type change. -/
def setType (b : BNode) (t : BType) : BNode :=
  if t = type b then b else .mk t 0 [] (key b) (hex b) []

mutual
/-- `Bencode::clone`: a fresh node takes over the five fields, then the clone of every
child is appended in order. -/
def clone : BNode → BNode
  | .mk t n s k h cs => .mk t n s k h (cloneChildren cs)
/-- Loop of `clone`: `newItem->appendChild(child->clone())` for the children in order. -/
def cloneChildren : List BNode → List BNode
  | [] => []
  | c :: cs => clone c :: cloneChildren cs
end

/-- Inserting the items of a list one after the other with `appendMapItem`. -/
def appendMapItems (asserts : Bool) : BNode → List BNode → Outcome BNode
  | d, [] => .ok d
  | d, item :: items =>
    match appendMapItem asserts d item with
    | .ok d1 => appendMapItems asserts d1 items
    | .fault => .fault
    | .timeout => .timeout

/-! ## Change tracking in `BencodeModel` -/

/-- The two trees `BencodeModel` keeps: `_bencode`, which hangs below the hidden root item
of the model (a dictionary), and the free-standing `_originBencode`; `none` is the null
pointer. -/
structure BencodeModel where
  bencode : Option BNode
  originBencode : Option BNode

/-- `BencodeModel::resetModified`. -/
def resetModified (m : BencodeModel) : BencodeModel :=
  { m with originBencode := m.bencode.map clone }

/-- `BencodeModel::isModified`; in `_bencode->compare(_originBencode)` the parent of
`_bencode` is the hidden root, a dictionary, and `_originBencode` has no parent. -/
def isModified (m : BencodeModel) : Bool :=
  match m.bencode, m.originBencode with
  | none, none => false
  | some _, none => true
  | none, some _ => true
  | some b, some o => !(compare (some BType.Dictionary) false b o)

/-! ## JSON conversion -/

/-- The `QVariant` values exchanged with the JSON library: the invalid variant `QVariant()`
(also what JSON null becomes), a boolean, a number given by its `toLongLong()`, a string
(UTF-16 code units), a list, and a `QVariantMap`, whose members stand in ascending order
of their names. -/
inductive Json where
  | null
  | bool (b : Bool)
  | number (v : Int)
  | string (s : List Nat)
  | list (items : List Json)
  | map (members : List (List Nat × Json))

/-- `QMap::insert`: the members stay in ascending order of name (`QString::operator<`
compares code units, the shorter string first on a tie, as `baLess` does); a member with
the same name has its value replaced. -/
def mapInsert (name : List Nat) (value : Json) :
    List (List Nat × Json) → List (List Nat × Json)
  | [] => [(name, value)]
  | (n1, v1) :: rest =>
    if baLess name n1 then (name, value) :: (n1, v1) :: rest
    else if baLess n1 name then (n1, v1) :: mapInsert name value rest
    else (name, value) :: rest

/-- `QMap::value(name)`: the value of the member with this name, if there is one. -/
def mapLookup (name : List Nat) : List (List Nat × Json) → Option Json
  | [] => none
  | (n1, v1) :: rest => if n1 = name then some v1 else mapLookup name rest

mutual
/-- `Bencode::toJson(const Bencode *)`. -/
def toJson : BNode → Json
  | .mk .String _ s _ _ _ => .string (fromRawString s)
  | .mk .Dictionary _ _ _ _ cs => .map (toJsonMap cs [])
  | .mk .List _ _ _ _ cs => .list (toJsonList cs)
  | .mk .Integer n _ _ _ _ => .number n
  | .mk .Invalid _ _ _ _ _ => .null
/-- Loop of the `List` case of `toJson`. -/
def toJsonList : List BNode → List Json
  | [] => []
  | c :: cs => toJson c :: toJsonList cs
/-- Loop of the `Dictionary` case of `toJson`: `map.insert(fromRawString(key), toJson(item))`
for the children in order, `map` being the members inserted so far. -/
def toJsonMap : List BNode → List (List Nat × Json) → List (List Nat × Json)
  | [], map => map
  | c :: cs, map => toJsonMap cs (mapInsert (fromRawString (key c)) (toJson c) map)
end

/-- Four UTF-8 bytes of a code point from U+10000 on. -/
def utf8Four (cp : Nat) : List Nat :=
  [240 + cp / 262144, 128 + cp / 4096 % 64, 128 + cp / 64 % 64, 128 + cp % 64]

/-- `QString::toUtf8`: one to three bytes for a code unit, four for a surrogate pair, and
`?` for a surrogate without its partner. -/
def toUtf8 : List Nat → List Nat
  | [] => []
  | c :: rest =>
    if c < 128 then c :: toUtf8 rest
    else if c < 2048 then (192 + c / 64) :: (128 + c % 64) :: toUtf8 rest
    else if 55296 ≤ c ∧ c < 56320 then
      match rest with
      | d :: rest2 =>
        if 56320 ≤ d ∧ d < 57344 then
          utf8Four (65536 + (c - 55296) * 1024 + (d - 56320)) ++ toUtf8 rest2
        else 63 :: toUtf8 (d :: rest2)
      | [] => [63]
    else if 56320 ≤ c ∧ c < 57344 then 63 :: toUtf8 rest
    else (224 + c / 4096) :: (128 + c / 64 % 64) :: (128 + c % 64) :: toUtf8 rest

mutual
/-- `Bencode::fromJson`. The local `Bencode *res` is not initialised, so in the `default`
case (a boolean, the invalid variant) the function returns an indeterminate pointer: a
fault. -/
def fromJson : Json → Outcome BNode
  | .string s => .ok (newString (toRawString s))
  | .map members => fromJsonMap members (newOfType .Dictionary [])
  | .list items => fromJsonList items (newOfType .List [])
  | .number v => .ok (newInteger v)
  | .bool _ => .fault
  | .null => .fault
/-- Loop of the `List` case of `fromJson`; `res` is the list built so far. -/
def fromJsonList : List Json → BNode → Outcome BNode
  | [], res => .ok res
  | j :: js, res =>
    match fromJson j with
    | .ok item => fromJsonList js (appendChild res item)
    | .fault => .fault
    | .timeout => .timeout
/-- Loop of the `Map` case of `fromJson` over `variantMap.keys()`, the names in ascending
order; `res` is the dictionary built so far. -/
def fromJsonMap : List (List Nat × Json) → BNode → Outcome BNode
  | [], res => .ok res
  | (name, value) :: rest, res =>
    match fromJson value with
    | .ok newItem =>
      let newItem1 := setKey newItem (toUtf8 name)
      let newItem2 := if hexKeys.contains name then setHex newItem1 true else newItem1
      fromJsonMap rest (appendChild res newItem2)
    | .fault => .fault
    | .timeout => .timeout
end

/-! ## Reference definitions taken from the spec -/

/-- Canonical decimal text of a natural number: its base-10 digits, most significant
first, and the single digit `0` for zero. -/
def decimalNatRef (n : Nat) : List Nat :=
  if n = 0 then [48] else (Nat.digits 10 n).reverse.map (· + 48)

/-- Canonical decimal text of an integer: `-` only when negative, no leading zeros, no
`+`. -/
def decimalRef (n : Int) : List Nat :=
  if n < 0 then 45 :: decimalNatRef n.natAbs else decimalNatRef n.natAbs

mutual
/-- The reference bencode encoder in the words of the spec. For an invalid node, which
the spec leaves without an encoding, nothing is written. -/
def encodeRef : BNode → List Nat
  | .mk .Integer n _ _ _ _ => [105] ++ decimalRef n ++ [101]
  | .mk .String _ s _ _ _ => decimalRef s.length ++ [58] ++ s
  | .mk .List _ _ _ _ cs => [108] ++ encodeRefItems cs ++ [101]
  | .mk .Dictionary _ _ _ _ cs => [100] ++ encodeRefEntries cs ++ [101]
  | .mk .Invalid _ _ _ _ _ => []
/-- Concatenation of the encodings of the children of a list, in order. -/
def encodeRefItems : List BNode → List Nat
  | [] => []
  | c :: cs => encodeRef c ++ encodeRefItems cs
/-- Concatenation, in child order, of `<keylen>:<key>` followed by the child's encoding. -/
def encodeRefEntries : List BNode → List Nat
  | [] => []
  | c :: cs => (decimalRef (key c).length ++ [58] ++ key c ++ encodeRef c) ++ encodeRefEntries cs
end

/-- The sixteen hexadecimal digit characters in use. -/
def hexChars : List Nat := bytes "0123456789abcdef"

/-- A byte is escaped unless it is printable ASCII (`0x20..0x7E`) other than `%`. -/
def isEscaped (c : Nat) : Bool := !(decide (32 ≤ c) && decide (c ≤ 126) && decide (c ≠ 37))

/-- Escaping of one byte in the words of the spec: the byte itself, or `%` and the two
hexadecimal digits of its value. -/
def escapeByteRef (c : Nat) : List Nat :=
  if isEscaped c then [37, hexChars.getD (c / 16) 0, hexChars.getD (c % 16) 0] else [c]

/-! ## Keyed children and the editing operations of `BencodeModel` -/

/-- `Bencode::child(const QByteArray &key)`: the first child with this key, `none` for the
null pointer. -/
def childByKey (b : BNode) (k : List Nat) : Option BNode :=
  (children b).find? (fun c => decide (key c = k))

/-- Constructor `Bencode(const QByteArray &string, const QByteArray &key)`. -/
def newStringKey (s k : List Nat) : BNode := .mk .String 0 s k false []

/-- Modelled from the spec: `setString` is declared in the header, which is not among the
sources; it is the typed setter of the byte-string payload. -/
def setString (b : BNode) (s : List Nat) : BNode :=
  .mk (type b) (integer b) s (key b) (hex b) (children b)

/-- Modelled from the spec: the destructor of `AbstractTreeItem` is not among the sources;
`delete child(key)` releases the first child with this key and takes it out of the child
list. -/
def deleteChildByKey (b : BNode) (k : List Nat) : BNode :=
  setChildren b ((children b).eraseP (fun c => decide (key c = k)))

/-- `Bencode::checkAndCreate(Type type, const QByteArray &key)`; the result is the node
after the call together with the item returned. -/
def checkAndCreate (asserts : Bool) (b : BNode) (t : BType) (k : List Nat) :
    Outcome (BNode × BNode) :=
  match childByKey b k with
  | some item =>
    if type item ≠ t then
      match appendMapItem asserts (deleteChildByKey b k) (newOfType t k) with
      | .ok b1 => .ok (b1, newOfType t k)
      | .fault => .fault
      | .timeout => .timeout
    else .ok (b, item)
  | none =>
    match appendMapItem asserts b (newOfType t k) with
    | .ok b1 => .ok (b1, newOfType t k)
    | .fault => .fault
    | .timeout => .timeout

/-- Change made through the pointer that `child(key)` returns: `f` is applied to the first
child with this key. -/
def updateFirst (k : List Nat) (f : BNode → BNode) : List BNode → List BNode
  | [] => []
  | c :: cs => if key c = k then f c :: cs else c :: updateFirst k f cs

/-- The node after a change made to `child(key)` in place. -/
def updateChild (b : BNode) (k : List Nat) (f : BNode → BNode) : BNode :=
  setChildren b (updateFirst k f (children b))

/-- `BencodeModel::setPieces`. A call through a null pointer (`_bencode` itself, or a
`child(...)` that finds nothing) is a fault. -/
def setPieces (asserts : Bool) (m : BencodeModel) (pieces : List Nat) :
    Outcome BencodeModel :=
  if pieces ≠ [] then
    match m.bencode with
    | none => .fault
    | some root =>
      -- if (!_bencode->child("info")) _bencode->appendMapItem(new Bencode(Dictionary, "info"));
      match (if (childByKey root (bytes "info")).isNone
          then appendMapItem asserts root (newOfType .Dictionary (bytes "info"))
          else Outcome.ok root) with
      | .ok root1 =>
        -- if (!_bencode->child("pieces"))
        --     _bencode->child("info")->appendMapItem(new Bencode("", "pieces"));
        match (if (childByKey root1 (bytes "pieces")).isNone then
            match childByKey root1 (bytes "info") with
            | none => Outcome.fault
            | some info =>
              match appendMapItem asserts info (newStringKey [] (bytes "pieces")) with
              | .ok info1 => Outcome.ok (updateChild root1 (bytes "info") (fun _ => info1))
              | .fault => Outcome.fault
              | .timeout => Outcome.timeout
          else Outcome.ok root1) with
        | .ok root2 =>
          -- _bencode->child("info")->child("pieces")->setString(pieces); ...->setHex(true);
          match childByKey root2 (bytes "info") with
          | none => .fault
          | some info =>
            match childByKey info (bytes "pieces") with
            | none => .fault
            | some _ =>
              .ok { m with bencode := some (updateChild root2 (bytes "info") (fun i =>
                updateChild i (bytes "pieces") (fun p => setHex (setString p pieces) true))) }
        | .fault => .fault
        | .timeout => .timeout
      | .fault => .fault
      | .timeout => .timeout
  else
    .ok { m with bencode := some (newOfType .Dictionary (bytes "root")) }

/-- The loop of `BencodeModel::setData` that finds `newRow`: the first row whose key is
greater than `newKey`, or `childCount()` when there is none. -/
def newRowScan (newKey : List Nat) : List BNode → Nat → Nat
  | [], newRow => newRow
  | c :: rest, newRow =>
    if baLess newKey (key c) then newRow else newRowScan newKey rest (newRow + 1)

/-- A child list with `f` applied to the child in row `row`. -/
def modifyRow (f : BNode → BNode) : List BNode → Nat → List BNode
  | [], _ => []
  | c :: cs, 0 => f c :: cs
  | c :: cs, row + 1 => c :: modifyRow f cs row

/-- Modelled from the spec: `AbstractTreeItem::setRow` is not among the sources; the child
in row `row` moves to row `newIndex` among its siblings, which keep their relative
order. -/
def setRow (cs : List BNode) (row newIndex : Nat) : List BNode :=
  match cs.get? row with
  | none => cs
  | some item => (cs.eraseIdx row).take newIndex ++ item :: (cs.eraseIdx row).drop newIndex

/-- `BencodeModel::setData` for `Qt::EditRole` on the `Name` column: the child in row `row`
of `parentItem` gets the key `newKey` and is moved to its new row. -/
def setDataName (parentItem : BNode) (row : Nat) (newKey : List Nat) : BNode :=
  let newRow := newRowScan newKey (children parentItem) 0
  let realRow := if newRow > row then newRow - 1 else newRow
  let renamed := modifyRow (fun item => setKey item newKey) (children parentItem) row
  if realRow = row then setChildren parentItem renamed
  else setChildren parentItem (setRow renamed row realRow)

/-! ## The command line of `main` -/

/-- The two conversion commands of the command line. -/
inductive Command where
  | toJson
  | fromJson
  deriving DecidableEq, Repr

/-- The command-line branch of `main` (three arguments, the first `--to-json` or
`--from-json`): the value returned, given whether the source file exists and what the
conversion function `toJson(source, dest)` or `fromJson(source, dest)` returns. -/
def mainRetCode (sourceExists : Bool) (command : Command) (converted : Bool) : Int :=
  if !sourceExists then -1
  else
    match command with
    | .toJson => if converted then -1 else 0
    | .fromJson => if converted then -1 else 0

end Bencode

/-! # Theorems -/

namespace Bencode

/-! ## Facts about the Qt primitives -/

theorem at?_append (p : List Nat) (c : Nat) (t : List Nat) (pos : Int)
    (hpos : pos = p.length) : at? (p ++ c :: t) pos = some c := by
  subst hpos
  have h : (p ++ c :: t).get? p.length = some c := by
    induction p with
    | nil => rfl
    | cons a p ih => simpa using ih
  have h0 : (0 : Int) ≤ (p.length : Int) := by omega
  simp only [at?, h0, if_true, Int.toNat_ofNat, h]

theorem findChar_skip (ch : Nat) (s t : List Nat) (h : ch ∉ s) :
    findChar ch (s ++ ch :: t) = some s.length := by
  induction s with
  | nil => simp [findChar]
  | cons a s ih =>
    have ha : a ≠ ch := fun e => h (by simp [e])
    have hs : ch ∉ s := fun e => h (by simp [e])
    simp [findChar, ha, ih hs]

theorem indexOf_skip (p s t : List Nat) (ch : Nat) (pos : Int) (hpos : pos = p.length)
    (h : ch ∉ s) : indexOf (p ++ (s ++ ch :: t)) ch pos = pos + s.length := by
  subst hpos
  have h1 : ¬ ((p.length : Int) < 0) := by omega
  have h2 : (p.length : Int) < ((p ++ (s ++ ch :: t)).length : Nat) := by
    simp only [List.length_append, List.length_cons]; omega
  simp only [indexOf, h1, h2, if_false, if_true, Int.toNat_ofNat, List.drop_left,
    findChar_skip ch s t h]

theorem mid_append (p s t : List Nat) (pos len : Int) (hpos : pos = p.length)
    (hlen : len = s.length) : mid (p ++ (s ++ t)) pos len = s := by
  subst hpos hlen
  have h1 : ¬ ((p.length : Int) > ((p ++ (s ++ t)).length : Nat)) := by
    simp only [List.length_append]; omega
  have h2 : ¬ ((p.length : Int) < 0) := by omega
  have h3 : ¬ ((s.length : Int) < 0 ∨
      (s.length : Int) > ((p ++ (s ++ t)).length : Nat) - (p.length : Int)) := by
    simp only [List.length_append]; omega
  simp only [mid, h1, h2, h3, if_false, Int.toNat_ofNat, List.drop_left, List.take_left]

theorem natDigits_value (fuel n : Nat) (acc : List Nat) (h : n < fuel) :
    digitsValue 0 (natDigits fuel n acc) = digitsValue n acc := by
  induction fuel generalizing n acc with
  | zero => omega
  | succ f ih =>
    unfold natDigits
    by_cases h10 : n < 10
    · have hd : isDigit (48 + n) = true := by simp [isDigit]; omega
      simp [h10, digitsValue, hd]
    · have hd : isDigit (48 + n % 10) = true := by simp [isDigit]; omega
      rw [if_neg h10, ih (n / 10) _ (by omega)]
      simp only [digitsValue, hd, if_true]
      congr 1
      omega

theorem natDigits_digits (fuel n : Nat) (acc : List Nat) :
    ∀ c ∈ natDigits fuel n acc, isDigit c = true ∨ c ∈ acc := by
  induction fuel generalizing n acc with
  | zero => intro c hc; exact Or.inr hc
  | succ f ih =>
    intro c hc
    unfold natDigits at hc
    by_cases h10 : n < 10
    · rw [if_pos h10] at hc
      rcases List.mem_cons.1 hc with h | h
      · left; subst h; simp [isDigit]; omega
      · exact Or.inr h
    · rw [if_neg h10] at hc
      rcases ih _ _ c hc with h | h
      · exact Or.inl h
      · rcases List.mem_cons.1 h with h | h
        · left; subst h; simp [isDigit]; omega
        · exact Or.inr h

theorem natDigits_ne_nil (fuel n : Nat) (acc : List Nat) :
    natDigits (fuel + 1) n acc ≠ [] := by
  induction fuel generalizing n acc with
  | zero => unfold natDigits; split <;> simp [natDigits]
  | succ f ih =>
    unfold natDigits
    split
    · simp
    · exact ih _ _

theorem numberNat_value (n : Nat) : digitsValue 0 (numberNat n) = some n := by
  unfold numberNat
  rw [natDigits_value _ _ _ (by omega)]
  rfl

theorem numberNat_digits (n : Nat) : ∀ c ∈ numberNat n, isDigit c = true := by
  intro c hc
  rcases natDigits_digits _ _ _ c hc with h | h
  · exact h
  · simp at h

theorem numberNat_ne_nil (n : Nat) : numberNat n ≠ [] := natDigits_ne_nil _ _ _

theorem dropWhile_isSpace_self (l : List Nat) (h : ∀ c ∈ l, isSpace c = false) :
    l.dropWhile isSpace = l := by
  cases l with
  | nil => rfl
  | cons a l => simp [List.dropWhile, h a (by simp)]

theorem trimmed_self (l : List Nat) (h : ∀ c ∈ l, isSpace c = false) : trimmed l = l := by
  unfold trimmed
  rw [dropWhile_isSpace_self l h, dropWhile_isSpace_self l.reverse (by simpa using h),
    List.reverse_reverse]

theorem qString_self (l : List Nat) (h : ∀ c ∈ l, c ≠ 0) : qString l = l := by
  unfold qString
  rw [List.takeWhile_eq_self_iff]
  intro c hc
  simpa using h c hc

theorem isDigit_facts {c : Nat} (h : isDigit c = true) :
    c ≠ 0 ∧ isSpace c = false ∧ c ≠ 45 ∧ c ≠ 43 ∧ c ≠ 58 ∧ c ≠ 101 := by
  simp only [isDigit, Bool.and_eq_true, decide_eq_true_eq] at h
  simp only [isSpace, Bool.or_eq_false_iff, decide_eq_false_iff_not, Bool.and_eq_false_iff]
  omega

/-- Decimal text made of digits only converts to its value. -/
theorem parseDecimal_digits (ds : List Nat) (hne : ds ≠ []) (hd : ∀ c ∈ ds, isDigit c = true) :
    parseDecimal (qString ds) = (digitsValue 0 ds).map (fun (n : Nat) => (n : Int)) := by
  rw [qString_self ds (fun c hc => (isDigit_facts (hd c hc)).1)]
  unfold parseDecimal
  rw [trimmed_self ds (fun c hc => (isDigit_facts (hd c hc)).2.1)]
  cases ds with
  | nil => exact absurd rfl hne
  | cons a l =>
    have ha := isDigit_facts (hd a (by simp))
    split
    · rename_i h; simp at h
    · rename_i h; simp at h; exact absurd h.1 ha.2.2.1
    · rename_i h; simp at h; exact absurd h.1 ha.2.2.2.1
    · rfl

/-- Decimal text made of a minus sign and digits converts to the negated value. -/
theorem parseDecimal_minus_digits (ds : List Nat) (hne : ds ≠ [])
    (hd : ∀ c ∈ ds, isDigit c = true) :
    parseDecimal (qString (45 :: ds)) = (digitsValue 0 ds).map (fun (n : Nat) => - (n : Int)) := by
  have hall : ∀ c ∈ 45 :: ds, c ≠ 0 ∧ isSpace c = false := by
    intro c hc
    rcases List.mem_cons.1 hc with h | h
    · subst h; exact ⟨by decide, by decide⟩
    · exact ⟨(isDigit_facts (hd c h)).1, (isDigit_facts (hd c h)).2.1⟩
  rw [qString_self _ (fun c hc => (hall c hc).1)]
  unfold parseDecimal
  rw [trimmed_self _ (fun c hc => (hall c hc).2)]
  simp [hne]

theorem check_enumFrom_digits (ds : List Nat) (k : Nat) (hd : ∀ c ∈ ds, isDigit c = true) :
    (ds.enumFrom k).all (fun (i, c) => isDigit c || (i = 0 && c = 45)) = true := by
  induction ds generalizing k with
  | nil => rfl
  | cons a l ih =>
    simp only [List.enumFrom, List.all_cons, Bool.and_eq_true]
    exact ⟨by simp [hd a (by simp)], ih (k + 1) (fun c hc => hd c (by simp [hc]))⟩

theorem check_enum_literal (neg : Bool) (ds : List Nat) (hd : ∀ c ∈ ds, isDigit c = true) :
    ((if neg then 45 :: ds else ds).enum.all
      (fun (i, c) => isDigit c || (i = 0 && c = 45))) = true := by
  cases neg with
  | false => exact check_enumFrom_digits ds 0 hd
  | true =>
    simp only [if_true, List.enum, List.enumFrom, List.all_cons, Bool.and_eq_true]
    exact ⟨by simp, check_enumFrom_digits ds 1 hd⟩

/-- `parseInteger` on a body that passes the check and holds no `e`: the node holds the
`toLongLong` of the body and the cursor moves past the closing `e`. -/
theorem parseInteger_body (p body t : List Nat) (pos : Int) (hpos : pos = p.length)
    (he : 101 ∉ body)
    (hcheck : (body.enum.all fun (i, c) => isDigit c || (i = 0 && c = 45)) = true) :
    parseInteger (p ++ 105 :: (body ++ 101 :: t)) pos
      = .ok (newInteger (toLongLong (qString body)), pos + body.length + 2) := by
  have hraw : p ++ 105 :: (body ++ 101 :: t) = (p ++ [105]) ++ (body ++ 101 :: t) := by simp
  have hp1 : pos + 1 = ((p ++ [105]).length : Nat) := by simp [hpos]
  have hidx : indexOf (p ++ 105 :: (body ++ 101 :: t)) 101 (pos + 1)
      = pos + 1 + body.length := by
    rw [hraw]; exact indexOf_skip _ _ _ _ _ hp1 he
  have hmid : mid (p ++ 105 :: (body ++ 101 :: t)) (pos + 1) (pos + 1 + body.length - (pos + 1))
      = body := by
    rw [hraw]; exact mid_append _ _ _ _ _ hp1 (by omega)
  have hne : ¬ (pos + 1 + (body.length : Int) = -1) := by omega
  simp only [parseInteger, hidx, hne, if_false, hmid, hcheck, if_true]
  congr 2
  omega

theorem literal_no_e (neg : Bool) (ds : List Nat) (hd : ∀ c ∈ ds, isDigit c = true) :
    101 ∉ (if neg then 45 :: ds else ds) := by
  intro h
  have h2 : 101 ∈ ds := by
    cases neg with
    | false => simpa using h
    | true => simpa using h
  exact (isDigit_facts (hd 101 h2)).2.2.2.2.2 rfl

theorem parseDecimal_literal (neg : Bool) (ds : List Nat) (hne : ds ≠ [])
    (hd : ∀ c ∈ ds, isDigit c = true) :
    parseDecimal (qString (if neg then 45 :: ds else ds))
      = (digitsValue 0 ds).map (fun (n : Nat) => if neg then - (n : Int) else (n : Int)) := by
  cases neg with
  | false => simpa using parseDecimal_digits ds hne hd
  | true => simpa using parseDecimal_minus_digits ds hne hd

theorem number_eq_literal (n : Int) :
    number n = (if decide (n < 0) then 45 :: numberNat n.natAbs else numberNat n.natAbs) := by
  unfold number
  by_cases h : n < 0 <;> simp [h]

/-- Reading back the text written by `QString::number` for a 64-bit value. -/
theorem toLongLong_number (n : Int) (h1 : LLONG_MIN ≤ n) (h2 : n ≤ LLONG_MAX) :
    toLongLong (qString (number n)) = n := by
  rw [number_eq_literal, toLongLong,
    parseDecimal_literal _ _ (numberNat_ne_nil _) (numberNat_digits _), numberNat_value]
  have e : (if decide (n < 0) = true then -((n.natAbs : Nat) : Int) else ((n.natAbs : Nat) : Int))
      = n := by
    by_cases h : n < 0
    · rw [if_pos (by simpa using h)]; omega
    · rw [if_neg (by simpa using h)]; omega
  simp only [Option.map, e]
  rw [if_pos ⟨h1, h2⟩]

/-- Reading back a length written by `QString::number`. -/
theorem toInt_number (n : Nat) (h : (n : Int) ≤ INT_MAX) :
    toInt (qString (numberNat n)) = n := by
  rw [toInt, parseDecimal_digits _ (numberNat_ne_nil _) (numberNat_digits _), numberNat_value]
  have h0 : (-2147483648 : Int) ≤ (n : Int) := by omega
  simp [h, h0]

theorem number_ofNat (n : Nat) : number (n : Int) = numberNat n := by
  unfold number
  have h : ¬ ((n : Int) < 0) := by omega
  simp [h]

/-- `parseString` on a well-formed byte string `<len>:<bytes>` standing at `pos`. -/
theorem parseString_encoded (p s t : List Nat) (pos : Int) (hpos : pos = p.length)
    (hmax : pos + (numberNat s.length).length + 1 + s.length ≤ INT_MAX) :
    parseString (p ++ (numberNat s.length ++ 58 :: (s ++ t))) pos
      = .ok (newString s, pos + (numberNat s.length).length + 1 + s.length) := by
  have hcolon : 58 ∉ numberNat s.length :=
    fun h => (isDigit_facts (numberNat_digits _ 58 h)).2.2.2.2.1 rfl
  have hidx := indexOf_skip p (numberNat s.length) (s ++ t) 58 pos hpos hcolon
  have hmid1 : mid (p ++ (numberNat s.length ++ 58 :: (s ++ t))) pos
      (pos + (numberNat s.length).length - pos) = numberNat s.length :=
    mid_append _ _ _ _ _ hpos (by omega)
  have hraw : p ++ (numberNat s.length ++ 58 :: (s ++ t))
      = (p ++ numberNat s.length ++ [58]) ++ (s ++ t) := by simp
  have hmid2 : mid (p ++ (numberNat s.length ++ 58 :: (s ++ t)))
      (pos + (numberNat s.length).length + 1) s.length = s := by
    rw [hraw]
    exact mid_append _ _ _ _ _ (by simp only [hpos, List.length_append, List.length_singleton,
      Nat.cast_add, Nat.cast_one]) rfl
  have hlen : (s.length : Int) ≤ INT_MAX := by
    have := (numberNat s.length).length; omega
  have hnot : ¬ (pos + (numberNat s.length).length + 1 + (s.length : Int) > INT_MAX) := by omega
  simp only [parseString, hidx, hmid1, toInt_number _ hlen, hmid2, hnot, if_false]

/-- `parseItem` on an `i` dispatches to `parseInteger`. -/
theorem parseItem_integer (asserts : Bool) (fuel : Nat) (p body t : List Nat) (pos : Int) (hpos : pos = p.length)
    (he : 101 ∉ body)
    (hcheck : (body.enum.all fun (i, c) => isDigit c || (i = 0 && c = 45)) = true) :
    parseItem asserts (fuel + 1) (p ++ 105 :: (body ++ 101 :: t)) pos
      = .ok (some (newInteger (toLongLong (qString body))), pos + body.length + 2) := by
  have hne : ¬ (pos = 0 ∧ p ++ 105 :: (body ++ 101 :: t) = []) := by simp
  simp only [parseItem, hne, if_false, at?_append p 105 _ pos hpos, if_true,
    parseInteger_body p body t pos hpos he hcheck]

/-- `parseItem` on a digit dispatches to `parseString`. -/
theorem parseItem_string (asserts : Bool) (fuel : Nat) (p s t : List Nat) (pos : Int) (hpos : pos = p.length)
    (hmax : pos + (numberNat s.length).length + 1 + s.length ≤ INT_MAX) :
    parseItem asserts (fuel + 1) (p ++ (numberNat s.length ++ 58 :: (s ++ t))) pos
      = .ok (some (newString s), pos + (numberNat s.length).length + 1 + s.length) := by
  have hne : ¬ (pos = 0 ∧ p ++ (numberNat s.length ++ 58 :: (s ++ t)) = []) := by
    have := numberNat_ne_nil s.length
    simp [this]
  obtain ⟨d, ds, hds⟩ := List.exists_cons_of_ne_nil (numberNat_ne_nil s.length)
  have hd : isDigit d = true := numberNat_digits s.length d (by simp [hds])
  have hat : at? (p ++ (numberNat s.length ++ 58 :: (s ++ t))) pos = some d := by
    rw [hds]; exact at?_append p d _ pos hpos
  have hi : ¬ (d = 105) := by
    intro e; subst e; exact absurd hd (by decide)
  simp only [parseItem, hne, if_false, hat, hi, hd, if_true,
    parseString_encoded p s t pos hpos hmax]

/-! ## The byte-wise order -/

theorem baLess_irrefl (a : List Nat) : baLess a a = false := by
  induction a with
  | nil => rfl
  | cons x a ih => simp [baLess, ih]

theorem baLess_trans {a b c : List Nat} (h1 : baLess a b = true) (h2 : baLess b c = true) :
    baLess a c = true := by
  induction a generalizing b c with
  | nil =>
    cases b with
    | nil => simp [baLess] at h1
    | cons y b =>
      cases c with
      | nil => simp [baLess] at h2
      | cons z c => rfl
  | cons x a ih =>
    cases b with
    | nil => simp [baLess] at h1
    | cons y b =>
      cases c with
      | nil => simp [baLess] at h2
      | cons z c =>
        simp only [baLess] at h1 h2 ⊢
        by_cases hxy : x < y
        · by_cases hyz : y < z
          · rw [if_pos (by omega)]
          · rw [if_neg hyz] at h2
            by_cases hzy : z < y
            · simp [hzy] at h2
            · rw [if_pos (by omega)]
        · rw [if_neg hxy] at h1
          by_cases hyx : y < x
          · simp [hyx] at h1
          · rw [if_neg hyx] at h1
            have e : x = y := by omega
            subst e
            by_cases hxz : x < z
            · rw [if_pos hxz]
            · rw [if_neg hxz] at h2 ⊢
              by_cases hzx : z < x
              · simp [hzx] at h2
              · rw [if_neg hzx] at h2 ⊢
                exact ih h1 h2

theorem baLess_asymm {a b : List Nat} (h : baLess a b = true) : baLess b a = false := by
  cases hb : baLess b a with
  | false => rfl
  | true => exact absurd (baLess_trans h hb) (by simp [baLess_irrefl])

theorem baLess_total {a b : List Nat} (h1 : baLess a b = false) (h2 : baLess b a = false) :
    a = b := by
  induction a generalizing b with
  | nil =>
    cases b with
    | nil => rfl
    | cons y b => simp [baLess] at h1
  | cons x a ih =>
    cases b with
    | nil => simp [baLess] at h2
    | cons y b =>
      simp only [baLess] at h1 h2
      by_cases hxy : x < y
      · simp [hxy] at h1
      · by_cases hyx : y < x
        · simp [hyx] at h2
        · rw [if_neg hxy, if_neg hyx] at h1
          rw [if_neg hyx, if_neg hxy] at h2
          have e : x = y := by omega
          rw [e, ih h1 h2]

/-- From `a < b` and `b ≤ c` follows `a < c`. -/
theorem baLess_of_lt_of_le {a b c : List Nat} (h1 : baLess a b = true)
    (h2 : baLess c b = false) : baLess a c = true := by
  cases hbc : baLess b c with
  | true => exact baLess_trans h1 hbc
  | false => rw [← baLess_total hbc h2]; exact h1

/-! ## Insertion in key order (`appendMapItem`) -/

theorem mem_insertByKey (item x : BNode) (cs : List BNode) :
    x ∈ insertByKey item cs ↔ x = item ∨ x ∈ cs := by
  induction cs with
  | nil => simp [insertByKey]
  | cons c cs ih =>
    unfold insertByKey
    split
    · simp
    · simp only [List.mem_cons, ih]; tauto

theorem keysAscending_insertByKey (item : BNode) (cs : List BNode) (h : keysAscending cs) :
    keysAscending (insertByKey item cs) := by
  induction cs with
  | nil => simp [insertByKey, keysAscending]
  | cons c cs ih =>
    unfold keysAscending at h
    rw [List.pairwise_cons] at h
    unfold insertByKey
    by_cases hlt : baLess (key item) (key c) = true
    · rw [if_pos hlt]
      unfold keysAscending
      rw [List.pairwise_cons, List.pairwise_cons]
      refine ⟨?_, h⟩
      intro b hb
      rcases List.mem_cons.1 hb with e | hb
      · subst e; exact baLess_asymm hlt
      · exact baLess_asymm (baLess_of_lt_of_le hlt (h.1 b hb))
    · rw [if_neg hlt]
      unfold keysAscending
      rw [List.pairwise_cons]
      refine ⟨?_, ih h.2⟩
      intro b hb
      rcases (mem_insertByKey item b cs).1 hb with e | hb
      · subst e; simpa using hlt
      · exact h.1 b hb

/-- Where `insertByKey` puts the item: after elements whose keys are not greater, and
immediately before an element with a greater key (or at the end). -/
theorem insertByKey_split (item : BNode) (cs : List BNode) :
    ∃ before after, cs = before ++ after ∧
      insertByKey item cs = before ++ item :: after ∧
      (∀ c ∈ before, baLess (key item) (key c) = false) ∧
      (∀ c, after.head? = some c → baLess (key item) (key c) = true) := by
  induction cs with
  | nil => exact ⟨[], [], rfl, rfl, by simp, by simp⟩
  | cons c cs ih =>
    by_cases hlt : baLess (key item) (key c) = true
    · refine ⟨[], c :: cs, rfl, by simp [insertByKey, hlt], by simp, ?_⟩
      intro x hx
      simp only [List.head?_cons, Option.some.injEq] at hx
      subst hx; exact hlt
    · obtain ⟨before, after, h1, h2, h3, h4⟩ := ih
      refine ⟨c :: before, after, by simp [h1], by simp [insertByKey, hlt, h2], ?_, h4⟩
      intro x hx
      rcases List.mem_cons.1 hx with e | hx
      · subst e; simpa using hlt
      · exact h3 x hx

theorem appendMapItemScan_eq (b item : BNode) (pre rest : List BNode)
    (h : children b = pre ++ rest) :
    appendMapItemScan b item pre.length rest = setChildren b (pre ++ insertByKey item rest) := by
  induction rest generalizing pre with
  | nil => simp [appendMapItemScan, appendChild, insertByKey, h]
  | cons c rest ih =>
    unfold appendMapItemScan insertByKey
    by_cases hlt : baLess (key item) (key c) = true
    · simp [hlt, insertChild, h]
    · rw [if_neg hlt, if_neg hlt]
      have := ih (pre ++ [c]) (by simp [h])
      simpa using this

theorem appendMapItem_eq (asserts : Bool) (b item : BNode)
    (hk : asserts = true → key item ≠ [])
    (hd : asserts = true → type b = BType.Dictionary) :
    appendMapItem asserts b item = .ok (setChildren b (insertByKey item (children b))) := by
  have h := appendMapItemScan_eq b item [] (children b) rfl
  simp only [List.length_nil, List.nil_append] at h
  cases asserts with
  | false => simp [appendMapItem, h]
  | true => simp [appendMapItem, hk rfl, hd rfl, h]

theorem appendMapItem_ok {asserts : Bool} {b item r : BNode}
    (h : appendMapItem asserts b item = .ok r) :
    r = setChildren b (insertByKey item (children b)) := by
  have h0 := appendMapItemScan_eq b item [] (children b) rfl
  simp only [List.length_nil, List.nil_append] at h0
  unfold appendMapItem at h
  split at h
  · exact absurd h (by simp)
  · split at h
    · exact absurd h (by simp)
    · simp only [Outcome.ok.injEq] at h
      rw [← h, h0]

/-! ## What the parser builds -/

theorem allNodes_eq (P : BNode → Bool) (b : BNode) :
    allNodes P b = (P b && allNodesList P (children b)) := by
  cases b; rfl

theorem allNodesList_iff (P : BNode → Bool) (cs : List BNode) :
    allNodesList P cs = true ↔ ∀ c ∈ cs, allNodes P c = true := by
  induction cs with
  | nil => simp [allNodesList]
  | cons c cs ih => simp [allNodesList, ih]

theorem parseInteger_shape {raw : List Nat} {pos p : Int} {r : BNode}
    (h : parseInteger raw pos = .ok (r, p)) : r = newInvalid ∨ ∃ n, r = newInteger n := by
  unfold parseInteger at h
  simp only at h
  split at h
  · simp only [Outcome.ok.injEq, Prod.mk.injEq] at h; exact Or.inl h.1.symm
  · split at h
    · simp only [Outcome.ok.injEq, Prod.mk.injEq] at h; exact Or.inr ⟨_, h.1.symm⟩
    · simp only [Outcome.ok.injEq, Prod.mk.injEq] at h; exact Or.inl h.1.symm

theorem parseString_shape {raw : List Nat} {pos p : Int} {r : BNode}
    (h : parseString raw pos = .ok (r, p)) : ∃ s, r = newString s := by
  unfold parseString at h
  simp only at h
  split at h
  · exact absurd h (by simp)
  · simp only [Outcome.ok.injEq, Prod.mk.injEq] at h; exact ⟨_, h.1.symm⟩

theorem outcome_map_ok {r : BNode} {p : Int} {x : Outcome (BNode × Int)} {y : Option BNode × Int}
    (h : (match x with
      | .ok (r, p) => Outcome.ok (some r, p)
      | .fault => .fault
      | .timeout => .timeout) = .ok y) (hy : y = (some r, p)) : x = .ok (r, p) := by
  subst hy
  cases x with
  | ok v =>
    obtain ⟨a, b⟩ := v
    simp only [Outcome.ok.injEq, Prod.mk.injEq, Option.some.injEq] at h
    rw [h.1, h.2]
  | fault => exact absurd h (by simp)
  | timeout => exact absurd h (by simp)

theorem built_newInteger (n : Int) :
    allNodes isValid (newInteger n) = true ∧ allNodes dictAscending (newInteger n) = true := by
  constructor <;> simp [newInteger, allNodes, allNodesList, isValid, dictAscending, type]

theorem built_newString (s : List Nat) :
    allNodes isValid (newString s) = true ∧ allNodes dictAscending (newString s) = true := by
  constructor <;> simp [newString, allNodes, allNodesList, isValid, dictAscending, type]

theorem built_setKey (P : BNode → Bool) (v : BNode) (k : List Nat)
    (hP : P (setKey v k) = P v) : allNodes P (setKey v k) = allNodes P v := by
  rw [allNodes_eq, allNodes_eq, hP]; rfl

theorem built_setHex (P : BNode → Bool) (v : BNode) (h : Bool)
    (hP : P (setHex v h) = P v) : allNodes P (setHex v h) = allNodes P v := by
  rw [allNodes_eq, allNodes_eq, hP]; rfl

theorem built_container (res : BNode) (h1 : isValid res = true)
    (h2 : dictAscending res = true)
    (hch : ∀ c ∈ children res, allNodes isValid c = true ∧ allNodes dictAscending c = true) :
    allNodes isValid res = true ∧ allNodes dictAscending res = true := by
  rw [allNodes_eq, allNodes_eq, h1, h2]
  simp only [Bool.true_and, allNodesList_iff]
  exact ⟨fun c hc => (hch c hc).1, fun c hc => (hch c hc).2⟩

/-- The invariant of the parser: whatever `parseItem` returns is either the invalid
placeholder or a tree without invalid nodes whose dictionaries are in ascending key
order; the two loops return such a result when the container built so far is one. -/
theorem parse_built (asserts : Bool) (fuel : Nat) :
    (∀ raw pos r p, parseItem asserts fuel raw pos = .ok (some r, p) →
      r = newInvalid ∨ (allNodes isValid r = true ∧ allNodes dictAscending r = true)) ∧
    (∀ raw pos res r p, parseListLoop asserts fuel raw pos res = .ok (r, p) →
      type res = BType.List →
      (∀ c ∈ children res, allNodes isValid c = true ∧ allNodes dictAscending c = true) →
      r = newInvalid ∨ (allNodes isValid r = true ∧ allNodes dictAscending r = true)) ∧
    (∀ raw pos res r p, parseDictionaryLoop asserts fuel raw pos res = .ok (r, p) →
      type res = BType.Dictionary → keysAscending (children res) →
      (∀ c ∈ children res, allNodes isValid c = true ∧ allNodes dictAscending c = true) →
      r = newInvalid ∨ (allNodes isValid r = true ∧ allNodes dictAscending r = true)) := by
  induction fuel with
  | zero =>
    refine ⟨?_, ?_, ?_⟩
    · intro raw pos r p h; exact absurd h (by simp [parseItem])
    · intro raw pos res r p h; exact absurd h (by simp [parseListLoop])
    · intro raw pos res r p h; exact absurd h (by simp [parseDictionaryLoop])
  | succ fuel ih =>
    obtain ⟨ihI, ihL, ihD⟩ := ih
    refine ⟨?_, ?_, ?_⟩
    · intro raw pos r p h
      unfold parseItem at h
      split at h
      · exact absurd h (by simp)
      · split at h
        · exact absurd h (by simp)
        · split at h
          · rcases parseInteger_shape (outcome_map_ok h rfl) with e | ⟨n, e⟩
            · exact Or.inl e
            · subst e; exact Or.inr (built_newInteger n)
          · split at h
            · obtain ⟨s, e⟩ := parseString_shape (outcome_map_ok h rfl)
              subst e; exact Or.inr (built_newString s)
            · split at h
              · exact ihL _ _ _ _ _ (outcome_map_ok h rfl) rfl (by simp [newOfType, children])
              · split at h
                · exact ihD _ _ _ _ _ (outcome_map_ok h rfl) rfl
                    (by simp [newOfType, children, keysAscending])
                    (by simp [newOfType, children])
                · simp only [Outcome.ok.injEq, Prod.mk.injEq, Option.some.injEq] at h
                  exact Or.inl h.1.symm
    · intro raw pos res r p h hty hch
      unfold parseListLoop at h
      split at h
      · exact absurd h (by simp)
      · split at h
        · split at h
          · exact absurd h (by simp)
          · rename_i item p1 hitem
            split at h
            · simp only [Outcome.ok.injEq, Prod.mk.injEq] at h
              exact Or.inl h.1.symm
            · rename_i hv
              refine ihL _ _ _ _ _ h (by simpa [appendChild, setChildren, type] using hty) ?_
              intro c hc
              simp only [appendChild, setChildren, children, List.mem_append,
                List.mem_singleton] at hc
              rcases hc with hc | hc
              · exact hch c hc
              · subst hc
                rcases ihI _ _ _ _ hitem with e | e
                · subst e; exact absurd hv (by decide)
                · exact e
          · exact absurd h (by simp)
          · exact absurd h (by simp)
        · simp only [Outcome.ok.injEq, Prod.mk.injEq] at h
          rw [← h.1]
          exact Or.inr (built_container res (by simp [isValid, hty])
            (by simp [dictAscending, hty]) hch)
    · intro raw pos res r p h hty hasc hch
      unfold parseDictionaryLoop at h
      split at h
      · exact absurd h (by simp)
      · split at h
        · split at h
          · rename_i keyItem p1 hkey
            simp only at h
            split at h
            · exact absurd h (by simp)
            · rename_i value p2 hvalue
              split at h
              · simp only [Outcome.ok.injEq, Prod.mk.injEq] at h
                exact Or.inl h.1.symm
              · rename_i hv
                split at h
                · rename_i res1 happ
                  have hvalue1 : allNodes isValid value = true ∧
                      allNodes dictAscending value = true := by
                    rcases ihI _ _ _ _ hvalue with e | e
                    · subst e; exact absurd hv (by decide)
                    · exact e
                  generalize hval2 : (if hexKeysContains (string keyItem) = true
                      then setHex (setKey value (string keyItem)) true
                      else setKey value (string keyItem)) = value2 at happ
                  have hvalue2 : allNodes isValid value2 = true ∧
                      allNodes dictAscending value2 = true := by
                    rw [← hval2]
                    split
                    · rw [built_setHex _ _ _ rfl, built_setHex _ _ _ rfl,
                        built_setKey _ _ _ rfl, built_setKey _ _ _ rfl]
                      exact hvalue1
                    · rw [built_setKey _ _ _ rfl, built_setKey _ _ _ rfl]
                      exact hvalue1
                  have happ := appendMapItem_ok happ
                  subst happ
                  refine ihD _ _ _ _ _ h (by simpa [setChildren, type] using hty) ?_ ?_
                  · simpa [setChildren, children] using
                      keysAscending_insertByKey value2 (children res) hasc
                  · intro c hc
                    simp only [setChildren, children] at hc
                    rcases (mem_insertByKey value2 c _).1 hc with e | hc
                    · subst e; exact hvalue2
                    · exact hch c hc
                · exact absurd h (by simp)
                · exact absurd h (by simp)
            · exact absurd h (by simp)
            · exact absurd h (by simp)
          · exact absurd h (by simp)
          · exact absurd h (by simp)
        · simp only [Outcome.ok.injEq, Prod.mk.injEq] at h
          rw [← h.1]
          exact Or.inr (built_container res (by simp [isValid, hty])
            (by simp [dictAscending, hty, hasc]) hch)

/-! ## Escaping -/

set_option maxRecDepth 100000 in
theorem fromHex_hexDigits : ∀ c < 256,
    fromHex [toLatin1 (hexDigit (c / 16)), toLatin1 (hexDigit (c % 16))] = [c] := by
  decide

/-! ## Parsing an encoding -/

theorem type_reparsed (k : List Nat) (h : Bool) (v : BNode) : type (reparsed k h v) = type v := by
  obtain ⟨t, n, s, k0, h0, cs⟩ := v
  cases t <;> rfl

theorem key_reparsed (k : List Nat) (h : Bool) (v : BNode) : key (reparsed k h v) = k := by
  obtain ⟨t, n, s, k0, h0, cs⟩ := v
  cases t <;> rfl

theorem setKey_reparsed (k0 k : List Nat) (h : Bool) (v : BNode) :
    setKey (reparsed k0 h v) k = reparsed k h v := by
  obtain ⟨t, n, s, k1, h1, cs⟩ := v
  cases t <;> rfl

theorem setHex_reparsed (k : List Nat) (h0 h : Bool) (v : BNode) :
    setHex (reparsed k h0 v) h = reparsed k h v := by
  obtain ⟨t, n, s, k1, h1, cs⟩ := v
  cases t <;> rfl

theorem insertByKey_last (item : BNode) (cs : List BNode)
    (h : ∀ a ∈ cs, baLess (key item) (key a) = false) : insertByKey item cs = cs ++ [item] := by
  induction cs with
  | nil => rfl
  | cons c cs ih =>
    unfold insertByKey
    rw [if_neg (by simp [h c (by simp)]), ih (fun a ha => h a (by simp [ha]))]
    rfl

theorem toRaw_ne_nil (v : BNode) (hv : isValid v = true) : toRaw v ≠ [] := by
  obtain ⟨t, n, s, k, h, cs⟩ := v
  cases t
  · exact absurd hv (by simp [isValid, type])
  · simp [toRaw]
  · have := numberNat_ne_nil s.length
    simp [toRaw, number_ofNat, this]
  · simp [toRaw]
  · simp [toRaw]

theorem number_no_e (n : Int) : 101 ∉ number n := by
  rw [number_eq_literal]; exact literal_no_e _ _ (numberNat_digits _)

theorem number_check (n : Int) :
    ((number n).enum.all fun (i, c) => isDigit c || (i = 0 && c = 45)) = true := by
  rw [number_eq_literal]; exact check_enum_literal _ _ (numberNat_digits _)

theorem numberNat_head (n : Nat) : ∃ d ds, numberNat n = d :: ds ∧ isDigit d = true := by
  obtain ⟨d, ds, hds⟩ := List.exists_cons_of_ne_nil (numberNat_ne_nil n)
  exact ⟨d, ds, hds, numberNat_digits n d (by simp [hds])⟩

theorem toRaw_head (v : BNode) (hv : isValid v = true) :
    ∃ d ds, toRaw v = d :: ds ∧ d ≠ 101 := by
  obtain ⟨t, n, s, k, h, cs⟩ := v
  cases t
  · exact absurd hv (by simp [isValid, type])
  · exact ⟨105, _, rfl, by decide⟩
  · obtain ⟨d, ds, hds, hd⟩ := numberNat_head s.length
    refine ⟨d, ds ++ [58] ++ s, by simp [toRaw, number_ofNat, hds], (isDigit_facts hd).2.2.2.2.2⟩
  · exact ⟨108, _, rfl, by decide⟩
  · exact ⟨100, _, rfl, by decide⟩

theorem parseItem_list (asserts : Bool) (fuel : Nat) (raw : List Nat) (pos : Int)
    (hat : at? raw pos = some 108) :
    parseItem asserts (fuel + 1) raw pos
      = match parseList asserts fuel raw pos with
        | .ok (r, p) => .ok (some r, p)
        | .fault => .fault
        | .timeout => .timeout := by
  have hne : ¬ (pos = 0 ∧ raw = []) := by
    rintro ⟨h1, h2⟩; subst h1 h2; simp [at?] at hat
  simp [parseItem, parseList, hne, hat, isDigit]

theorem parseItem_dictionary (asserts : Bool) (fuel : Nat) (raw : List Nat) (pos : Int)
    (hat : at? raw pos = some 100) :
    parseItem asserts (fuel + 1) raw pos
      = match parseDictionary asserts fuel raw pos with
        | .ok (r, p) => .ok (some r, p)
        | .fault => .fault
        | .timeout => .timeout := by
  have hne : ¬ (pos = 0 ∧ raw = []) := by
    rintro ⟨h1, h2⟩; subst h1 h2; simp [at?] at hat
  simp [parseItem, parseDictionary, hne, hat, isDigit]

theorem parseListLoop_end (asserts : Bool) (fuel : Nat) (raw : List Nat) (pos : Int) (res : BNode)
    (hat : at? raw pos = some 101) :
    parseListLoop asserts (fuel + 1) raw pos res = .ok (res, pos + 1) := by
  simp [parseListLoop, hat]

theorem parseListLoop_step (asserts : Bool) (fuel : Nat) (raw : List Nat) (pos p1 : Int) (res item : BNode)
    (c : Nat) (hat : at? raw pos = some c) (hc : c ≠ 101)
    (hitem : parseItem asserts fuel raw pos = .ok (some item, p1)) (hv : isValid item = true) :
    parseListLoop asserts (fuel + 1) raw pos res = parseListLoop asserts fuel raw p1 (appendChild res item) := by
  simp [parseListLoop, hat, hc, hitem, hv]

theorem parseDictionaryLoop_end (asserts : Bool) (fuel : Nat) (raw : List Nat) (pos : Int) (res : BNode)
    (hat : at? raw pos = some 101) :
    parseDictionaryLoop asserts (fuel + 1) raw pos res = .ok (res, pos + 1) := by
  simp [parseDictionaryLoop, hat]

theorem parseDictionaryLoop_step (asserts : Bool) (fuel : Nat) (raw : List Nat) (pos p1 p2 : Int)
    (res keyItem value res1 : BNode) (c : Nat) (hat : at? raw pos = some c) (hc : c ≠ 101)
    (hkey : parseString raw pos = .ok (keyItem, p1))
    (hvalue : parseItem asserts fuel raw p1 = .ok (some value, p2)) (hv : isValid value = true)
    (happ : appendMapItem asserts res
      (if hexKeysContains (string keyItem) then setHex (setKey value (string keyItem)) true
        else setKey value (string keyItem)) = .ok res1) :
    parseDictionaryLoop asserts (fuel + 1) raw pos res = parseDictionaryLoop asserts fuel raw p2 res1 := by
  simp [parseDictionaryLoop, hat, hc, hkey, hvalue, hv, happ]

theorem setChildren_children (b : BNode) : setChildren b (children b) = b := by
  cases b; rfl

theorem appendChild_children (b item : BNode) :
    children (appendChild b item) = children b ++ [item] := by
  cases b; rfl

theorem setChildren_setChildren (b item : BNode) (cs : List BNode) :
    setChildren (appendChild b item) cs = setChildren b cs := by
  cases b; rfl

theorem isValid_of_wellFormed (asserts : Bool) (v : BNode) (h : allNodes (wellFormedNode asserts) v = true) :
    isValid v = true := by
  rw [allNodes_eq] at h
  simp only [wellFormedNode, Bool.and_eq_true] at h
  exact h.1.1.1.1

/-- Parsing the encoding of a well-formed tree that stands at `pos`, followed by any
bytes: with a recursion budget of at least the length of the encoding, `parseItem`
returns the rebuilt tree and leaves the cursor right behind the encoding; the two loops
do the same for the encoded children followed by the closing `e`. -/
theorem parse_encoded (asserts : Bool) (fuel : Nat) :
    (∀ v p t pos, pos = (p.length : Int) → allNodes (wellFormedNode asserts) v = true →
      pos + (toRaw v).length ≤ INT_MAX → (toRaw v).length ≤ fuel →
      parseItem asserts fuel (p ++ (toRaw v ++ t)) pos
        = .ok (some (reparsed [] false v), pos + (toRaw v).length)) ∧
    (∀ cs p t pos res, pos = (p.length : Int) → allNodesList (wellFormedNode asserts) cs = true →
      pos + (toRawList cs).length + 1 ≤ INT_MAX → (toRawList cs).length + 1 ≤ fuel →
      parseListLoop asserts fuel (p ++ (toRawList cs ++ 101 :: t)) pos res
        = .ok (setChildren res (children res ++ reparsedList cs),
            pos + (toRawList cs).length + 1)) ∧
    (∀ cs p t pos res, pos = (p.length : Int) → allNodesList (wellFormedNode asserts) cs = true →
      keysAscending cs → (asserts = true → ∀ c ∈ cs, key c ≠ []) →
      type res = BType.Dictionary →
      (∀ a ∈ children res, ∀ c ∈ cs, baLess (key c) (key a) = false) →
      pos + (toRawMap cs).length + 1 ≤ INT_MAX → (toRawMap cs).length + 1 ≤ fuel →
      parseDictionaryLoop asserts fuel (p ++ (toRawMap cs ++ 101 :: t)) pos res
        = .ok (setChildren res (children res ++ reparsedMap cs),
            pos + (toRawMap cs).length + 1)) := by
  induction fuel with
  | zero =>
    refine ⟨?_, ?_, ?_⟩
    · intro v p t pos _ hwf _ hfuel
      have hv : isValid v = true := by
        rw [allNodes_eq] at hwf
        simp only [wellFormedNode, Bool.and_eq_true] at hwf
        exact hwf.1.1.1.1
      have := toRaw_ne_nil v hv
      have : (toRaw v).length ≠ 0 := by simpa using this
      omega
    · intro cs p t pos res _ _ _ hfuel; omega
    · intro cs p t pos res _ _ _ _ _ _ _ hfuel; omega
  | succ fuel ih =>
    obtain ⟨ihI, ihL, ihD⟩ := ih
    refine ⟨?_, ?_, ?_⟩
    · intro v p t pos hpos hwf hmax hfuel
      obtain ⟨ty, n, s, k, h, cs⟩ := v
      simp only [allNodes, wellFormedNode, Bool.and_eq_true] at hwf
      obtain ⟨⟨⟨⟨hvalid, hrange⟩, hkeys⟩, hasc⟩, hcs⟩ := hwf
      cases ty
      · exact absurd hvalid (by simp [isValid, type])
      · -- Integer
        simp only [integerInRange, type, integer, true_implies, decide_eq_true_eq] at hrange
        have hraw : p ++ (toRaw (.mk .Integer n s k h cs) ++ t)
            = p ++ 105 :: (number n ++ 101 :: t) := by simp [toRaw]
        rw [hraw, parseItem_integer asserts fuel p (number n) t pos hpos (number_no_e n) (number_check n),
          toLongLong_number n hrange.1 hrange.2]
        simp only [toRaw, reparsed, newInteger, List.length_append, List.length_singleton,
          Nat.cast_add, Nat.cast_one]
        congr 2
        omega
      · -- String
        have hraw : p ++ (toRaw (.mk .String n s k h cs) ++ t)
            = p ++ (numberNat s.length ++ 58 :: (s ++ t)) := by simp [toRaw, number_ofNat]
        have hlen : (toRaw (.mk .String n s k h cs)).length
            = (numberNat s.length).length + 1 + s.length := by
          simp [toRaw, number_ofNat]; omega
        rw [hlen] at hmax ⊢
        rw [hraw, parseItem_string asserts fuel p s t pos hpos (by push_cast at hmax; omega)]
        simp only [reparsed, newString, Nat.cast_add, Nat.cast_one]
        congr 2
        omega
      · -- List
        have hraw : p ++ (toRaw (.mk .List n s k h cs) ++ t)
            = (p ++ [108]) ++ (toRawList cs ++ 101 :: t) := by simp [toRaw]
        have hraw2 : p ++ (toRaw (.mk .List n s k h cs) ++ t)
            = p ++ 108 :: (toRawList cs ++ 101 :: t) := by simp [toRaw]
        have hlen : (toRaw (.mk .List n s k h cs)).length = (toRawList cs).length + 2 := by
          simp [toRaw]
        rw [hlen] at hmax hfuel ⊢
        have hloop := ihL cs (p ++ [108]) t (pos + 1)
          (newOfType .List []) (by simp [hpos]) hcs (by push_cast at hmax ⊢; omega) (by omega)
        rw [parseItem_list asserts fuel _ pos (by rw [hraw2]; exact at?_append p 108 _ pos hpos),
          parseList, hraw, hloop]
        simp only [reparsed, newOfType, setChildren, children, type, integer, string, key, hex,
          List.nil_append]
        congr 2
        push_cast
        omega
      · -- Dictionary
        have hraw : p ++ (toRaw (.mk .Dictionary n s k h cs) ++ t)
            = (p ++ [100]) ++ (toRawMap cs ++ 101 :: t) := by simp [toRaw]
        have hraw2 : p ++ (toRaw (.mk .Dictionary n s k h cs) ++ t)
            = p ++ 100 :: (toRawMap cs ++ 101 :: t) := by simp [toRaw]
        have hlen : (toRaw (.mk .Dictionary n s k h cs)).length = (toRawMap cs).length + 2 := by
          simp [toRaw]
        rw [hlen] at hmax hfuel ⊢
        simp only [dictKeysNonEmpty, dictAscending, type, children, true_implies,
          decide_eq_true_eq, Bool.or_eq_true, Bool.not_eq_true'] at hkeys hasc
        have hkeys : asserts = true → ∀ c ∈ cs, key c ≠ [] := by
          intro ha
          rcases hkeys with h0 | h0
          · rw [ha] at h0; exact absurd h0 (by decide)
          · exact h0
        have hloop := ihD cs (p ++ [100]) t (pos + 1)
          (newOfType .Dictionary []) (by simp [hpos]) hcs hasc hkeys rfl
          (by simp [newOfType, children]) (by push_cast at hmax ⊢; omega) (by omega)
        rw [parseItem_dictionary asserts fuel _ pos
            (by rw [hraw2]; exact at?_append p 100 _ pos hpos),
          parseDictionary, hraw, hloop]
        simp only [reparsed, newOfType, setChildren, children, type, integer, string, key, hex,
          List.nil_append]
        congr 2
        push_cast
        omega
    · intro cs p t pos res hpos hwf hmax hfuel
      cases cs with
      | nil =>
        have hraw : p ++ (toRawList [] ++ 101 :: t) = p ++ 101 :: t := by simp [toRawList]
        rw [hraw, parseListLoop_end asserts fuel _ pos res (at?_append p 101 t pos hpos)]
        simp [toRawList, reparsedList, setChildren_children]
      | cons c cs =>
        simp only [allNodesList, Bool.and_eq_true] at hwf
        have hv : isValid c = true := isValid_of_wellFormed asserts c hwf.1
        obtain ⟨d, ds, hds, hd⟩ := toRaw_head c hv
        have hlen : (toRawList (c :: cs)).length = (toRaw c).length + (toRawList cs).length := by
          simp [toRawList]
        have hpos1 : 1 ≤ (toRaw c).length := by simp [hds]
        rw [hlen] at hmax hfuel ⊢
        have hraw1 : p ++ (toRawList (c :: cs) ++ 101 :: t)
            = p ++ (toRaw c ++ (toRawList cs ++ 101 :: t)) := by simp [toRawList]
        have hraw2 : p ++ (toRaw c ++ (toRawList cs ++ 101 :: t))
            = p ++ d :: (ds ++ (toRawList cs ++ 101 :: t)) := by simp [hds]
        have hraw3 : p ++ (toRaw c ++ (toRawList cs ++ 101 :: t))
            = (p ++ toRaw c) ++ (toRawList cs ++ 101 :: t) := by simp
        have hitem := ihI c p (toRawList cs ++ 101 :: t) pos hpos hwf.1
          (by push_cast at hmax; omega) (by omega)
        rw [hraw1, parseListLoop_step asserts fuel _ pos _ res _ d
          (by rw [hraw2]; exact at?_append p d _ pos hpos) hd hitem
          (by simp [isValid, type_reparsed] at hv ⊢; exact hv)]
        rw [hraw3, ihL cs (p ++ toRaw c) t _ _ (by simp [hpos]) hwf.2
          (by push_cast at hmax ⊢; omega) (by omega)]
        simp only [appendChild_children, setChildren_setChildren, reparsedList,
          List.append_assoc, List.singleton_append]
        congr 2
        push_cast
        omega
    · intro cs p t pos res hpos hwf hasc hkeys hty hres hmax hfuel
      cases cs with
      | nil =>
        have hraw : p ++ (toRawMap [] ++ 101 :: t) = p ++ 101 :: t := by simp [toRawMap]
        rw [hraw, parseDictionaryLoop_end asserts fuel _ pos res (at?_append p 101 t pos hpos)]
        simp [toRawMap, reparsedMap, setChildren_children]
      | cons c cs =>
        simp only [allNodesList, Bool.and_eq_true] at hwf
        have hv : isValid c = true := isValid_of_wellFormed asserts c hwf.1
        obtain ⟨d, ds, hds, hd⟩ := numberNat_head (key c).length
        have hd101 : d ≠ 101 := (isDigit_facts hd).2.2.2.2.2
        have hpos1 : 1 ≤ (toRaw c).length := by
          have := toRaw_ne_nil c hv
          cases hc : toRaw c with
          | nil => exact absurd hc this
          | cons _ _ => simp
        have hlen : (toRawMap (c :: cs)).length
            = (numberNat (key c).length).length + 1 + (key c).length + (toRaw c).length
              + (toRawMap cs).length := by
          simp [toRawMap, number_ofNat]; omega
        rw [hlen] at hmax hfuel ⊢
        have hraw1 : p ++ (toRawMap (c :: cs) ++ 101 :: t)
            = p ++ (numberNat (key c).length ++ 58 ::
                (key c ++ (toRaw c ++ (toRawMap cs ++ 101 :: t)))) := by
          simp [toRawMap, number_ofNat]
        have hraw2 : p ++ (numberNat (key c).length ++ 58 ::
                (key c ++ (toRaw c ++ (toRawMap cs ++ 101 :: t))))
            = p ++ d :: (ds ++ 58 :: (key c ++ (toRaw c ++ (toRawMap cs ++ 101 :: t)))) := by
          simp [hds]
        have hraw3 : p ++ (numberNat (key c).length ++ 58 ::
                (key c ++ (toRaw c ++ (toRawMap cs ++ 101 :: t))))
            = (p ++ numberNat (key c).length ++ [58] ++ key c)
                ++ (toRaw c ++ (toRawMap cs ++ 101 :: t)) := by simp
        have hraw4 : p ++ (numberNat (key c).length ++ 58 ::
                (key c ++ (toRaw c ++ (toRawMap cs ++ 101 :: t))))
            = (p ++ numberNat (key c).length ++ [58] ++ key c ++ toRaw c)
                ++ (toRawMap cs ++ 101 :: t) := by simp
        have hkey := parseString_encoded p (key c) (toRaw c ++ (toRawMap cs ++ 101 :: t)) pos hpos
          (by push_cast at hmax; omega)
        have hvalue : parseItem asserts fuel (p ++ (numberNat (key c).length ++ 58 ::
                (key c ++ (toRaw c ++ (toRawMap cs ++ 101 :: t)))))
              (pos + (numberNat (key c).length).length + 1 + (key c).length)
            = .ok (some (reparsed [] false c),
                pos + (numberNat (key c).length).length + 1 + (key c).length
                  + (toRaw c).length) := by
          rw [hraw3]
          exact ihI c _ (toRawMap cs ++ 101 :: t) _ (by simp [hpos]; omega) hwf.1
            (by push_cast at hmax ⊢; omega) (by omega)
        have hvalue2 : (if hexKeysContains (string (newString (key c))) = true
              then setHex (setKey (reparsed [] false c) (string (newString (key c)))) true
              else setKey (reparsed [] false c) (string (newString (key c))))
            = reparsed (key c) (hexKeysContains (key c)) c := by
          have e : string (newString (key c)) = key c := rfl
          rw [e, setKey_reparsed]
          by_cases hh : hexKeysContains (key c) = true
          · rw [if_pos hh, setHex_reparsed, hh]
          · rw [if_neg hh]
            simp only [Bool.not_eq_true] at hh
            rw [hh]
        have happ : appendMapItem asserts res (reparsed (key c) (hexKeysContains (key c)) c)
            = .ok (appendChild res (reparsed (key c) (hexKeysContains (key c)) c)) := by
          rw [appendMapItem_eq asserts _ _
              (by intro ha; rw [key_reparsed]; exact hkeys ha c (by simp)) (fun _ => hty),
            insertByKey_last _ _ (by
              intro a ha
              rw [key_reparsed]
              exact hres a ha c (by simp))]
          rfl
        rw [hraw1, parseDictionaryLoop_step asserts fuel _ pos _ _ res _ _ _ d
          (by rw [hraw2]; exact at?_append p d _ pos hpos) hd101 hkey hvalue
          (by simp [isValid, type_reparsed] at hv ⊢; exact hv)
          (by rw [hvalue2]; exact happ)]
        unfold keysAscending at hasc
        rw [List.pairwise_cons] at hasc
        rw [hraw4, ihD cs _ t _ _ (by simp [hpos]; omega) hwf.2 hasc.2
          (fun ha x hx => hkeys ha x (by simp [hx]))
          (by simpa [appendChild, setChildren, type] using hty)
          (by
            intro a ha x hx
            rw [appendChild_children] at ha
            rcases List.mem_append.1 ha with ha | ha
            · exact hres a ha x (by simp [hx])
            · simp only [List.mem_singleton] at ha
              subst ha
              rw [key_reparsed]
              exact hasc.1 x hx)
          (by push_cast at hmax ⊢; omega) (by omega)]
        simp only [appendChild_children, setChildren_setChildren, reparsedMap,
          List.append_assoc, List.singleton_append]
        congr 2
        push_cast
        omega

/-! ## The rebuilt tree against the original -/

mutual
theorem toRaw_reparsed : ∀ (k : List Nat) (h : Bool) (v : BNode),
    toRaw (reparsed k h v) = toRaw v
  | _, _, .mk .Invalid _ _ _ _ _ => rfl
  | _, _, .mk .Integer _ _ _ _ _ => rfl
  | _, _, .mk .String _ _ _ _ _ => rfl
  | _, _, .mk .List _ _ _ _ cs => by
    simp only [reparsed, toRaw, toRawList_reparsedList cs]
  | _, _, .mk .Dictionary _ _ _ _ cs => by
    simp only [reparsed, toRaw, toRawMap_reparsedMap cs]
theorem toRawList_reparsedList : ∀ (cs : List BNode),
    toRawList (reparsedList cs) = toRawList cs
  | [] => rfl
  | c :: cs => by
    simp only [reparsedList, toRawList, toRaw_reparsed [] false c, toRawList_reparsedList cs]
theorem toRawMap_reparsedMap : ∀ (cs : List BNode),
    toRawMap (reparsedMap cs) = toRawMap cs
  | [] => rfl
  | c :: cs => by
    simp only [reparsedMap, toRawMap, key_reparsed,
      toRaw_reparsed (key c) (hexKeysContains (key c)) c, toRawMap_reparsedMap cs]
end

theorem length_reparsedList (cs : List BNode) : (reparsedList cs).length = cs.length := by
  induction cs with
  | nil => rfl
  | cons c cs ih => simp [reparsedList, ih]

theorem length_reparsedMap (cs : List BNode) : (reparsedMap cs).length = cs.length := by
  induction cs with
  | nil => rfl
  | cons c cs ih => simp [reparsedMap, ih]

mutual
theorem compare_reparsed : ∀ (pt : Option BType) (pb : Bool) (k : List Nat) (h : Bool)
    (v : BNode), (pt = some BType.Dictionary → pb = true → k = key v) →
    compare pt pb (reparsed k h v) v = true
  | pt, pb, k, h, .mk .Invalid _ _ k0 _ _, hk => by
    have hc : ¬ (pt = some BType.Dictionary ∧ pb = true ∧ k ≠ k0) :=
      fun hc => hc.2.2 (hk hc.1 hc.2.1)
    simp only [reparsed, compare]
    simp [hc]
  | pt, pb, k, h, .mk .Integer _ _ k0 _ _, hk => by
    have hc : ¬ (pt = some BType.Dictionary ∧ pb = true ∧ k ≠ k0) :=
      fun hc => hc.2.2 (hk hc.1 hc.2.1)
    simp only [reparsed, compare]
    simp [hc]
  | pt, pb, k, h, .mk .String _ _ k0 _ _, hk => by
    have hc : ¬ (pt = some BType.Dictionary ∧ pb = true ∧ k ≠ k0) :=
      fun hc => hc.2.2 (hk hc.1 hc.2.1)
    simp only [reparsed, compare]
    simp [hc]
  | pt, pb, k, h, .mk .List _ _ k0 _ cs, hk => by
    have hc : ¬ (pt = some BType.Dictionary ∧ pb = true ∧ k ≠ k0) :=
      fun hc => hc.2.2 (hk hc.1 hc.2.1)
    simp only [reparsed, compare]
    simp [hc, length_reparsedList, compareChildren_reparsedList cs]
  | pt, pb, k, h, .mk .Dictionary _ _ k0 _ cs, hk => by
    have hc : ¬ (pt = some BType.Dictionary ∧ pb = true ∧ k ≠ k0) :=
      fun hc => hc.2.2 (hk hc.1 hc.2.1)
    simp only [reparsed, compare]
    simp [hc, length_reparsedMap, compareChildren_reparsedMap cs]
theorem compareChildren_reparsedList : ∀ (cs : List BNode),
    compareChildren BType.List (reparsedList cs) cs = true
  | [] => rfl
  | c :: cs => by
    simp only [reparsedList, compareChildren, Bool.and_eq_true]
    exact ⟨compare_reparsed _ _ _ _ c (by simp), compareChildren_reparsedList cs⟩
theorem compareChildren_reparsedMap : ∀ (cs : List BNode),
    compareChildren BType.Dictionary (reparsedMap cs) cs = true
  | [] => rfl
  | c :: cs => by
    simp only [reparsedMap, compareChildren, Bool.and_eq_true]
    exact ⟨compare_reparsed _ _ _ _ c (fun _ _ => rfl), compareChildren_reparsedMap cs⟩
end

theorem keysAscending_of_strict (cs : List BNode) (h : keysStrictlyAscending cs) :
    keysAscending cs :=
  List.Pairwise.imp (fun hab => baLess_asymm hab) h

mutual
theorem wellFormed_of_checks (asserts : Bool) : ∀ (v : BNode),
    allNodes isValid v = true → allNodes dictStrictlyAscending v = true →
    allNodes integerInRange v = true →
    (asserts = true → allNodes dictKeysNonEmpty v = true) →
    allNodes (wellFormedNode asserts) v = true
  | .mk t n s k h cs, h1, h2, h3, h4 => by
    simp only [allNodes, Bool.and_eq_true] at h1 h2 h3 h4 ⊢
    refine ⟨?_, wellFormedList_of_checks asserts cs h1.2 h2.2 h3.2 (fun ha => (h4 ha).2)⟩
    simp only [wellFormedNode, Bool.and_eq_true, Bool.or_eq_true, Bool.not_eq_true']
    refine ⟨⟨⟨h1.1, h3.1⟩, ?_⟩, ?_⟩
    · cases asserts with
      | false => exact Or.inl rfl
      | true => exact Or.inr (h4 rfl).1
    · have h5 := h2.1
      simp only [dictStrictlyAscending, dictAscending, decide_eq_true_eq] at h5 ⊢
      exact fun ht => keysAscending_of_strict _ (h5 ht)
theorem wellFormedList_of_checks (asserts : Bool) : ∀ (cs : List BNode),
    allNodesList isValid cs = true → allNodesList dictStrictlyAscending cs = true →
    allNodesList integerInRange cs = true →
    (asserts = true → allNodesList dictKeysNonEmpty cs = true) →
    allNodesList (wellFormedNode asserts) cs = true
  | [], _, _, _, _ => rfl
  | c :: cs, h1, h2, h3, h4 => by
    simp only [allNodesList, Bool.and_eq_true] at h1 h2 h3 h4 ⊢
    exact ⟨wellFormed_of_checks asserts c h1.1 h2.1 h3.1 (fun ha => (h4 ha).1),
      wellFormedList_of_checks asserts cs h1.2 h2.2 h3.2 (fun ha => (h4 ha).2)⟩
end

/-- `fromRaw` on the encoding of a well-formed tree returns the rebuilt tree. -/
theorem fromRaw_toRaw (asserts : Bool) (fuel : Nat) (v : BNode)
    (hwf : allNodes (wellFormedNode asserts) v = true)
    (hsize : ((toRaw v).length : Int) ≤ INT_MAX) (hfuel : (toRaw v).length ≤ fuel) :
    fromRaw asserts fuel (toRaw v) = .ok (some (reparsed [] false v)) := by
  have h := (parse_encoded asserts fuel).1 v [] [] 0 rfl hwf (by omega) hfuel
  simp only [List.nil_append, List.append_nil] at h
  simp only [fromRaw, h]

/-! ## Integer literals (`parseInteger`) -/

/-- C4: the body check of `parseInteger` lets the empty body and a lone minus sign
through. Parsing `ie` and `i-e` returns a valid `Integer` node holding 0 instead of the
invalid node, while `i5-3e` is rejected and `i-5e` gives `Integer(-5)` as claimed. -/
theorem parseInteger_accepts_empty_body (asserts : Bool) (fuel : Nat) :
    fromRaw asserts (fuel + 1) (bytes "ie") = .ok (some (newInteger 0)) ∧
    fromRaw asserts (fuel + 1) (bytes "i-e") = .ok (some (newInteger 0)) ∧
    isValid (newInteger 0) = true ∧
    fromRaw asserts (fuel + 1) (bytes "i5-3e") = .ok (some newInvalid) ∧
    fromRaw asserts (fuel + 1) (bytes "i-5e") = .ok (some (newInteger (-5))) :=
  ⟨rfl, rfl, rfl, rfl, rfl⟩

/-- C5, counterexample: the literal `i9223372036854775808e` (2^63, one above the largest
64-bit value) parses to a valid `Integer` node holding 0, not to the invalid node. -/
theorem parseInteger_overflow_counterexample :
    fromRaw true 1 (bytes "i9223372036854775808e") = .ok (some (newInteger 0)) ∧
    isValid (newInteger 0) = true :=
  ⟨rfl, rfl⟩

/-- C5, amended: an integer literal (an optional minus sign and at least one digit)
whose value lies outside the signed 64-bit range is not a syntax error. The conversion
`toLongLong` is made without a range check, so parsing yields a valid `Integer` node
holding the conversion's failure value 0, and the cursor moves past the literal. -/
theorem parseInteger_out_of_range (asserts : Bool) (fuel : Nat) (neg : Bool) (ds t : List Nat) (n : Nat)
    (hne : ds ≠ []) (hd : ∀ c ∈ ds, isDigit c = true) (hv : digitsValue 0 ds = some n)
    (hout : (if neg then - (n : Int) else (n : Int)) < LLONG_MIN ∨
      LLONG_MAX < (if neg then - (n : Int) else (n : Int))) :
    parseItem asserts (fuel + 1) (105 :: ((if neg then 45 :: ds else ds) ++ 101 :: t)) 0
      = .ok (some (newInteger 0), ((if neg then 45 :: ds else ds).length : Int) + 2)
    ∧ isValid (newInteger 0) = true := by
  refine ⟨?_, rfl⟩
  have h := parseItem_integer asserts fuel [] (if neg then 45 :: ds else ds) t 0 rfl
    (literal_no_e neg ds hd) (check_enum_literal neg ds hd)
  have hz : toLongLong (qString (if neg then 45 :: ds else ds)) = 0 := by
    rw [toLongLong, parseDecimal_literal neg ds hne hd, hv]
    simp only [Option.map]
    rw [if_neg (by omega)]
  rw [hz] at h
  simpa using h

/-- Witness for `parseInteger_out_of_range`: the literal 2^63. -/
theorem parseInteger_out_of_range_witness :
    parseItem true 1 (105 :: ((if false then 45 :: bytes "9223372036854775808"
        else bytes "9223372036854775808") ++ 101 :: [])) 0
      = .ok (some (newInteger 0),
          ((if false then 45 :: bytes "9223372036854775808"
            else bytes "9223372036854775808").length : Int) + 2)
    ∧ isValid (newInteger 0) = true :=
  parseInteger_out_of_range true 0 false (bytes "9223372036854775808") [] 9223372036854775808
    (by decide) (by decide) (by rfl) (by decide)

/-! ## Byte strings (`parseString`) -/

/-- C6: `parseString` has no failure path. On `3:ab`, where only two bytes follow the
colon, it returns the valid byte string `ab` (shorter than the declared length 3); on `5`,
where the colon is missing, it returns the valid byte string `5`. -/
theorem parseString_truncated_accepted (asserts : Bool) (fuel : Nat) :
    fromRaw asserts (fuel + 1) (bytes "3:ab") = .ok (some (newString (bytes "ab"))) ∧
    fromRaw asserts (fuel + 1) (bytes "5") = .ok (some (newString (bytes "5"))) ∧
    isValid (newString (bytes "ab")) = true ∧
    (string (newString (bytes "ab"))).length < 3 :=
  ⟨rfl, rfl, rfl, by decide⟩

/-! ## Round trips between `toRaw` and `fromRaw` -/

/-- C1, counterexample: the dictionary with children `z` = 1, `a` = 2 in this order
encodes to `d1:zi1e1:ai2ee`; parsing these bytes sorts the children, and encoding the
parsed tree gives `d1:ai2e1:zi1ee`, not the bytes parsed. -/
theorem toRaw_fromRaw_unsorted_counterexample :
    toRaw (.mk .Dictionary 0 [] [] false
      [.mk .Integer 1 [] [122] false [], .mk .Integer 2 [] [97] false []])
      = bytes "d1:zi1e1:ai2ee" ∧
    fromRaw true 4 (bytes "d1:zi1e1:ai2ee")
      = .ok (some (.mk .Dictionary 0 [] [] false
          [.mk .Integer 2 [] [97] false [], .mk .Integer 1 [] [122] false []])) ∧
    toRaw (.mk .Dictionary 0 [] [] false
      [.mk .Integer 2 [] [97] false [], .mk .Integer 1 [] [122] false []])
      = bytes "d1:ai2e1:zi1ee" ∧
    bytes "d1:ai2e1:zi1ee" ≠ bytes "d1:zi1e1:ai2ee" :=
  ⟨rfl, rfl, rfl, by decide⟩

/-- C1, amended: for every byte sequence `b = toRaw(v)` where `v` has no invalid node and
every dictionary in `v` has its children in ascending byte order of key (with non-empty
keys when `Q_ASSERT` is compiled in), `fromRaw(b)` returns a tree `w`, given a recursion
budget of at least the length of `b`, and `toRaw(w) == b`. -/
theorem toRaw_fromRaw_toRaw (asserts : Bool) (fuel : Nat) (v : BNode)
    (hwf : allNodes (wellFormedNode asserts) v = true)
    (hsize : ((toRaw v).length : Int) ≤ INT_MAX) (hfuel : (toRaw v).length ≤ fuel) :
    ∃ w, fromRaw asserts fuel (toRaw v) = .ok (some w) ∧ toRaw w = toRaw v :=
  ⟨reparsed [] false v, fromRaw_toRaw asserts fuel v hwf hsize hfuel, toRaw_reparsed [] false v⟩

/-- Witness for `toRaw_fromRaw_toRaw`: `Integer(42)` encodes to `i42e`, which parses to
`Integer(42)` and encodes back to `i42e`. -/
theorem toRaw_fromRaw_toRaw_witness :
    toRaw (newInteger 42) = bytes "i42e" ∧
    fromRaw true 4 (bytes "i42e") = .ok (some (newInteger 42)) ∧
    ∃ w, fromRaw true 4 (toRaw (newInteger 42)) = .ok (some w) ∧
      toRaw w = toRaw (newInteger 42) :=
  ⟨rfl, rfl, toRaw_fromRaw_toRaw true 4 (newInteger 42) (by decide) (by decide) (by decide)⟩

/-- C2: for every value tree `v` made of `Integer`, `ByteString`, `List` and `Dictionary`
nodes in which every dictionary's children are in strictly ascending byte order of key,
`fromRaw(toRaw(v))` returns a tree `w`, given a recursion budget of at least the length
of the encoding, and `w.compare(v)` is true, whether or not `v` has a parent. The tree is
one the C++ types can hold (integers in the `qlonglong` range, an encoding no longer than
`INT_MAX`), and in a build with `Q_ASSERT` compiled in the dictionary keys are non-empty. -/
theorem fromRaw_toRaw_compare (asserts : Bool) (fuel : Nat) (otherHasParent : Bool) (v : BNode)
    (hvalid : allNodes isValid v = true)
    (hsorted : allNodes dictStrictlyAscending v = true)
    (hrange : allNodes integerInRange v = true)
    (hkeys : asserts = true → allNodes dictKeysNonEmpty v = true)
    (hsize : ((toRaw v).length : Int) ≤ INT_MAX) (hfuel : (toRaw v).length ≤ fuel) :
    ∃ w, fromRaw asserts fuel (toRaw v) = .ok (some w) ∧
      compare none otherHasParent w v = true :=
  ⟨reparsed [] false v,
    fromRaw_toRaw asserts fuel v (wellFormed_of_checks asserts v hvalid hsorted hrange hkeys)
      hsize hfuel,
    compare_reparsed none otherHasParent [] false v (by simp)⟩

/-- Witness for `fromRaw_toRaw_compare`: the dictionary
`d1:ai-7e4:infod6:pieces2:xyee2:lsl4:spami0eee`. -/
theorem fromRaw_toRaw_compare_witness :
    ∃ w, fromRaw true 64 (toRaw (.mk .Dictionary 0 [] [] false
        [.mk .Integer (-7) [] [97] false [],
         .mk .Dictionary 0 [] (bytes "info") false
           [.mk .String 0 (bytes "xy") (bytes "pieces") true []],
         .mk .List 0 [] (bytes "ls") false [newString (bytes "spam"), newInteger 0]]))
        = .ok (some w) ∧
      compare none false w (.mk .Dictionary 0 [] [] false
        [.mk .Integer (-7) [] [97] false [],
         .mk .Dictionary 0 [] (bytes "info") false
           [.mk .String 0 (bytes "xy") (bytes "pieces") true []],
         .mk .List 0 [] (bytes "ls") false [newString (bytes "spam"), newInteger 0]]) = true :=
  fromRaw_toRaw_compare true 64 false _ (by decide) (by decide) (by decide)
    (fun _ => by decide) (by decide) (by decide)

/-! ## Escaping (`fromRawString`, `toRawString`) -/

/-- C3: for every byte sequence `s` (every element a byte value 0..255),
`toRawString(fromRawString(s)) == s`. -/
theorem toRawString_fromRawString (s : List Nat) (hs : ∀ c ∈ s, c < 256) :
    toRawString (fromRawString s) = s := by
  induction s with
  | nil => rfl
  | cons c s ih =>
    have hc : c < 256 := hs c (by simp)
    have ih1 := ih (fun x hx => hs x (by simp [hx]))
    unfold fromRawString
    by_cases hp : 32 ≤ c ∧ c ≤ 126 ∧ c ≠ 37
    · rw [if_pos hp]
      unfold toRawString
      rw [if_pos hp.2.2, ih1]
      simp [toLatin1]; omega
    · rw [if_neg hp]
      unfold toRawString
      simp only [ne_eq, not_true_eq_false, if_false]
      rw [fromHex_hexDigits c hc, ih1]
      rfl

/-- Witness for `toRawString_fromRawString`: the bytes `%`, `A`, 0x00, 0x7f, 0xff. -/
theorem toRawString_fromRawString_witness :
    toRawString (fromRawString [37, 65, 0, 127, 255]) = [37, 65, 0, 127, 255] :=
  toRawString_fromRawString [37, 65, 0, 127, 255] (by decide)

/-! ## Dictionaries -/

/-- C10: `appendMapItem` on a dictionary and a parentless item with a non-empty key adds
exactly that item. The children split as `before ++ after` and become
`before ++ item :: after`, so the count grows by one and the existing children keep their
order; no key in `before` is greater than the item's key and the first child of `after`,
if there is one, has a greater key; when the children were in ascending key order they
still are. -/
theorem appendMapItem_inserts_in_order (asserts : Bool) (d item : BNode) (hd : type d = BType.Dictionary)
    (hk : key item ≠ []) (hs : keysAscending (children d)) :
    ∃ d1 before after,
      appendMapItem asserts d item = .ok d1 ∧
      children d = before ++ after ∧
      d1 = setChildren d (before ++ item :: after) ∧
      childCount d1 = childCount d + 1 ∧
      (∀ c ∈ before, baLess (key item) (key c) = false) ∧
      (∀ c, after.head? = some c → baLess (key item) (key c) = true) ∧
      keysAscending (children d1) := by
  obtain ⟨before, after, h1, h2, h3, h4⟩ := insertByKey_split item (children d)
  refine ⟨setChildren d (before ++ item :: after), before, after, ?_, h1, rfl, ?_, h3, h4, ?_⟩
  · rw [appendMapItem_eq asserts d item (fun _ => hk) (fun _ => hd), h2]
  · have hl : (children d).length = before.length + after.length := by simp [h1]
    simp only [childCount, hl]
    simp [setChildren, children]
    omega
  · have := keysAscending_insertByKey item (children d) hs
    rw [h2] at this
    simpa [setChildren, children] using this

/-- Witness for `appendMapItem_inserts_in_order`: inserting key `b` between `a` and `c`. -/
theorem appendMapItem_inserts_in_order_witness :
    ∃ d1 before after,
      appendMapItem true (.mk .Dictionary 0 [] [] false [newOfType .List [97], newOfType .List [99]])
        (newOfType .String [98]) = .ok d1 ∧
      children (.mk .Dictionary 0 [] [] false [newOfType .List [97], newOfType .List [99]])
        = before ++ after ∧
      d1 = setChildren (.mk .Dictionary 0 [] [] false [newOfType .List [97], newOfType .List [99]])
        (before ++ newOfType .String [98] :: after) ∧
      childCount d1
        = childCount (.mk .Dictionary 0 [] [] false [newOfType .List [97], newOfType .List [99]])
          + 1 ∧
      (∀ c ∈ before, baLess (key (newOfType .String [98])) (key c) = false) ∧
      (∀ c, after.head? = some c → baLess (key (newOfType .String [98])) (key c) = true) ∧
      keysAscending (children d1) :=
  appendMapItem_inserts_in_order true
    (.mk .Dictionary 0 [] [] false [newOfType .List [97], newOfType .List [99]])
    (newOfType .String [98]) rfl (by decide) (by decide)

/-- C9, counterexample: the input `d1:ai1e1:ai2ee` repeats the key `a`; it parses to a
valid dictionary that keeps both children under the key `a`, so its keys are not in
strictly ascending order. -/
theorem fromRaw_repeated_key_counterexample :
    fromRaw true 4 (bytes "d1:ai1e1:ai2ee")
      = .ok (some (.mk .Dictionary 0 [] [] false
          [.mk .Integer 1 [] [97] false [], .mk .Integer 2 [] [97] false []])) ∧
    isValid (.mk .Dictionary 0 [] [] false
      [.mk .Integer 1 [] [97] false [], .mk .Integer 2 [] [97] false []]) = true ∧
    allNodes dictStrictlyAscending (.mk .Dictionary 0 [] [] false
      [.mk .Integer 1 [] [97] false [], .mk .Integer 2 [] [97] false []]) = false :=
  ⟨rfl, rfl, by decide⟩

/-- C9, amended: in every valid tree returned by `fromRaw`, every dictionary has its
children's keys in ascending byte-wise order (a repeated key is kept, so the order need
not be strict), whatever the order of the keys in the input. -/
theorem fromRaw_dicts_ascending (asserts : Bool) (fuel : Nat) (raw : List Nat) (v : BNode)
    (h : fromRaw asserts fuel raw = .ok (some v)) (hv : isValid v = true) :
    allNodes dictAscending v = true := by
  unfold fromRaw at h
  split at h
  · rename_i r p hp
    simp only [Outcome.ok.injEq] at h
    subst h
    rcases (parse_built asserts fuel).1 _ _ _ _ hp with e | e
    · subst e; exact absurd hv (by decide)
    · exact e.2
  · exact absurd h (by simp)
  · exact absurd h (by simp)

/-- Witness for `fromRaw_dicts_ascending`: the keys `z`, `a` of the input come out as
`a`, `z`. -/
theorem fromRaw_dicts_ascending_witness :
    allNodes dictAscending (.mk .Dictionary 0 [] [] false
      [.mk .Integer 2 [] [97] false [], .mk .Integer 1 [] [122] false []]) = true :=
  fromRaw_dicts_ascending true 4 (bytes "d1:zi1e1:ai2ee") _ rfl rfl

/-! ## All-or-nothing parsing -/

/-- C7: on the two-byte input `l0` the parser never returns. `parseString` at position 1
finds no colon, so `delimiter + 1` is 0 and the declared size is 0: the item ends at
position 0, before the position 1 where it started, and the list loop parses the list
itself again. Whatever the recursion budget, it is exhausted. -/
theorem fromRaw_l0_diverges (asserts : Bool) (fuel : Nat) :
    parseString (bytes "l0") 1 = .ok (newString [], 0) ∧
    fromRaw asserts fuel (bytes "l0") = .timeout := by
  have key : ∀ n, parseItem asserts n [108, 48] 0 = .timeout := by
    intro n
    induction n using Nat.strong_induction_on with
    | _ n ih =>
      match n with
      | 0 => rfl
      | 1 => rfl
      | 2 => rfl
      | m + 3 =>
        have h0 : ∀ res, parseListLoop asserts (m + 1) [108, 48] 0 res = .timeout := by
          intro res
          have h : parseListLoop asserts (m + 1) [108, 48] 0 res
            = match parseItem asserts m [108, 48] 0 with
              | .ok (none, _) => .fault
              | .ok (some item, p) =>
                if !isValid item then .ok (newInvalid, p)
                else parseListLoop asserts m [108, 48] p (appendChild res item)
              | .fault => .fault
              | .timeout => .timeout := rfl
          rw [h, ih m (by omega)]
        have h1 : ∀ res, parseListLoop asserts (m + 2) [108, 48] 1 res
            = parseListLoop asserts (m + 1) [108, 48] 0 (appendChild res (newString [])) :=
          fun _ => rfl
        have h2 : parseItem asserts (m + 3) [108, 48] 0
            = match parseListLoop asserts (m + 2) [108, 48] 1 (newOfType .List []) with
              | .ok (r, p) => .ok (some r, p)
              | .fault => .fault
              | .timeout => .timeout := rfl
        rw [h2, h1, h0]
  refine ⟨rfl, ?_⟩
  show (match parseItem asserts fuel [108, 48] 0 with
    | .ok (r, _) => Outcome.ok r
    | .fault => .fault
    | .timeout => .timeout) = _
  rw [key fuel]

/-! ## Structural equality (`compare`) and copies (`clone`) -/

mutual
theorem compare_refl : ∀ (pt : Option BType) (pb : Bool) (v : BNode), compare pt pb v v = true
  | pt, pb, .mk .Invalid _ _ _ _ _ => by simp [compare]
  | pt, pb, .mk .Integer _ _ _ _ _ => by simp [compare]
  | pt, pb, .mk .String _ _ _ _ _ => by simp [compare]
  | pt, pb, .mk .List _ _ _ _ cs => by simp [compare, compareChildren_refl BType.List cs]
  | pt, pb, .mk .Dictionary _ _ _ _ cs => by
    simp [compare, compareChildren_refl BType.Dictionary cs]
theorem compareChildren_refl : ∀ (t : BType) (cs : List BNode), compareChildren t cs cs = true
  | _, [] => by simp [compareChildren]
  | t, c :: cs => by
    simp only [compareChildren, Bool.and_eq_true]
    exact ⟨compare_refl (some t) true c, compareChildren_refl t cs⟩
end

mutual
theorem clone_eq : ∀ (v : BNode), clone v = v
  | .mk t n s k h cs => by simp only [clone, cloneChildren_eq cs]
theorem cloneChildren_eq : ∀ (cs : List BNode), cloneChildren cs = cs
  | [] => rfl
  | c :: cs => by simp only [cloneChildren, clone_eq c, cloneChildren_eq cs]
end

theorem compare_type {pt : Option BType} {pb : Bool} {a b : BNode}
    (h : compare pt pb a b = true) : type a = type b := by
  obtain ⟨t, n, s, k, hx, cs⟩ := a
  obtain ⟨t2, n2, s2, k2, hx2, cs2⟩ := b
  by_contra hne
  simp only [type] at hne
  simp [compare, hne] at h

theorem compare_key {a b : BNode}
    (h : compare (some BType.Dictionary) true a b = true) : key a = key b := by
  obtain ⟨t, n, s, k, hx, cs⟩ := a
  obtain ⟨t2, n2, s2, k2, hx2, cs2⟩ := b
  by_contra hne
  simp only [key] at hne
  simp [compare, hne] at h

mutual
theorem toRaw_eq_of_compare : ∀ (pt : Option BType) (pb : Bool) (a b : BNode),
    compare pt pb a b = true → toRaw a = toRaw b
  | pt, pb, .mk t n s k hx cs, .mk t2 n2 s2 k2 hx2 cs2, h => by
    have ht : t = t2 := compare_type h
    subst ht
    cases t with
    | Invalid => rfl
    | Integer =>
      simp only [compare] at h
      split at h
      · exact absurd h (by simp)
      · split at h
        · exact absurd h (by simp)
        · simp only [decide_eq_true_eq] at h
          simp only [toRaw, h]
    | String =>
      simp only [compare] at h
      split at h
      · exact absurd h (by simp)
      · split at h
        · exact absurd h (by simp)
        · simp only [decide_eq_true_eq] at h
          simp only [toRaw, h]
    | List =>
      simp only [compare] at h
      split at h
      · exact absurd h (by simp)
      · split at h
        · exact absurd h (by simp)
        · simp only [Bool.and_eq_true, decide_eq_true_eq] at h
          simp only [toRaw, toRawList_eq_of_compare cs cs2 h.1 h.2]
    | Dictionary =>
      simp only [compare] at h
      split at h
      · exact absurd h (by simp)
      · split at h
        · exact absurd h (by simp)
        · simp only [Bool.and_eq_true, decide_eq_true_eq] at h
          simp only [toRaw, toRawMap_eq_of_compare cs cs2 h.1 h.2]
theorem toRawList_eq_of_compare : ∀ (cs ds : List BNode), cs.length = ds.length →
    compareChildren BType.List cs ds = true → toRawList cs = toRawList ds
  | [], [], _, _ => rfl
  | [], _ :: _, hl, _ => by simp at hl
  | _ :: _, [], hl, _ => by simp at hl
  | c :: cs, d :: ds, hl, h => by
    simp only [compareChildren, Bool.and_eq_true] at h
    simp only [List.length_cons, Nat.add_right_cancel_iff] at hl
    simp only [toRawList, toRaw_eq_of_compare _ _ c d h.1, toRawList_eq_of_compare cs ds hl h.2]
theorem toRawMap_eq_of_compare : ∀ (cs ds : List BNode), cs.length = ds.length →
    compareChildren BType.Dictionary cs ds = true → toRawMap cs = toRawMap ds
  | [], [], _, _ => rfl
  | [], _ :: _, hl, _ => by simp at hl
  | _ :: _, [], hl, _ => by simp at hl
  | c :: cs, d :: ds, hl, h => by
    simp only [compareChildren, Bool.and_eq_true] at h
    simp only [List.length_cons, Nat.add_right_cancel_iff] at hl
    have hk : key c = key d := compare_key h.1
    simp only [toRawMap, hk, toRaw_eq_of_compare _ _ c d h.1, toRawMap_eq_of_compare cs ds hl h.2]
end

theorem toRaw_setKey (v : BNode) (k : List Nat) : toRaw (setKey v k) = toRaw v := by
  obtain ⟨t, n, s, k0, h0, cs⟩ := v
  cases t <;> rfl

theorem toRaw_setHex (v : BNode) (h : Bool) : toRaw (setHex v h) = toRaw v := by
  obtain ⟨t, n, s, k0, h0, cs⟩ := v
  cases t <;> rfl

/-! ## Deterministic encoding -/

/-- C13: whenever `a.compare(b)` is true, whatever parents the two nodes have,
`toRaw(a) == toRaw(b)`; and `toRaw` depends neither on the hex flag nor on the key of the
node being encoded. (`compare` does not look at hex flags, so trees that differ only in
hex flags, at any depth, compare equal and have the same encoding.) -/
theorem toRaw_stable (parentType : Option BType) (otherHasParent : Bool) (a b : BNode)
    (k : List Nat) (h : Bool) (hcmp : compare parentType otherHasParent a b = true) :
    toRaw a = toRaw b ∧ toRaw (setHex a h) = toRaw a ∧ toRaw (setKey a k) = toRaw a :=
  ⟨toRaw_eq_of_compare parentType otherHasParent a b hcmp, toRaw_setHex a h, toRaw_setKey a k⟩

/-- Witness for `toRaw_stable`: two `info` dictionaries that differ in the hex flag of
`pieces` and in their own key. -/
theorem toRaw_stable_witness :
    toRaw (.mk .Dictionary 0 [] (bytes "info") false
        [.mk .String 0 (bytes "xy") (bytes "pieces") true []])
      = toRaw (.mk .Dictionary 0 [] [] false
        [.mk .String 0 (bytes "xy") (bytes "pieces") false []]) ∧
    toRaw (setHex (.mk .Dictionary 0 [] (bytes "info") false
        [.mk .String 0 (bytes "xy") (bytes "pieces") true []]) true)
      = toRaw (.mk .Dictionary 0 [] (bytes "info") false
        [.mk .String 0 (bytes "xy") (bytes "pieces") true []]) ∧
    toRaw (setKey (.mk .Dictionary 0 [] (bytes "info") false
        [.mk .String 0 (bytes "xy") (bytes "pieces") true []]) (bytes "root"))
      = toRaw (.mk .Dictionary 0 [] (bytes "info") false
        [.mk .String 0 (bytes "xy") (bytes "pieces") true []]) :=
  toRaw_stable none false _ _ (bytes "root") true (by decide)

/-! ## Type changes and copies -/

/-- C16: after `setType(NewType)` with `NewType` different from the current type the node
has type `NewType`, no children, integer payload 0 and an empty byte string, and its key
and hex flag are unchanged; `setType` with the current type changes nothing. -/
theorem setType_resets (b : BNode) (t : BType) (hne : t ≠ type b) :
    type (setType b t) = t ∧ childCount (setType b t) = 0 ∧ integer (setType b t) = 0 ∧
    string (setType b t) = [] ∧ key (setType b t) = key b ∧ hex (setType b t) = hex b ∧
    setType b (type b) = b := by
  have h1 : setType b t = .mk t 0 [] (key b) (hex b) [] := by
    unfold setType; rw [if_neg hne]
  have h2 : setType b (type b) = b := by
    unfold setType; rw [if_pos rfl]
  rw [h1, h2]
  exact ⟨rfl, rfl, rfl, rfl, rfl, rfl, rfl⟩

/-- Witness for `setType_resets`: a list with one child turned into an integer. -/
theorem setType_resets_witness :
    type (setType (.mk .List 7 [1] [107] true [newInteger 3]) .Integer) = .Integer ∧
    childCount (setType (.mk .List 7 [1] [107] true [newInteger 3]) .Integer) = 0 ∧
    integer (setType (.mk .List 7 [1] [107] true [newInteger 3]) .Integer) = 0 ∧
    string (setType (.mk .List 7 [1] [107] true [newInteger 3]) .Integer) = [] ∧
    key (setType (.mk .List 7 [1] [107] true [newInteger 3]) .Integer)
      = key (.mk .List 7 [1] [107] true [newInteger 3]) ∧
    hex (setType (.mk .List 7 [1] [107] true [newInteger 3]) .Integer)
      = hex (.mk .List 7 [1] [107] true [newInteger 3]) ∧
    setType (.mk .List 7 [1] [107] true [newInteger 3])
        (type (.mk .List 7 [1] [107] true [newInteger 3]))
      = .mk .List 7 [1] [107] true [newInteger 3] :=
  setType_resets (.mk .List 7 [1] [107] true [newInteger 3]) .Integer (by decide)

/-- C17: `clone(v)` is the same tree as `v` (same type, integer, byte string, key and hex
flag at every node, the children cloned in the same order), so `v.compare(clone(v))` is
true whatever the parents, and `isModified()` is false right after `resetModified()`. -/
theorem clone_identical (parentType : Option BType) (otherHasParent : Bool) (v : BNode)
    (m : BencodeModel) :
    clone v = v ∧ compare parentType otherHasParent v (clone v) = true ∧
    isModified (resetModified m) = false := by
  refine ⟨clone_eq v, ?_, ?_⟩
  · rw [clone_eq]; exact compare_refl _ _ v
  · obtain ⟨b, o⟩ := m
    cases b with
    | none => rfl
    | some b => simp [resetModified, isModified, clone_eq, compare_refl]

/-! ## JSON shapes without a bencode counterpart -/

/-- C19: on a boolean or on the invalid variant (JSON null) `fromJson` takes the `default`
branch and returns its local pointer `res`, which was never initialised: the result is
indeterminate, neither a null pointer nor an invalid node. The same happens for a
boolean or null inside a list or an object. -/
theorem fromJson_unsupported_shape (b : Bool) :
    fromJson (.bool b) = .fault ∧ fromJson .null = .fault ∧
    fromJson (.list [.number 1, .bool b]) = .fault ∧
    fromJson (.map [(bytes "a", .null)]) = .fault :=
  ⟨rfl, rfl, rfl, rfl⟩

/-! ## Hex display flags set by the parser -/

/-- C20: the whitelist test is made on `QString(key)`, and that conversion stops at the
first zero byte of the key. The eight-byte key `pieces\0x` of the input
`d8:pieces\0x1:ae` is not in the whitelist, yet its child gets the hex flag. For keys
without a zero byte the flags are as claimed: in `d4:name1:a6:pieces1:be` only `pieces`
is flagged, and list children and the root are not. -/
theorem fromRaw_hex_flag_nul_key (asserts : Bool) (fuel : Nat) :
    fromRaw asserts (fuel + 4)
        [100, 56, 58, 112, 105, 101, 99, 101, 115, 0, 120, 49, 58, 97, 101]
      = .ok (some (.mk .Dictionary 0 [] [] false
          [.mk .String 0 [97] [112, 105, 101, 99, 101, 115, 0, 120] true []])) ∧
    [112, 105, 101, 99, 101, 115, 0, 120] ∉ hexKeys ∧
    fromRaw asserts (fuel + 4) (bytes "d4:name1:a6:pieces1:be")
      = .ok (some (.mk .Dictionary 0 [] [] false
          [.mk .String 0 [97] (bytes "name") false [],
           .mk .String 0 [98] (bytes "pieces") true []])) ∧
    fromRaw asserts (fuel + 4) (bytes "l6:piecese")
      = .ok (some (.mk .List 0 [] [] false [.mk .String 0 (bytes "pieces") [] false []])) := by
  cases asserts <;> exact ⟨rfl, by decide, rfl, rfl⟩

/-! ## Empty input -/

theorem outcome_map_none {x : Outcome (BNode × Int)} {p : Int}
    (h : (match x with
      | .ok (r, p) => Outcome.ok (some r, p)
      | .fault => .fault
      | .timeout => .timeout) = .ok (none, p)) : False := by
  cases x with
  | ok v => obtain ⟨a, b⟩ := v; simp at h
  | fault => simp at h
  | timeout => simp at h

theorem parseItem_none {asserts : Bool} {fuel : Nat} {raw : List Nat} {pos p : Int}
    (h : parseItem asserts fuel raw pos = .ok (none, p)) : raw = [] := by
  cases fuel with
  | zero => simp [parseItem] at h
  | succ fuel =>
    unfold parseItem at h
    split at h
    · rename_i hc; exact hc.2
    · split at h
      · exact absurd h (by simp)
      · split at h
        · exact (outcome_map_none h).elim
        · split at h
          · exact (outcome_map_none h).elim
          · split at h
            · exact (outcome_map_none h).elim
            · split at h
              · exact (outcome_map_none h).elim
              · simp at h

theorem di1ee_diverges (asserts : Bool) (n : Nat) :
    parseItem asserts n [100, 105, 49, 101, 101] 0 = .timeout := by
  induction n using Nat.strong_induction_on with
  | _ n ih =>
    match n with
    | 0 => rfl
    | 1 => rfl
    | m + 2 =>
      have h1 : ∀ res, parseDictionaryLoop asserts (m + 1) [100, 105, 49, 101, 101] 1 res
          = match parseItem asserts m [100, 105, 49, 101, 101] 0 with
            | .ok (none, _) => .fault
            | .ok (some value, p2) =>
              if !isValid value then .ok (newInvalid, p2)
              else
                match appendMapItem asserts res
                  (if hexKeysContains [] then setHex (setKey value []) true
                    else setKey value []) with
                | .ok res1 => parseDictionaryLoop asserts m [100, 105, 49, 101, 101] p2 res1
                | .fault => .fault
                | .timeout => .timeout
            | .fault => .fault
            | .timeout => .timeout := fun _ => rfl
      have h2 : parseItem asserts (m + 2) [100, 105, 49, 101, 101] 0
          = match parseDictionaryLoop asserts (m + 1) [100, 105, 49, 101, 101] 1
              (newOfType .Dictionary []) with
            | .ok (r, p) => .ok (some r, p)
            | .fault => .fault
            | .timeout => .timeout := rfl
      rw [h2, h1, ih m (by omega)]

/-! ## Empty input and malformed input -/

/-- C15: `fromRaw` returns the null pointer exactly on the empty input, so an empty file
cannot be taken for a malformed one when `fromRaw` returns. But not every non-empty
input yields a node: on `di1ee` (a dictionary whose key is not a byte string)
`parseString` finds no colon, sets the cursor back to 0, and the dictionary is parsed
again without end, whatever the recursion budget. -/
theorem fromRaw_null_iff_empty (asserts : Bool) (fuel : Nat) (raw : List Nat) :
    (fromRaw asserts fuel raw = .ok none ↔ raw = [] ∧ 0 < fuel) ∧
    parseString (bytes "di1ee") 1 = .ok (newString [], 0) ∧
    fromRaw asserts fuel (bytes "di1ee") = .timeout := by
  refine ⟨⟨?_, ?_⟩, rfl, ?_⟩
  · intro h
    unfold fromRaw at h
    split at h
    · rename_i r p hp
      simp only [Outcome.ok.injEq] at h
      subst h
      refine ⟨parseItem_none hp, ?_⟩
      cases fuel with
      | zero => simp [parseItem] at hp
      | succ n => omega
    · exact absurd h (by simp)
    · exact absurd h (by simp)
  · rintro ⟨h1, h2⟩
    subst h1
    obtain ⟨n, rfl⟩ : ∃ n, fuel = n + 1 := ⟨fuel - 1, by omega⟩
    rfl
  · show (match parseItem asserts fuel [100, 105, 49, 101, 101] 0 with
      | .ok (r, _) => Outcome.ok r
      | .fault => .fault
      | .timeout => .timeout) = _
    rw [di1ee_diverges asserts fuel]

/-! ## Insertion order does not matter -/

theorem insertByKey_perm (item : BNode) (cs : List BNode) :
    (insertByKey item cs).Perm (item :: cs) := by
  induction cs with
  | nil => exact List.Perm.refl _
  | cons c cs ih =>
    unfold insertByKey
    split
    · exact List.Perm.refl _
    · exact (List.Perm.cons c ih).trans (List.Perm.swap item c cs)

theorem keysStrictlyAscending_insertByKey (item : BNode) (cs : List BNode)
    (h : keysStrictlyAscending cs) (hne : ∀ c ∈ cs, key c ≠ key item) :
    keysStrictlyAscending (insertByKey item cs) := by
  induction cs with
  | nil => simp [insertByKey, keysStrictlyAscending]
  | cons c cs ih =>
    unfold keysStrictlyAscending at h
    rw [List.pairwise_cons] at h
    unfold insertByKey
    by_cases hlt : baLess (key item) (key c) = true
    · rw [if_pos hlt]
      unfold keysStrictlyAscending
      rw [List.pairwise_cons, List.pairwise_cons]
      refine ⟨?_, h⟩
      intro b hb
      rcases List.mem_cons.1 hb with e | hb
      · subst e; exact hlt
      · exact baLess_trans hlt (h.1 b hb)
    · rw [if_neg hlt]
      unfold keysStrictlyAscending
      rw [List.pairwise_cons]
      refine ⟨?_, ih h.2 (fun x hx => hne x (by simp [hx]))⟩
      intro b hb
      rcases (mem_insertByKey item b cs).1 hb with e | hb
      · subst e
        cases hcb : baLess (key c) (key b) with
        | true => rfl
        | false =>
          exact absurd (baLess_total hcb (by simpa using hlt)) (hne c (by simp))
      · exact h.1 b hb

/-- The children after inserting `items` one by one, starting from `cs`. -/
theorem appendMapItems_eq (asserts : Bool) (d : BNode) (items : List BNode)
    (hd : type d = BType.Dictionary) (hk : ∀ item ∈ items, key item ≠ []) :
    appendMapItems asserts d items
      = .ok (setChildren d (items.foldl (fun acc item => insertByKey item acc) (children d))) := by
  induction items generalizing d with
  | nil => simp [appendMapItems, setChildren_children]
  | cons item items ih =>
    unfold appendMapItems
    rw [appendMapItem_eq asserts d item (fun _ => hk item (by simp)) (fun _ => hd)]
    simp only
    rw [ih _ (by cases d; exact hd) (fun x hx => hk x (by simp [hx]))]
    cases d
    rfl

theorem foldl_insertByKey_perm (items acc : List BNode) :
    (items.foldl (fun acc item => insertByKey item acc) acc).Perm (items ++ acc) := by
  induction items generalizing acc with
  | nil => exact List.Perm.refl _
  | cons item items ih =>
    simp only [List.foldl_cons, List.cons_append]
    refine (ih _).trans ?_
    refine (List.Perm.append_left items (insertByKey_perm item acc)).trans ?_
    exact List.perm_middle

theorem foldl_insertByKey_sorted (items acc : List BNode)
    (hacc : keysStrictlyAscending acc)
    (hdis : items.Pairwise (fun a b => key a ≠ key b))
    (hne : ∀ item ∈ items, ∀ c ∈ acc, key c ≠ key item) :
    keysStrictlyAscending (items.foldl (fun acc item => insertByKey item acc) acc) := by
  induction items generalizing acc with
  | nil => exact hacc
  | cons item items ih =>
    rw [List.pairwise_cons] at hdis
    simp only [List.foldl_cons]
    refine ih _ (keysStrictlyAscending_insertByKey item acc hacc (hne item (by simp))) hdis.2 ?_
    intro x hx c hc
    rcases (mem_insertByKey item c acc).1 hc with e | hc
    · subst e; exact hdis.1 x hx
    · exact hne x (by simp [hx]) c hc

theorem strictlyAscending_perm_eq (l1 l2 : List BNode) (hp : l1.Perm l2)
    (h1 : keysStrictlyAscending l1) (h2 : keysStrictlyAscending l2) : l1 = l2 := by
  haveI : IsAntisymm BNode (fun a b => baLess (key a) (key b) = true) :=
    ⟨fun a b hab hba => absurd hba (by rw [baLess_asymm hab]; simp)⟩
  exact List.eq_of_perm_of_sorted hp h1 h2

/-! ## Insertion order -/

/-- C11: for keyed values with pairwise distinct non-empty keys, inserted with
`appendMapItem` into two fresh empty dictionaries in any two orders, both dictionaries
end up with the same child sequence, in strictly ascending key order, and
`d1.compare(d2)` is true. -/
theorem appendMapItem_order_independent (asserts : Bool) (otherHasParent : Bool)
    (k1 k2 : List Nat) (items1 items2 : List BNode)
    (hperm : items1.Perm items2)
    (hdistinct : items1.Pairwise (fun a b => key a ≠ key b))
    (hnonempty : ∀ item ∈ items1, key item ≠ []) :
    ∃ d1 d2,
      appendMapItems asserts (newOfType .Dictionary k1) items1 = .ok d1 ∧
      appendMapItems asserts (newOfType .Dictionary k2) items2 = .ok d2 ∧
      children d1 = children d2 ∧
      keysStrictlyAscending (children d1) ∧
      compare none otherHasParent d1 d2 = true := by
  have hnonempty2 : ∀ item ∈ items2, key item ≠ [] :=
    fun x hx => hnonempty x (hperm.mem_iff.2 hx)
  have hdistinct2 : items2.Pairwise (fun a b => key a ≠ key b) :=
    hperm.pairwise hdistinct (fun hab => Ne.symm hab)
  have hs1 := foldl_insertByKey_sorted items1 [] (by simp [keysStrictlyAscending]) hdistinct
    (by simp)
  have hs2 := foldl_insertByKey_sorted items2 [] (by simp [keysStrictlyAscending]) hdistinct2
    (by simp)
  have hp : (items1.foldl (fun acc item => insertByKey item acc) []).Perm
      (items2.foldl (fun acc item => insertByKey item acc) []) :=
    ((foldl_insertByKey_perm items1 []).trans (hperm.append_right [])).trans
      (foldl_insertByKey_perm items2 []).symm
  have heq := strictlyAscending_perm_eq _ _ hp hs1 hs2
  refine ⟨_, _, appendMapItems_eq asserts _ items1 rfl hnonempty,
    appendMapItems_eq asserts _ items2 rfl hnonempty2, ?_, ?_, ?_⟩
  · simp only [newOfType, setChildren, children, type, integer, string, key, hex, heq]
  · simpa [newOfType, setChildren, children] using hs1
  · simp only [newOfType, setChildren, children, type, integer, string, key, hex, heq]
    simp [compare, compareChildren_refl]

/-- Witness for `appendMapItem_order_independent`: the keys `b`, `a`, `c` inserted in this
order and in the order `c`, `a`, `b`. -/
theorem appendMapItem_order_independent_witness :
    ∃ d1 d2,
      appendMapItems true (newOfType .Dictionary [])
        [.mk .Integer 2 [] [98] false [], .mk .Integer 1 [] [97] false [],
         .mk .Integer 3 [] [99] false []] = .ok d1 ∧
      appendMapItems true (newOfType .Dictionary [])
        [.mk .Integer 3 [] [99] false [], .mk .Integer 1 [] [97] false [],
         .mk .Integer 2 [] [98] false []] = .ok d2 ∧
      children d1 = children d2 ∧
      keysStrictlyAscending (children d1) ∧
      compare none false d1 d2 = true :=
  appendMapItem_order_independent true false [] []
    [.mk .Integer 2 [] [98] false [], .mk .Integer 1 [] [97] false [],
     .mk .Integer 3 [] [99] false []]
    [.mk .Integer 3 [] [99] false [], .mk .Integer 1 [] [97] false [],
     .mk .Integer 2 [] [98] false []]
    (List.reverse_perm ([.mk .Integer 3 [] [99] false [], .mk .Integer 1 [] [97] false [],
      .mk .Integer 2 [] [98] false []] : List BNode))
    (by decide) (by decide)

/-! ## The encoder against the reference -/

theorem natDigits_eq_ref (fuel n : Nat) (acc : List Nat) (h : n < fuel) :
    natDigits fuel n acc = decimalNatRef n ++ acc := by
  induction fuel generalizing n acc with
  | zero => omega
  | succ f ih =>
    unfold natDigits
    by_cases h10 : n < 10
    · rw [if_pos h10]
      unfold decimalNatRef
      by_cases h0 : n = 0
      · subst h0; rfl
      · rw [if_neg h0, Nat.digits_of_lt 10 n h0 h10]
        simp [Nat.add_comm]
    · rw [if_neg h10, ih (n / 10) _ (by omega)]
      have hn0 : n ≠ 0 := by omega
      have hq0 : n / 10 ≠ 0 := by omega
      have e1 : decimalNatRef n = decimalNatRef (n / 10) ++ [48 + n % 10] := by
        have e2 : decimalNatRef n = (Nat.digits 10 n).reverse.map (· + 48) := by
          unfold decimalNatRef; rw [if_neg hn0]
        have e3 : decimalNatRef (n / 10) = (Nat.digits 10 (n / 10)).reverse.map (· + 48) := by
          unfold decimalNatRef; rw [if_neg hq0]
        rw [e2, e3, Nat.digits_def' (by omega) (by omega)]
        simp [Nat.add_comm]
      rw [e1]
      simp

theorem numberNat_eq_ref (n : Nat) : numberNat n = decimalNatRef n := by
  unfold numberNat
  rw [natDigits_eq_ref _ _ _ (by omega), List.append_nil]

theorem number_eq_ref (n : Int) : number n = decimalRef n := by
  unfold number decimalRef
  rw [numberNat_eq_ref]

mutual
theorem toRaw_eq_encodeRef : ∀ (v : BNode), toRaw v = encodeRef v
  | .mk .Invalid _ _ _ _ _ => rfl
  | .mk .Integer n _ _ _ _ => by simp only [toRaw, encodeRef, number_eq_ref]
  | .mk .String _ s _ _ _ => by simp only [toRaw, encodeRef, number_eq_ref]
  | .mk .List _ _ _ _ cs => by simp only [toRaw, encodeRef, toRawList_eq_encodeRefItems cs]
  | .mk .Dictionary _ _ _ _ cs => by
    simp only [toRaw, encodeRef, toRawMap_eq_encodeRefEntries cs]
theorem toRawList_eq_encodeRefItems : ∀ (cs : List BNode), toRawList cs = encodeRefItems cs
  | [] => rfl
  | c :: cs => by
    simp only [toRawList, encodeRefItems, toRaw_eq_encodeRef c, toRawList_eq_encodeRefItems cs]
theorem toRawMap_eq_encodeRefEntries : ∀ (cs : List BNode), toRawMap cs = encodeRefEntries cs
  | [] => rfl
  | c :: cs => by
    simp only [toRawMap, encodeRefEntries, number_eq_ref, toRaw_eq_encodeRef c,
      toRawMap_eq_encodeRefEntries cs]
end

theorem encodeRefItems_eq_join (cs : List BNode) :
    encodeRefItems cs = (cs.map encodeRef).flatten := by
  induction cs with
  | nil => rfl
  | cons c cs ih => simp [encodeRefItems, ih]

theorem encodeRefEntries_eq_join (cs : List BNode) :
    encodeRefEntries cs
      = (cs.map fun c => decimalRef (key c).length ++ [58] ++ key c ++ encodeRef c).flatten := by
  induction cs with
  | nil => rfl
  | cons c cs ih => simp [encodeRefEntries, ih]

theorem decimalNatRef_canonical (n : Nat) :
    (∀ c ∈ decimalNatRef n, isDigit c = true) ∧ digitsValue 0 (decimalNatRef n) = some n ∧
    (n ≠ 0 → (decimalNatRef n).head? ≠ some 48) := by
  refine ⟨?_, ?_, ?_⟩
  · rw [← numberNat_eq_ref]; exact numberNat_digits n
  · rw [← numberNat_eq_ref]; exact numberNat_value n
  · intro hn
    unfold decimalNatRef
    rw [if_neg hn]
    have hlast := Nat.getLast_digit_ne_zero 10 hn
    have hne : Nat.digits 10 n ≠ [] := Nat.digits_ne_nil_iff_ne_zero.2 hn
    rw [List.head?_map, List.head?_reverse, List.getLast?_eq_getLast _ hne]
    simp only [Option.map_some', ne_eq, Option.some.injEq]
    omega

/-! ## Escaping against the reference -/

theorem hexDigit_eq_ref : ∀ d < 16, hexDigit d = hexChars.getD d 0 := by decide

theorem fromRawString_cons (c : Nat) (s : List Nat) (hc : c < 256) :
    fromRawString (c :: s) = escapeByteRef c ++ fromRawString s := by
  have h : fromRawString (c :: s)
      = (if 32 ≤ c ∧ c ≤ 126 ∧ c ≠ 37 then c :: fromRawString s
        else 37 :: hexDigit (c / 16) :: hexDigit (c % 16) :: fromRawString s) := by
    rw [fromRawString]
  rw [h]
  unfold escapeByteRef isEscaped
  by_cases hp : 32 ≤ c ∧ c ≤ 126 ∧ c ≠ 37
  · rw [if_pos hp]
    simp [hp.1, hp.2.1, hp.2.2]
  · rw [if_neg hp]
    have he : (!(decide (32 ≤ c) && decide (c ≤ 126) && decide (c ≠ 37))) = true := by
      simp only [Bool.not_eq_true', Bool.and_eq_false_iff, decide_eq_false_iff_not]
      tauto
    rw [if_pos he, hexDigit_eq_ref (c / 16) (by omega), hexDigit_eq_ref (c % 16) (by omega)]
    rfl

theorem length_escapeByteRef (c : Nat) :
    (escapeByteRef c).length = 1 + 2 * (if isEscaped c then 1 else 0) := by
  unfold escapeByteRef
  split <;> rfl

/-! ## The encoder (`toRaw`) and the escaping (`fromRawString`) against the spec -/

/-- C12: for every value tree `toRaw` is the reference encoder: `i` + canonical decimal +
`e` for an integer, decimal length + `:` + bytes for a byte string, `l` + the children's
encodings in order + `e` for a list, and `d` + for each child in current child order
(decimal key length + `:` + key + the child's encoding) + `e` for a dictionary, without
re-sorting. The canonical decimal of a natural number is made of digits only, reads back
as the number, and has no leading zero. -/
theorem toRaw_is_reference_encoder (v : BNode) (n : Nat) :
    toRaw v = encodeRef v ∧
    (type v = BType.List →
      toRaw v = [108] ++ ((children v).map toRaw).flatten ++ [101]) ∧
    (type v = BType.Dictionary →
      toRaw v = [100] ++ ((children v).map fun c =>
        decimalRef (key c).length ++ [58] ++ key c ++ toRaw c).flatten ++ [101]) ∧
    (∀ c ∈ decimalNatRef n, isDigit c = true) ∧ digitsValue 0 (decimalNatRef n) = some n ∧
    (n ≠ 0 → (decimalNatRef n).head? ≠ some 48) := by
  refine ⟨toRaw_eq_encodeRef v, ?_, ?_, decimalNatRef_canonical n⟩
  · intro ht
    obtain ⟨t, i, s, k, h, cs⟩ := v
    simp only [type] at ht
    subst ht
    have e : toRaw = encodeRef := funext toRaw_eq_encodeRef
    simp only [toRaw, children, toRawList_eq_encodeRefItems, encodeRefItems_eq_join, e]
  · intro ht
    obtain ⟨t, i, s, k, h, cs⟩ := v
    simp only [type] at ht
    subst ht
    have e : toRaw = encodeRef := funext toRaw_eq_encodeRef
    simp only [toRaw, children, toRawMap_eq_encodeRefEntries, encodeRefEntries_eq_join, e]

/-- C14: for every byte sequence `s`, `fromRawString(s)` is the concatenation, byte by
byte, of the byte itself when it is in `0x20..0x7E` and is not `%`, and of `%` with the
two hexadecimal digits of the byte otherwise; its length is `len(s)` plus twice the
number of escaped bytes; byte `0x25` gives `%25` and byte `0x41` gives `A`. -/
theorem fromRawString_is_escaping (s : List Nat) (hs : ∀ c ∈ s, c < 256) :
    fromRawString s = (s.map escapeByteRef).flatten ∧
    (fromRawString s).length = s.length + 2 * (s.filter isEscaped).length ∧
    fromRawString [37] = bytes "%25" ∧ fromRawString [65] = bytes "A" := by
  refine ⟨?_, ?_, rfl, rfl⟩
  · induction s with
    | nil => rfl
    | cons c s ih =>
      rw [fromRawString_cons c s (hs c (by simp)), ih (fun x hx => hs x (by simp [hx]))]
      simp
  · induction s with
    | nil => rfl
    | cons c s ih =>
      rw [fromRawString_cons c s (hs c (by simp)), List.length_append,
        ih (fun x hx => hs x (by simp [hx])), length_escapeByteRef, List.filter_cons]
      by_cases he : isEscaped c = true
      · simp only [he, if_true, List.length_cons]; omega
      · simp only [he, Bool.false_eq_true, if_false, List.length_cons]; omega

/-- Witness for `fromRawString_is_escaping`: the bytes `%`, `A`, 0x00, 0xff. -/
theorem fromRawString_is_escaping_witness :
    fromRawString [37, 65, 0, 255] = ([37, 65, 0, 255].map escapeByteRef).flatten ∧
    (fromRawString [37, 65, 0, 255]).length
      = [37, 65, 0, 255].length + 2 * ([37, 65, 0, 255].filter isEscaped).length ∧
    fromRawString [37] = bytes "%25" ∧ fromRawString [65] = bytes "A" :=
  fromRawString_is_escaping [37, 65, 0, 255] (by decide)

/-! ## JSON objects built by `toJson` -/

theorem mapLookup_mapInsert (name n : List Nat) (v : Json) (m : List (List Nat × Json)) :
    mapLookup name (mapInsert n v m) = if n = name then some v else mapLookup name m := by
  induction m with
  | nil => simp [mapInsert, mapLookup]
  | cons p m ih =>
    obtain ⟨n1, v1⟩ := p
    unfold mapInsert
    by_cases h1 : baLess n n1 = true
    · rw [if_pos h1]
      simp [mapLookup]
    · rw [if_neg h1]
      by_cases h2 : baLess n1 n = true
      · rw [if_pos h2]
        have hne : n1 ≠ n := by
          intro e; subst e; simp [baLess_irrefl] at h2
        simp only [mapLookup, ih]
        by_cases e1 : n1 = name
        · have : n ≠ name := fun e => hne (e1.trans e.symm)
          simp [e1, this]
        · simp [e1]
      · rw [if_neg h2]
        have e : n = n1 := baLess_total (by simpa using h1) (by simpa using h2)
        subst e
        simp only [mapLookup]
        by_cases e1 : n = name
        · simp [e1]
        · simp [e1]

theorem mem_mapInsert (n : List Nat) (v : Json) (m : List (List Nat × Json))
    (p : List Nat × Json) (hp : p ∈ mapInsert n v m) : p = (n, v) ∨ p ∈ m := by
  induction m with
  | nil => simpa [mapInsert] using hp
  | cons q m ih =>
    obtain ⟨n1, v1⟩ := q
    unfold mapInsert at hp
    split at hp
    · simpa using hp
    · split at hp
      · rcases List.mem_cons.1 hp with h | h
        · exact Or.inr (by simp [h])
        · rcases ih h with h | h
          · exact Or.inl h
          · exact Or.inr (by simp [h])
      · rcases List.mem_cons.1 hp with h | h
        · exact Or.inl h
        · exact Or.inr (by simp [h])

theorem mapInsert_sorted (n : List Nat) (v : Json) (m : List (List Nat × Json))
    (hm : m.Pairwise (fun a b => baLess a.1 b.1 = true)) :
    (mapInsert n v m).Pairwise (fun a b => baLess a.1 b.1 = true) := by
  induction m with
  | nil => simp [mapInsert]
  | cons q m ih =>
    obtain ⟨n1, v1⟩ := q
    rw [List.pairwise_cons] at hm
    unfold mapInsert
    by_cases h1 : baLess n n1 = true
    · rw [if_pos h1, List.pairwise_cons, List.pairwise_cons]
      refine ⟨?_, hm⟩
      intro b hb
      rcases List.mem_cons.1 hb with e | hb
      · subst e; exact h1
      · exact baLess_trans h1 (hm.1 b hb)
    · rw [if_neg h1]
      by_cases h2 : baLess n1 n = true
      · rw [if_pos h2, List.pairwise_cons]
        refine ⟨?_, ih hm.2⟩
        intro b hb
        rcases mem_mapInsert n v m b hb with e | hb
        · subst e; exact h2
        · exact hm.1 b hb
      · rw [if_neg h2, List.pairwise_cons]
        have e : n = n1 := baLess_total (by simpa using h1) (by simpa using h2)
        subst e
        exact hm

theorem toJsonList_eq_map (cs : List BNode) : toJsonList cs = cs.map toJson := by
  induction cs with
  | nil => rfl
  | cons c cs ih => simp [toJsonList, ih]

theorem toJsonMap_sorted (cs : List BNode) (m : List (List Nat × Json))
    (hm : m.Pairwise (fun a b => baLess a.1 b.1 = true)) :
    (toJsonMap cs m).Pairwise (fun a b => baLess a.1 b.1 = true) := by
  induction cs generalizing m with
  | nil => simpa [toJsonMap] using hm
  | cons c cs ih =>
    rw [toJsonMap]
    exact ih _ (mapInsert_sorted _ _ _ hm)

theorem toJsonMap_lookup (name : List Nat) (cs : List BNode) (m : List (List Nat × Json)) :
    mapLookup name (toJsonMap cs m)
      = match cs.reverse.find? (fun c => decide (fromRawString (key c) = name)) with
        | some c => some (toJson c)
        | none => mapLookup name m := by
  induction cs generalizing m with
  | nil => simp [toJsonMap]
  | cons c cs ih =>
    rw [toJsonMap, ih, List.reverse_cons, List.find?_append]
    cases hf : cs.reverse.find? (fun c => decide (fromRawString (key c) = name)) with
    | some x => simp
    | none =>
      simp only [Option.none_or, List.find?_cons, List.find?_nil, mapLookup_mapInsert]
      by_cases e : fromRawString (key c) = name
      · simp [e]
      · simp [e]

/-! ## Conversion to JSON (`toJson`) -/

/-- C18, counterexample: the dictionary parsed from `d1:ai1e1:ai2ee` has two children with
the key `a`; its JSON object has the single member `a` with the value 2, so the first
child, whose conversion is 1, has no member with its value. -/
theorem toJson_repeated_key_counterexample :
    fromRaw true 4 (bytes "d1:ai1e1:ai2ee")
      = .ok (some (.mk .Dictionary 0 [] [] false
          [.mk .Integer 1 [] [97] false [], .mk .Integer 2 [] [97] false []])) ∧
    toJson (.mk .Dictionary 0 [] [] false
        [.mk .Integer 1 [] [97] false [], .mk .Integer 2 [] [97] false []])
      = .map [([97], .number 2)] ∧
    toJson (.mk .Integer 1 [] [97] false []) = .number 1 ∧
    mapLookup (fromRawString [97]) [([97], Json.number 2)] = some (.number 2) :=
  ⟨rfl, rfl, rfl, rfl⟩

/-- C18, amended: `toJson(v)` is the text `fromRawString(payload)` for a byte string, the
number `n` for `Integer n`, the array of the children's conversions in order for a list,
the invalid variant for an invalid node, and for a dictionary the object whose member
named `N` has the value `toJson` of the last child with `fromRawString(key) = N` (there
is no member for a name that no child has); the members stand in ascending order of
name. The list `[spam, eggs]` converts to `["spam","eggs"]`. -/
theorem toJson_shape (v : BNode) :
    (type v = BType.String → toJson v = .string (fromRawString (string v))) ∧
    (type v = BType.Integer → toJson v = .number (integer v)) ∧
    (type v = BType.List → toJson v = .list ((children v).map toJson)) ∧
    (type v = BType.Invalid → toJson v = .null) ∧
    (type v = BType.Dictionary → ∃ members, toJson v = .map members ∧
      members.Pairwise (fun a b => baLess a.1 b.1 = true) ∧
      ∀ name, mapLookup name members
        = (((children v).reverse.find? (fun c => decide (fromRawString (key c) = name))).map
            toJson)) ∧
    toJson (.mk .List 0 [] [] false [newString (bytes "spam"), newString (bytes "eggs")])
      = .list [.string (bytes "spam"), .string (bytes "eggs")] := by
  obtain ⟨t, n, s, k, h, cs⟩ := v
  refine ⟨?_, ?_, ?_, ?_, ?_, rfl⟩
  · intro ht; simp only [type] at ht; subst ht; rfl
  · intro ht; simp only [type] at ht; subst ht; rfl
  · intro ht; simp only [type] at ht; subst ht
    simp only [toJson, children, toJsonList_eq_map]
  · intro ht; simp only [type] at ht; subst ht; rfl
  · intro ht; simp only [type] at ht; subst ht
    refine ⟨toJsonMap cs [], rfl, toJsonMap_sorted cs [] (by simp), ?_⟩
    intro name
    rw [toJsonMap_lookup]
    simp only [children]
    cases cs.reverse.find? (fun c => decide (fromRawString (key c) = name)) with
    | some x => rfl
    | none => rfl

/-! ## Reflexivity of `compare` -/

/-- C21: for every value tree `v`, of any type, with a parent of any type or without one,
`v.compare(v)` is true. -/
theorem compare_reflexive (parentType : Option BType) (otherHasParent : Bool) (v : BNode) :
    compare parentType otherHasParent v v = true :=
  compare_refl parentType otherHasParent v

/-! ## One item from the front of the input -/

/-- C27: for every value tree `v` without invalid nodes whose dictionaries are in strictly
ascending key order and every byte sequence `t`, parsing `toRaw(v) ++ t` returns a tree
`w` with `w.compare(v)` true, and the cursor stands at `length(toRaw(v))`: the bytes `t`
are not read. The tree is one the C++ types can hold (integers in the `qlonglong` range,
an encoding no longer than `INT_MAX`), the recursion budget is at least the length of the
encoding, and in a build with `Q_ASSERT` compiled in the dictionary keys are non-empty. -/
theorem fromRaw_reads_one_item (asserts : Bool) (fuel : Nat) (otherHasParent : Bool)
    (v : BNode) (t : List Nat)
    (hvalid : allNodes isValid v = true)
    (hsorted : allNodes dictStrictlyAscending v = true)
    (hrange : allNodes integerInRange v = true)
    (hkeys : asserts = true → allNodes dictKeysNonEmpty v = true)
    (hsize : ((toRaw v).length : Int) ≤ INT_MAX) (hfuel : (toRaw v).length ≤ fuel) :
    ∃ w, parseItem asserts fuel (toRaw v ++ t) 0 = .ok (some w, ((toRaw v).length : Int)) ∧
      fromRaw asserts fuel (toRaw v ++ t) = .ok (some w) ∧
      compare none otherHasParent w v = true := by
  have h := (parse_encoded asserts fuel).1 v [] t 0 rfl
    (wellFormed_of_checks asserts v hvalid hsorted hrange hkeys) (by omega) hfuel
  simp only [List.nil_append, zero_add] at h
  refine ⟨reparsed [] false v, h, ?_, compare_reparsed none otherHasParent [] false v (by simp)⟩
  simp only [fromRaw, h]

/-- Witness for `fromRaw_reads_one_item`: the dictionary `d1:ai-7e2:lsl4:spamee` followed
by the bytes `junk`. -/
theorem fromRaw_reads_one_item_witness :
    ∃ w, parseItem true 32 (toRaw (.mk .Dictionary 0 [] [] false
          [.mk .Integer (-7) [] [97] false [],
           .mk .List 0 [] (bytes "ls") false [newString (bytes "spam")]]) ++ bytes "junk") 0
        = .ok (some w, ((toRaw (.mk .Dictionary 0 [] [] false
          [.mk .Integer (-7) [] [97] false [],
           .mk .List 0 [] (bytes "ls") false [newString (bytes "spam")]])).length : Int)) ∧
      fromRaw true 32 (toRaw (.mk .Dictionary 0 [] [] false
          [.mk .Integer (-7) [] [97] false [],
           .mk .List 0 [] (bytes "ls") false [newString (bytes "spam")]]) ++ bytes "junk")
        = .ok (some w) ∧
      compare none false w (.mk .Dictionary 0 [] [] false
          [.mk .Integer (-7) [] [97] false [],
           .mk .List 0 [] (bytes "ls") false [newString (bytes "spam")]]) = true :=
  fromRaw_reads_one_item true 32 false _ (bytes "junk") (by decide) (by decide) (by decide)
    (fun _ => by decide) (by decide) (by decide)

/-! ## Conversion from JSON (`fromJson`) -/

/-- C23: `fromJson` attaches the members with `appendChild` in the order of the
`QVariantMap`, which is the order of the names as UTF-16 strings; the keys are the UTF-8
bytes of the names, and the two orders differ. For the object with the members U+1F600
(code units D83D DE00) and U+FF21, in this order in the map, the children get the keys
`F0 9F 98 80` and `EF BC A1`: not in ascending byte order. -/
theorem fromJson_children_unsorted :
    baLess [55357, 56832] [65313] = true ∧
    fromJson (.map [([55357, 56832], .number 1), ([65313], .number 2)])
      = .ok (.mk .Dictionary 0 [] [] false
          [.mk .Integer 1 [] [240, 159, 152, 128] false [],
           .mk .Integer 2 [] [239, 188, 161] false []]) ∧
    ¬ keysAscending
      [.mk .Integer 1 [] [240, 159, 152, 128] false [],
       .mk .Integer 2 [] [239, 188, 161] false []] :=
  ⟨rfl, rfl, by decide⟩

/-- C26: `toJson` escapes dictionary keys with `fromRawString`, but `fromJson` takes
`key.toUtf8()` as the key without `toRawString`, so an escaped key does not come back.
The dictionary with the single key `%` (one child, `Integer 1`) converts to the object
with the member `%25`, which converts back to a dictionary with the key `%25`; `compare`
with the original is false. -/
theorem fromJson_toJson_escaped_key :
    toJson (.mk .Dictionary 0 [] [] false [.mk .Integer 1 [] [37] false []])
      = .map [(bytes "%25", .number 1)] ∧
    fromJson (.map [(bytes "%25", .number 1)])
      = .ok (.mk .Dictionary 0 [] [] false [.mk .Integer 1 [] (bytes "%25") false []]) ∧
    compare none false (.mk .Dictionary 0 [] [] false [.mk .Integer 1 [] (bytes "%25") false []])
      (.mk .Dictionary 0 [] [] false [.mk .Integer 1 [] [37] false []]) = false ∧
    fromJson (toJson (newString [37, 0, 200])) = .ok (newString [37, 0, 200]) :=
  ⟨rfl, rfl, rfl, rfl⟩

/-! ## `setPieces` -/

/-- C24: `setPieces` tests `_bencode->child("pieces")`, the root, where it means the
`info` dictionary. On a model whose `info` dictionary already has a `pieces` entry (and
whose root has none) it therefore adds a second child with the key `pieces` to `info`;
the payload goes to the first one, the second stays an empty string without hex flag,
and the keys of `info` are no longer strictly ascending. -/
theorem setPieces_duplicates_entry (asserts : Bool) (origin : Option BNode) :
    setPieces asserts
        ⟨some (.mk .Dictionary 0 [] (bytes "root") false
          [.mk .Dictionary 0 [] (bytes "info") false
            [newStringKey (bytes "old") (bytes "pieces")]]), origin⟩ (bytes "new")
      = .ok ⟨some (.mk .Dictionary 0 [] (bytes "root") false
          [.mk .Dictionary 0 [] (bytes "info") false
            [.mk .String 0 (bytes "new") (bytes "pieces") true [],
             .mk .String 0 [] (bytes "pieces") false []]]), origin⟩ ∧
    ¬ keysStrictlyAscending
      [.mk .String 0 (bytes "new") (bytes "pieces") true [],
       .mk .String 0 [] (bytes "pieces") false []] := by
  refine ⟨?_, by decide⟩
  cases asserts <;> rfl

/-! ## Exit code of the command line -/

/-- C30: the command-line branch of `main` returns -1 when the conversion function
returns true and 0 when it returns false: the exit code is 0 exactly when the conversion
failed with an existing source file, the opposite of the documented contract. A missing
source file gives -1. -/
theorem mainRetCode_inverted (command : Command) (converted : Bool) :
    mainRetCode true command true = -1 ∧ mainRetCode true command false = 0 ∧
    mainRetCode false command converted = -1 ∧
    (mainRetCode true command converted = 0 ↔ converted = false) := by
  cases command <;> cases converted <;> decide

/-! ## Symmetry of `compare` -/

mutual
theorem compare_symm_of_context : ∀ (pa pb : Option BType) (ha hb : Bool) (a b : BNode),
    ((pa = some BType.Dictionary ∧ hb = true) ↔ (pb = some BType.Dictionary ∧ ha = true)) →
    compare pa hb a b = compare pb ha b a
  | pa, pb, ha, hb, .mk t n s k _ cs, .mk t2 n2 s2 k2 _ cs2, hctx => by
    by_cases ht : t = t2
    · subst ht
      have hg : (pa = some BType.Dictionary ∧ hb = true ∧ k ≠ k2)
          ↔ (pb = some BType.Dictionary ∧ ha = true ∧ k2 ≠ k) := by
        constructor
        · rintro ⟨h1, h2, h3⟩
          exact ⟨(hctx.1 ⟨h1, h2⟩).1, (hctx.1 ⟨h1, h2⟩).2, Ne.symm h3⟩
        · rintro ⟨h1, h2, h3⟩
          exact ⟨(hctx.2 ⟨h1, h2⟩).1, (hctx.2 ⟨h1, h2⟩).2, Ne.symm h3⟩
      simp only [compare, ne_eq, not_true_eq_false, if_false]
      by_cases hguard : pa = some BType.Dictionary ∧ hb = true ∧ k ≠ k2
      · rw [if_pos hguard, if_pos (hg.1 hguard)]
      · rw [if_neg hguard, if_neg (fun h => hguard (hg.2 h))]
        cases t with
        | Invalid => rfl
        | Integer => simp only [eq_comm]
        | String => simp only [eq_comm]
        | List =>
          rw [compareChildren_symm BType.List cs cs2]
          simp only [eq_comm]
        | Dictionary =>
          rw [compareChildren_symm BType.Dictionary cs cs2]
          simp only [eq_comm]
    · have ht2 : ¬ t2 = t := fun e => ht e.symm
      simp [compare, ht, ht2]
theorem compareChildren_symm : ∀ (t : BType) (cs ds : List BNode),
    compareChildren t cs ds = compareChildren t ds cs
  | _, [], [] => rfl
  | _, [], _ :: _ => by simp [compareChildren]
  | _, _ :: _, [] => by simp [compareChildren]
  | t, c :: cs, d :: ds => by
    simp only [compareChildren]
    rw [compare_symm_of_context (some t) (some t) true true c d Iff.rfl,
      compareChildren_symm t cs ds]
end

/-! ## `checkAndCreate` -/

theorem childByKey_some {b item : BNode} {k : List Nat} (h : childByKey b k = some item) :
    item ∈ children b ∧ key item = k := by
  unfold childByKey at h
  exact ⟨List.mem_of_find?_eq_some h, by simpa using List.find?_some h⟩

theorem keysAscending_sublist {l1 l2 : List BNode} (h : l1.Sublist l2)
    (hs : keysAscending l2) : keysAscending l1 :=
  List.Pairwise.sublist h hs

theorem mem_insertByKey_self (item : BNode) (cs : List BNode) : item ∈ insertByKey item cs :=
  (mem_insertByKey item item cs).2 (Or.inl rfl)

/-! ## Symmetry of `compare` -/

/-- C28, counterexample: `a` is `Integer 1` with key `x` below a dictionary, `b` is
`Integer 1` without key below a list. `a.compare(b)` tests the keys, because the parent
of `a` is a dictionary, and is false; `b.compare(a)` does not, because the parent of `b`
is a list, and is true. -/
theorem compare_asymmetric_counterexample :
    compare (some .Dictionary) true (.mk .Integer 1 [] [120] false []) (newInteger 1) = false ∧
    compare (some .List) true (newInteger 1) (.mk .Integer 1 [] [120] false []) = true :=
  ⟨rfl, rfl⟩

/-- C28, amended: `a.compare(b) == b.compare(a)` for all value trees `a` and `b`, each
parentless or a child of some node, unless both have a parent and exactly one of the two
parents is a dictionary. -/
theorem compare_symmetric (parentA parentB : Option BType) (a b : BNode)
    (hctx : parentA.isSome = true → parentB.isSome = true →
      (parentA = some BType.Dictionary ↔ parentB = some BType.Dictionary)) :
    compare parentA parentB.isSome a b = compare parentB parentA.isSome b a := by
  apply compare_symm_of_context
  constructor
  · rintro ⟨h1, h2⟩
    have h3 : parentA.isSome = true := by rw [h1]; rfl
    exact ⟨(hctx h3 h2).1 h1, h3⟩
  · rintro ⟨h1, h2⟩
    have h3 : parentB.isSome = true := by rw [h1]; rfl
    exact ⟨(hctx h2 h3).2 h1, h3⟩

/-- Witness for `compare_symmetric`: two children of dictionaries with different keys. -/
theorem compare_symmetric_witness :
    compare (some .Dictionary) (some BType.Dictionary).isSome
        (.mk .Integer 1 [] [120] false []) (.mk .Integer 1 [] [121] false [])
      = compare (some .Dictionary) (some BType.Dictionary).isSome
        (.mk .Integer 1 [] [121] false []) (.mk .Integer 1 [] [120] false []) :=
  compare_symmetric (some .Dictionary) (some .Dictionary) _ _ (fun _ _ => Iff.rfl)

/-! ## `checkAndCreate` -/

/-- C25, counterexample: the dictionary with the children `a: Integer 1` and
`a: String "s"`, in this order, has its keys in ascending order and has a child with key
`a` and type String. `child("a")` stops at the first child with the key, the Integer, so
`checkAndCreate(String, "a")` does not return the String `s`: it removes the Integer and
appends a fresh, empty String, which is the item returned. The dictionary is changed,
with and without `Q_ASSERT`. -/
theorem checkAndCreate_later_child_counterexample :
    keysAscending (children (.mk .Dictionary 0 [] [] false
      [.mk .Integer 1 [] [97] false [], .mk .String 0 [115] [97] false []])) ∧
    (.mk .String 0 [115] [97] false [] : BNode) ∈ children (.mk .Dictionary 0 [] [] false
      [.mk .Integer 1 [] [97] false [], .mk .String 0 [115] [97] false []]) ∧
    checkAndCreate true (.mk .Dictionary 0 [] [] false
        [.mk .Integer 1 [] [97] false [], .mk .String 0 [115] [97] false []]) .String [97]
      = .ok (.mk .Dictionary 0 [] [] false
          [.mk .String 0 [115] [97] false [], .mk .String 0 [] [97] false []],
        .mk .String 0 [] [97] false []) ∧
    checkAndCreate false (.mk .Dictionary 0 [] [] false
        [.mk .Integer 1 [] [97] false [], .mk .String 0 [115] [97] false []]) .String [97]
      = .ok (.mk .Dictionary 0 [] [] false
          [.mk .String 0 [115] [97] false [], .mk .String 0 [] [97] false []],
        .mk .String 0 [] [97] false []) ∧
    string (.mk .String 0 [] [97] false []) ≠ string (.mk .String 0 [115] [97] false []) :=
  ⟨by decide, List.mem_cons_of_mem _ (List.mem_cons_self _ _), rfl, rfl, by decide⟩

/-- C25, amended: on a dictionary `d` with children in ascending key order, a non-empty
key `k` and a type `T`, `checkAndCreate(T, k)` returns a child of `d` with key `k` and
type `T` and leaves the children in ascending key order. If the first child with key `k`
has type `T`, it is the item returned and `d` is unchanged; otherwise (no child with key
`k`, or the first one of another type) the first child with key `k`, if there is one, is
removed and a fresh node of type `T` with default payload is inserted before the first
child with a greater key. -/
theorem checkAndCreate_sorted (asserts : Bool) (d : BNode) (t : BType) (k : List Nat)
    (hd : type d = BType.Dictionary) (hk : k ≠ []) (hs : keysAscending (children d)) :
    ∃ d1 item, checkAndCreate asserts d t k = .ok (d1, item) ∧
      item ∈ children d1 ∧ key item = k ∧ type item = t ∧ keysAscending (children d1) ∧
      (∀ c, childByKey d k = some c → type c = t → d1 = d ∧ item = c) ∧
      ((∀ c, childByKey d k = some c → type c ≠ t) →
        item = newOfType t k ∧
        d1 = setChildren d (insertByKey (newOfType t k)
          ((children d).eraseP (fun c => decide (key c = k))))) := by
  have hfresh : key (newOfType t k) ≠ [] := hk
  have hsErase : keysAscending ((children d).eraseP (fun c => decide (key c = k))) :=
    keysAscending_sublist (List.eraseP_sublist _) hs
  cases hc : childByKey d k with
  | none =>
    refine ⟨setChildren d (insertByKey (newOfType t k) (children d)), newOfType t k, ?_, ?_,
      rfl, rfl, ?_, ?_, ?_⟩
    · simp only [checkAndCreate, hc]
      rw [appendMapItem_eq asserts d _ (fun _ => hfresh) (fun _ => hd)]
    · simpa [setChildren, children] using mem_insertByKey_self (newOfType t k) (children d)
    · simpa [setChildren, children] using keysAscending_insertByKey (newOfType t k) _ hs
    · intro c h; exact absurd h (by simp)
    · intro _
      refine ⟨rfl, ?_⟩
      have hno : ∀ c ∈ children d, ¬ (decide (key c = k) = true) := by
        intro c hmem hkey
        unfold childByKey at hc
        exact absurd hkey (by simpa using List.find?_eq_none.1 hc c hmem)
      rw [List.eraseP_of_forall_not hno]
  | some c0 =>
    by_cases hty : type c0 = t
    · refine ⟨d, c0, ?_, (childByKey_some hc).1, (childByKey_some hc).2, hty, hs, ?_, ?_⟩
      · simp [checkAndCreate, hc, hty]
      · intro c h _
        simp only [Option.some.injEq] at h
        exact ⟨rfl, h⟩
      · intro h; exact absurd hty (h c0 rfl)
    · refine ⟨setChildren d (insertByKey (newOfType t k)
          ((children d).eraseP (fun c => decide (key c = k)))), newOfType t k, ?_, ?_,
        rfl, rfl, ?_, ?_, ?_⟩
      · simp only [checkAndCreate, hc, ne_eq, hty, not_false_eq_true, if_true]
        rw [appendMapItem_eq asserts _ _ (fun _ => hfresh)
          (fun _ => by cases d; exact hd)]
        cases d
        rfl
      · simpa [setChildren, children] using mem_insertByKey_self (newOfType t k) _
      · simpa [setChildren, children] using keysAscending_insertByKey (newOfType t k) _ hsErase
      · intro c h hct
        simp only [Option.some.injEq] at h
        subst h
        exact absurd hct hty
      · intro _; exact ⟨rfl, rfl⟩

/-- Witness for `checkAndCreate_sorted`: the child `c`, a list, is replaced by an
integer. -/
theorem checkAndCreate_sorted_witness :
    ∃ d1 item, checkAndCreate true
        (.mk .Dictionary 0 [] [] false [newOfType .List [97], newOfType .List [99]])
        .Integer [99] = .ok (d1, item) ∧
      item ∈ children d1 ∧ key item = [99] ∧ type item = .Integer ∧
      keysAscending (children d1) ∧
      (∀ c, childByKey
          (.mk .Dictionary 0 [] [] false [newOfType .List [97], newOfType .List [99]]) [99]
          = some c → type c = .Integer →
        d1 = .mk .Dictionary 0 [] [] false [newOfType .List [97], newOfType .List [99]] ∧
        item = c) ∧
      ((∀ c, childByKey
          (.mk .Dictionary 0 [] [] false [newOfType .List [97], newOfType .List [99]]) [99]
          = some c → type c ≠ .Integer) →
        item = newOfType .Integer [99] ∧
        d1 = setChildren
          (.mk .Dictionary 0 [] [] false [newOfType .List [97], newOfType .List [99]])
          (insertByKey (newOfType .Integer [99])
            ((children
              (.mk .Dictionary 0 [] [] false [newOfType .List [97], newOfType .List [99]])).eraseP
              (fun c => decide (key c = [99]))))) :=
  checkAndCreate_sorted true
    (.mk .Dictionary 0 [] [] false [newOfType .List [97], newOfType .List [99]])
    .Integer [99] rfl (by decide) (by decide)

/-! ## Renaming a dictionary child (`setData`) -/

theorem newRowScan_shift (newKey : List Nat) (l : List BNode) (i : Nat) :
    newRowScan newKey l i = i + newRowScan newKey l 0 := by
  induction l generalizing i with
  | nil => simp [newRowScan]
  | cons c l ih =>
    unfold newRowScan
    split
    · rfl
    · rw [ih (i + 1), ih (0 + 1)]; omega

theorem newRowScan_le (newKey : List Nat) (l : List BNode) :
    newRowScan newKey l 0 ≤ l.length := by
  induction l with
  | nil => simp [newRowScan]
  | cons c l ih =>
    unfold newRowScan
    split
    · omega
    · rw [newRowScan_shift]; simp only [List.length_cons]; omega

/-- The item goes where the scan for the first greater key stops. -/
theorem insertByKey_eq_take_drop (x : BNode) (l : List BNode) :
    insertByKey x l
      = l.take (newRowScan (key x) l 0) ++ x :: l.drop (newRowScan (key x) l 0) := by
  induction l with
  | nil => rfl
  | cons c l ih =>
    unfold insertByKey newRowScan
    by_cases h : baLess (key x) (key c) = true
    · simp [h]
    · simp only [h, Bool.false_eq_true, if_false]
      rw [newRowScan_shift, ih]
      simp [Nat.add_comm]

theorem newRowScan_cons (newKey : List Nat) (c : BNode) (l : List BNode) (i : Nat) :
    newRowScan newKey (c :: l) i
      = if baLess newKey (key c) then i else newRowScan newKey l (i + 1) := by
  rw [newRowScan]

theorem newRowScan_append_found (newKey : List Nat) (l x : List BNode)
    (h : ∃ c ∈ l, baLess newKey (key c) = true) :
    newRowScan newKey (l ++ x) 0 = newRowScan newKey l 0 ∧ newRowScan newKey l 0 < l.length := by
  induction l with
  | nil => simp at h
  | cons c l ih =>
    rw [List.cons_append, newRowScan_cons, newRowScan_cons]
    by_cases hc : baLess newKey (key c) = true
    · simp [hc]
    · simp only [hc, Bool.false_eq_true, if_false]
      obtain ⟨c1, hmem, hc1⟩ := h
      have h1 : ∃ c ∈ l, baLess newKey (key c) = true := by
        rcases List.mem_cons.1 hmem with e | hm
        · subst e; exact absurd hc1 hc
        · exact ⟨c1, hm, hc1⟩
      rw [newRowScan_shift newKey (l ++ x), newRowScan_shift newKey l, (ih h1).1]
      exact ⟨rfl, by simp only [List.length_cons]; have := (ih h1).2; omega⟩

theorem newRowScan_append_not_found (newKey : List Nat) (l x : List BNode)
    (h : ∀ c ∈ l, baLess newKey (key c) = false) :
    newRowScan newKey (l ++ x) 0 = l.length + newRowScan newKey x 0 := by
  induction l with
  | nil => simp
  | cons c l ih =>
    rw [List.cons_append, newRowScan_cons]
    simp only [h c (by simp), Bool.false_eq_true, if_false]
    rw [newRowScan_shift, ih (fun c1 hc1 => h c1 (by simp [hc1]))]
    simp only [List.length_cons]; omega

theorem modifyRow_append (f : BNode → BNode) (l r : List BNode) (item : BNode) :
    modifyRow f (l ++ item :: r) l.length = l ++ f item :: r := by
  induction l with
  | nil => rfl
  | cons c l ih => simp [modifyRow, ih]

theorem get?_append_cons (l r : List BNode) (item : BNode) :
    (l ++ item :: r).get? l.length = some item := by
  induction l with
  | nil => rfl
  | cons c l ih => simpa using ih

theorem eraseIdx_append_cons (l r : List BNode) (item : BNode) :
    (l ++ item :: r).eraseIdx l.length = l ++ r := by
  induction l with
  | nil => rfl
  | cons c l ih => simp [List.eraseIdx, ih]

theorem setRow_append (l r : List BNode) (item : BNode) (p : Nat) :
    setRow (l ++ item :: r) l.length p = (l ++ r).take p ++ item :: (l ++ r).drop p := by
  unfold setRow
  rw [get?_append_cons, eraseIdx_append_cons]

/-- The row computed by `setData` is the row where the scan over the other children
stops. -/
theorem realRow_eq_scan (newKey : List Nat) (l r : List BNode) (item : BNode)
    (hs : keysAscending (l ++ item :: r)) :
    (if newRowScan newKey (l ++ item :: r) 0 > l.length
        then newRowScan newKey (l ++ item :: r) 0 - 1
        else newRowScan newKey (l ++ item :: r) 0)
      = newRowScan newKey (l ++ r) 0 := by
  by_cases hfound : ∃ c ∈ l, baLess newKey (key c) = true
  · obtain ⟨h1, h2⟩ := newRowScan_append_found newKey l (item :: r) hfound
    rw [h1, (newRowScan_append_found newKey l r hfound).1, if_neg (by omega)]
  · have hnot : ∀ c ∈ l, baLess newKey (key c) = false := by
      intro c hc
      cases hb : baLess newKey (key c) with
      | false => rfl
      | true => exact absurd ⟨c, hc, hb⟩ hfound
    rw [newRowScan_append_not_found newKey l _ hnot, newRowScan_append_not_found newKey l r hnot]
    unfold keysAscending at hs
    rw [List.pairwise_append, List.pairwise_cons] at hs
    by_cases hitem : baLess newKey (key item) = true
    · have h0 : newRowScan newKey (item :: r) 0 = 0 := by simp [newRowScan, hitem]
      have hr : newRowScan newKey r 0 = 0 := by
        cases r with
        | nil => rfl
        | cons c r =>
          have hc : baLess newKey (key c) = true :=
            baLess_of_lt_of_le hitem (hs.2.1.1 c (by simp))
          simp [newRowScan, hc]
      rw [h0, hr, if_neg (by omega)]
    · have h1 : newRowScan newKey (item :: r) 0 = 1 + newRowScan newKey r 0 := by
        simp only [newRowScan, hitem, Bool.false_eq_true, if_false]
        rw [newRowScan_shift]
      rw [h1, if_pos (by omega)]
      omega

/-- What `setData` does to the children, when they are in ascending key order: the
renamed child is taken out and put back before the first other child with a greater
key. -/
theorem setDataName_eq (d : BNode) (newKey : List Nat) (l r : List BNode) (item : BNode)
    (hcs : children d = l ++ item :: r) (hs : keysAscending (children d)) :
    setDataName d l.length newKey
      = setChildren d (insertByKey (setKey item newKey) (l ++ r)) := by
  have hkey : key (setKey item newKey) = newKey := rfl
  rw [insertByKey_eq_take_drop, hkey]
  unfold setDataName
  simp only [hcs, modifyRow_append]
  rw [hcs] at hs
  rw [realRow_eq_scan newKey l r item hs]
  by_cases hsame : newRowScan newKey (l ++ r) 0 = l.length
  · rw [if_pos hsame, hsame]
    simp
  · rw [if_neg hsame, setRow_append]

/-! ## Renaming a dictionary child (`setData` on the Name column) -/

/-- C22: in a dictionary whose children are in ascending key order, renaming the child in
row `row` through `setData` leaves the children in ascending key order: the other
children keep their relative order (they are `before ++ after`), and the renamed child
stands between them, after the keys that are not greater than the new key and before
the first greater one. -/
theorem setDataName_sorted (d : BNode) (row : Nat) (newKey : List Nat)
    (hrow : row < childCount d) (hs : keysAscending (children d)) :
    ∃ item before after,
      (children d).get? row = some item ∧
      (children d).eraseIdx row = before ++ after ∧
      setDataName d row newKey = setChildren d (before ++ setKey item newKey :: after) ∧
      (∀ c ∈ before, baLess newKey (key c) = false) ∧
      (∀ c, after.head? = some c → baLess newKey (key c) = true) ∧
      keysAscending (children (setDataName d row newKey)) := by
  unfold childCount at hrow
  have hsplit : children d
      = (children d).take row ++ (children d).get ⟨row, hrow⟩ :: (children d).drop (row + 1) := by
    rw [List.get_eq_getElem, List.getElem_cons_drop, List.take_append_drop]
  have hlen : ((children d).take row).length = row := by
    rw [List.length_take]; omega
  generalize hl : (children d).take row = l at hsplit hlen
  generalize hr : (children d).drop (row + 1) = r at hsplit
  generalize hi : (children d).get ⟨row, hrow⟩ = item at hsplit
  subst hlen
  have heq := setDataName_eq d newKey l r item hsplit hs
  have hothers : keysAscending (l ++ r) := by
    refine keysAscending_sublist ?_ (hsplit ▸ hs)
    exact List.Sublist.append_left (List.sublist_cons_self item r) l
  obtain ⟨before, after, h1, h2, h3, h4⟩ := insertByKey_split (setKey item newKey) (l ++ r)
  refine ⟨item, before, after, ?_, ?_, ?_, h3, h4, ?_⟩
  · rw [hsplit]; exact get?_append_cons l r item
  · rw [hsplit, eraseIdx_append_cons]; exact h1
  · rw [heq, h2]
  · rw [heq]
    simpa [setChildren, children] using
      keysAscending_insertByKey (setKey item newKey) (l ++ r) hothers

/-- Witness for `setDataName_sorted`: in a dictionary with the keys `a`, `c`, `e` the
first child is renamed to `d` and moves between `c` and `e`. -/
theorem setDataName_sorted_witness :
    ∃ item before after,
      (children (.mk .Dictionary 0 [] [] false
        [newOfType .List [97], newOfType .List [99], newOfType .List [101]])).get? 0
        = some item ∧
      (children (.mk .Dictionary 0 [] [] false
        [newOfType .List [97], newOfType .List [99], newOfType .List [101]])).eraseIdx 0
        = before ++ after ∧
      setDataName (.mk .Dictionary 0 [] [] false
        [newOfType .List [97], newOfType .List [99], newOfType .List [101]]) 0 [100]
        = setChildren (.mk .Dictionary 0 [] [] false
          [newOfType .List [97], newOfType .List [99], newOfType .List [101]])
          (before ++ setKey item [100] :: after) ∧
      (∀ c ∈ before, baLess [100] (key c) = false) ∧
      (∀ c, after.head? = some c → baLess [100] (key c) = true) ∧
      keysAscending (children (setDataName (.mk .Dictionary 0 [] [] false
        [newOfType .List [97], newOfType .List [99], newOfType .List [101]]) 0 [100])) :=
  setDataName_sorted (.mk .Dictionary 0 [] [] false
    [newOfType .List [97], newOfType .List [99], newOfType .List [101]]) 0 [100]
    (by decide) (by decide)

/-! ## The encoding determines the tree -/

/-- Two texts that agree up to and including the first occurrence of a byte. -/
theorem split_at_first {ch : Nat} : ∀ (u v x y : List Nat), ch ∉ u → ch ∉ v →
    u ++ ch :: x = v ++ ch :: y → u = v ∧ x = y
  | [], [], x, y, _, _, h => by simpa using h
  | [], b :: v, x, y, _, hv, h => by
    simp only [List.nil_append, List.cons_append, List.cons.injEq] at h
    exact absurd h.1 (fun e => hv (by simp [e]))
  | a :: u, [], x, y, hu, _, h => by
    simp only [List.nil_append, List.cons_append, List.cons.injEq] at h
    exact absurd h.1 (fun e => hu (by simp [e]))
  | a :: u, b :: v, x, y, hu, hv, h => by
    simp only [List.cons_append, List.cons.injEq] at h
    obtain ⟨e1, e2⟩ := split_at_first u v x y (fun m => hu (by simp [m]))
      (fun m => hv (by simp [m])) h.2
    exact ⟨by rw [h.1, e1], e2⟩

theorem numberNat_inj {m n : Nat} (h : numberNat m = numberNat n) : m = n := by
  have h2 := congrArg (digitsValue 0) h
  rw [numberNat_value, numberNat_value] at h2
  exact Option.some.inj h2

theorem numberNat_no_minus (n : Nat) : 45 ∉ numberNat n := fun h =>
  (isDigit_facts (numberNat_digits n 45 h)).2.2.1 rfl

theorem number_inj {m n : Int} (h : number m = number n) : m = n := by
  unfold number at h
  by_cases hm : m < 0 <;> by_cases hn : n < 0
  · rw [if_pos hm, if_pos hn] at h
    have := numberNat_inj (List.cons.inj h).2
    omega
  · rw [if_pos hm, if_neg hn] at h
    exact absurd (h ▸ List.mem_cons_self 45 _) (numberNat_no_minus _)
  · rw [if_neg hm, if_pos hn] at h
    exact absurd (h.symm ▸ List.mem_cons_self 45 _) (numberNat_no_minus _)
  · rw [if_neg hm, if_neg hn] at h
    have := numberNat_inj h
    omega

/-- A byte string `<len>:<bytes>` at the front of a text determines the bytes and the
rest of the text. -/
theorem string_inj (s s2 x y : List Nat)
    (h : numberNat s.length ++ 58 :: (s ++ x) = numberNat s2.length ++ 58 :: (s2 ++ y)) :
    s = s2 ∧ x = y := by
  have hno : ∀ n, 58 ∉ numberNat n := fun n hm =>
    (isDigit_facts (numberNat_digits n 58 hm)).2.2.2.2.1 rfl
  obtain ⟨e1, e2⟩ := split_at_first _ _ _ _ (hno _) (hno _) h
  exact List.append_inj e2 (numberNat_inj e1)

/-- The first byte of an encoding tells the type of the node. -/
theorem toRaw_first (v : BNode) (hv : isValid v = true) :
    ∃ d ds, toRaw v = d :: ds ∧
      ((type v = BType.Integer ∧ d = 105) ∨ (type v = BType.String ∧ 48 ≤ d ∧ d ≤ 57) ∨
        (type v = BType.List ∧ d = 108) ∨ (type v = BType.Dictionary ∧ d = 100)) := by
  obtain ⟨t, n, s, k, h, cs⟩ := v
  cases t
  · exact absurd hv (by simp [isValid, type])
  · exact ⟨105, _, rfl, Or.inl ⟨rfl, rfl⟩⟩
  · obtain ⟨d, ds, hds, hd⟩ := numberNat_head s.length
    refine ⟨d, ds ++ [58] ++ s, by simp [toRaw, number_ofNat, hds], Or.inr (Or.inl ⟨rfl, ?_⟩)⟩
    simpa [isDigit] using hd
  · exact ⟨108, _, rfl, Or.inr (Or.inr (Or.inl ⟨rfl, rfl⟩))⟩
  · exact ⟨100, _, rfl, Or.inr (Or.inr (Or.inr ⟨rfl, rfl⟩))⟩

theorem toRaw_type_eq (a b : BNode) (x y : List Nat) (ha : isValid a = true)
    (hb : isValid b = true) (h : toRaw a ++ x = toRaw b ++ y) : type a = type b := by
  obtain ⟨d1, ds1, e1, c1⟩ := toRaw_first a ha
  obtain ⟨d2, ds2, e2, c2⟩ := toRaw_first b hb
  rw [e1, e2] at h
  have hd : d1 = d2 := (List.cons.inj h).1
  subst hd
  rcases c1 with ⟨t1, p1⟩ | ⟨t1, p1⟩ | ⟨t1, p1⟩ | ⟨t1, p1⟩ <;>
    rcases c2 with ⟨t2, p2⟩ | ⟨t2, p2⟩ | ⟨t2, p2⟩ | ⟨t2, p2⟩ <;>
    first
    | (exfalso; omega)
    | (rw [t1, t2])

/-- Equality of two nodes does not look at their keys unless `this` stands in a
dictionary and `other` has a parent; with equal keys the context does not matter. -/
theorem compare_of_key {pt pt2 : Option BType} {pb pb2 : Bool} {a b : BNode}
    (h : compare pt pb a b = true) (hk : key a = key b) : compare pt2 pb2 a b = true := by
  obtain ⟨t, n, s, k, hx, cs⟩ := a
  obtain ⟨t2, n2, s2, k2, hx2, cs2⟩ := b
  simp only [key] at hk
  subst hk
  simp only [compare, ne_eq, not_true_eq_false, and_false, if_false] at h ⊢
  exact h

theorem compare_of_parentless {pb pb2 : Bool} {a b : BNode}
    (h : compare none pb a b = true) : compare (some BType.List) pb2 a b = true := by
  obtain ⟨t, n, s, k, hx, cs⟩ := a
  obtain ⟨t2, n2, s2, k2, hx2, cs2⟩ := b
  simp only [compare, ne_eq, false_and, if_false, reduceCtorEq] at h ⊢
  exact h

mutual
theorem toRaw_inj : ∀ (a b : BNode) (x y : List Nat), allNodes isValid a = true →
    allNodes isValid b = true → toRaw a ++ x = toRaw b ++ y →
    compare none false a b = true ∧ x = y
  | .mk t n s k hx cs, .mk t2 n2 s2 k2 hx2 cs2, x, y, ha, hb, h => by
    simp only [allNodes, Bool.and_eq_true] at ha hb
    have ht : t = t2 := toRaw_type_eq _ _ x y ha.1 hb.1 h
    subst ht
    cases t with
    | Invalid => exact absurd ha.1 (by simp [isValid, type])
    | Integer =>
      simp only [toRaw, List.append_assoc, List.singleton_append, List.cons_append,
        List.nil_append, List.cons.injEq, true_and] at h
      obtain ⟨e1, e2⟩ := split_at_first _ _ _ _ (number_no_e n) (number_no_e n2) h
      exact ⟨by simp [compare, number_inj e1], e2⟩
    | String =>
      simp only [toRaw, number_ofNat, List.append_assoc, List.singleton_append,
        List.cons_append, List.nil_append] at h
      obtain ⟨e1, e2⟩ := string_inj s s2 x y h
      exact ⟨by simp [compare, e1], e2⟩
    | List =>
      simp only [toRaw, List.append_assoc, List.singleton_append, List.cons_append,
        List.nil_append, List.cons.injEq, true_and] at h
      obtain ⟨e1, e2, e3⟩ := toRawList_inj cs cs2 x y ha.2 hb.2 h
      exact ⟨by simp [compare, e1, e2], e3⟩
    | Dictionary =>
      simp only [toRaw, List.append_assoc, List.singleton_append, List.cons_append,
        List.nil_append, List.cons.injEq, true_and] at h
      obtain ⟨e1, e2, e3⟩ := toRawMap_inj cs cs2 x y ha.2 hb.2 h
      exact ⟨by simp [compare, e1, e2], e3⟩
theorem toRawList_inj : ∀ (cs ds : List BNode) (x y : List Nat),
    allNodesList isValid cs = true → allNodesList isValid ds = true →
    toRawList cs ++ 101 :: x = toRawList ds ++ 101 :: y →
    cs.length = ds.length ∧ compareChildren BType.List cs ds = true ∧ x = y
  | [], [], x, y, _, _, h => by
    simp only [toRawList, List.nil_append, List.cons.injEq, true_and] at h
    exact ⟨rfl, by simp [compareChildren], h⟩
  | [], d :: ds, x, y, _, hd, h => by
    simp only [allNodesList, Bool.and_eq_true] at hd
    rw [allNodes_eq, Bool.and_eq_true] at hd
    obtain ⟨e, es, he, hne⟩ := toRaw_head d hd.1.1
    simp only [toRawList, he, List.nil_append, List.cons_append, List.cons.injEq] at h
    exact absurd h.1.symm hne
  | c :: cs, [], x, y, hc, _, h => by
    simp only [allNodesList, Bool.and_eq_true] at hc
    rw [allNodes_eq, Bool.and_eq_true] at hc
    obtain ⟨e, es, he, hne⟩ := toRaw_head c hc.1.1
    simp only [toRawList, he, List.nil_append, List.cons_append, List.cons.injEq] at h
    exact absurd h.1 hne
  | c :: cs, d :: ds, x, y, hc, hd, h => by
    simp only [allNodesList, Bool.and_eq_true] at hc hd
    simp only [toRawList, List.append_assoc] at h
    obtain ⟨e1, e2⟩ := toRaw_inj c d _ _ hc.1 hd.1 h
    obtain ⟨e3, e4, e5⟩ := toRawList_inj cs ds x y hc.2 hd.2 e2
    refine ⟨by simp [e3], ?_, e5⟩
    simp only [compareChildren, Bool.and_eq_true]
    exact ⟨compare_of_parentless e1, e4⟩
theorem toRawMap_inj : ∀ (cs ds : List BNode) (x y : List Nat),
    allNodesList isValid cs = true → allNodesList isValid ds = true →
    toRawMap cs ++ 101 :: x = toRawMap ds ++ 101 :: y →
    cs.length = ds.length ∧ compareChildren BType.Dictionary cs ds = true ∧ x = y
  | [], [], x, y, _, _, h => by
    simp only [toRawMap, List.nil_append, List.cons.injEq, true_and] at h
    exact ⟨rfl, by simp [compareChildren], h⟩
  | [], d :: ds, x, y, _, _, h => by
    obtain ⟨e, es, he, hdig⟩ := numberNat_head (key d).length
    simp only [toRawMap, number_ofNat, he, List.nil_append, List.cons_append,
      List.cons.injEq] at h
    exact absurd h.1.symm (isDigit_facts hdig).2.2.2.2.2
  | c :: cs, [], x, y, _, _, h => by
    obtain ⟨e, es, he, hdig⟩ := numberNat_head (key c).length
    simp only [toRawMap, number_ofNat, he, List.nil_append, List.cons_append,
      List.cons.injEq] at h
    exact absurd h.1 (isDigit_facts hdig).2.2.2.2.2
  | c :: cs, d :: ds, x, y, hc, hd, h => by
    simp only [allNodesList, Bool.and_eq_true] at hc hd
    simp only [toRawMap, number_ofNat, List.append_assoc, List.singleton_append,
      List.cons_append, List.nil_append] at h
    obtain ⟨k1, k2⟩ := string_inj (key c) (key d) _ _ h
    obtain ⟨e1, e2⟩ := toRaw_inj c d _ _ hc.1 hd.1 k2
    obtain ⟨e3, e4, e5⟩ := toRawMap_inj cs ds x y hc.2 hd.2 e2
    refine ⟨by simp [e3], ?_, e5⟩
    simp only [compareChildren, Bool.and_eq_true]
    exact ⟨compare_of_key e1 k1, e4⟩
end

/-! ## Injectivity of the encoder -/

/-- C29: the encoder is injective on trees without Invalid nodes, up to `compare`: when
two parentless trees `a` and `b` without Invalid nodes have the same encoding,
`a.compare(b)` is true. -/
theorem toRaw_injective (a b : BNode) (ha : allNodes isValid a = true)
    (hb : allNodes isValid b = true) (h : toRaw a = toRaw b) :
    compare none false a b = true := by
  have h2 : toRaw a ++ [] = toRaw b ++ [] := by rw [h]
  exact (toRaw_inj a b [] [] ha hb h2).1

/-- Witness for `toRaw_injective`: two dictionaries with the same encoding `d1:ai1ee`
that differ in the hex flag and the root key. -/
theorem toRaw_injective_witness :
    allNodes isValid (.mk .Dictionary 0 [] [] false [.mk .Integer 1 [] [97] false []]) = true ∧
    allNodes isValid (.mk .Dictionary 0 [] [114] true [.mk .Integer 1 [] [97] true []]) = true ∧
    toRaw (.mk .Dictionary 0 [] [] false [.mk .Integer 1 [] [97] false []])
      = toRaw (.mk .Dictionary 0 [] [114] true [.mk .Integer 1 [] [97] true []]) ∧
    compare none false (.mk .Dictionary 0 [] [] false [.mk .Integer 1 [] [97] false []])
      (.mk .Dictionary 0 [] [114] true [.mk .Integer 1 [] [97] true []]) = true :=
  ⟨by decide, by decide, by decide,
    toRaw_injective (.mk .Dictionary 0 [] [] false [.mk .Integer 1 [] [97] false []])
      (.mk .Dictionary 0 [] [114] true [.mk .Integer 1 [] [97] true []])
      (by decide) (by decide) (by decide)⟩

end Bencode
